import Mathlib

/-!
Verification of the TPSDP anticlustering core (`anticlustering.c`, second part).

This file is a shallow embedding in Lean 4 of the population-based
three-phase search code for the maximally diverse grouping problem
(`Build_Delta_Matrix`, `One_Move_Update_Delta_Matrix1`, `RandLS`,
`StrongPerturbation`, `DirectPerturbation`, `Crossover`, `FitRadioAndDis`,
`inputing`, `Proof`), together with theorems settling the specification
claims about it.

Modelling conventions:
* C `double` values are modelled as rationals (`ℚ`); the epsilon constant
  `0.0001` is modelled as `1/10000`.
* C `int` values are modelled as `ℤ` (or `ℕ` for loop indices); the C
  conversion of a `double` to an `int` (truncation toward zero) is
  modelled by `cTrunc`.
* C arrays are modelled as total functions from `ℕ`; only indices below
  the relevant bound (`N` or `K`) are ever read by the embedded code.
* `rand()` is modelled by an oracle stream `rnd : ℕ → ℕ` consumed at an
  explicit cursor, and the coin flip `rand() / (RAND_MAX + 1.0) < 0.5`
  in `Crossover` by a Boolean stream; all theorems quantify over the
  streams.
* unbounded C loops are modelled with explicit fuel; loops whose
  iteration count is determined by the code are modelled by structural
  recursion on that count.
-/

namespace TPSDP


/-- Pointwise update of a modelled C array (`a[i] = v`). -/
def upd {α : Type} (f : ℕ → α) (i : ℕ) (v : α) : ℕ → α :=
  fun j => if j = i then v else f j

/-- C conversion of a `double` to an `int`: truncation toward zero. -/
def cTrunc (q : ℚ) : ℤ := Int.tdiv q.num (q.den : ℤ)

/-! ## Delta matrix (`Build_Delta_Matrix`, lines 1015-1036)

`Build_Delta_Matrix` clears `Delta_Matrix` and then, for every ordered
pair `(i,j)`, accumulates `D[i][j]` into `Delta_Matrix[i][p[j]]`; the
resulting entry `DM[i][g]` is the sum of `D[i][j]` over the `j < N`
currently assigned to group `g`. -/
def Build_Delta_Matrix (N : ℕ) (D : ℕ → ℕ → ℚ) (p : ℕ → ℕ) : ℕ → ℕ → ℚ :=
  fun i g => ∑ j ∈ Finset.range N, if p j = g then D i j else 0

/-- The total cost `f` computed at the end of `Build_Delta_Matrix`:
`f = (Σ_i Delta_Matrix[i][p[i]]) / 2`. -/
def buildCost (N : ℕ) (D : ℕ → ℕ → ℚ) (p : ℕ → ℕ) : ℚ :=
  (∑ i ∈ Finset.range N, Build_Delta_Matrix N D p i (p i)) / 2

/-- The brute-force objective recomputed by `Proof` (lines 859-881):
`ff = Σ_{i < j, p i = p j} D[i][j]`. -/
def bruteCost (N : ℕ) (D : ℕ → ℕ → ℚ) (p : ℕ → ℕ) : ℚ :=
  ∑ i ∈ Finset.range N, ∑ j ∈ Finset.range N,
    if i < j ∧ p i = p j then D i j else 0

/-- Hypothesis bundle: `D` is symmetric with zero diagonal on `[0,N)`,
as guaranteed by `inputing`. -/
abbrev DOk (N : ℕ) (D : ℕ → ℕ → ℚ) : Prop :=
  (∀ i < N, ∀ j < N, D i j = D j i) ∧ (∀ i < N, D i i = 0)

/-! ## Incremental update (`One_Move_Update_Delta_Matrix1`, lines 1096-1109)

For every `j ≠ i`: `Delta_Matrix[j][g0] -= D[i][j]; Delta_Matrix[j][g1] += D[i][j]`.
Row `i` is untouched. -/
def One_Move_Update_Delta_Matrix1 (D : ℕ → ℕ → ℚ) (i g0 g1 : ℕ)
    (DM : ℕ → ℕ → ℚ) : ℕ → ℕ → ℚ :=
  fun j g =>
    if j = i then DM j g
    else DM j g - (if g = g0 then D i j else 0) + (if g = g1 then D i j else 0)

/-! ## Move sequences (claim C6) -/

/-- One elementary move as performed by the local search: set `p[i] := g1`
and call `One_Move_Update_Delta_Matrix1(i, p[i], g1)` on the delta matrix. -/
def applyMove (D : ℕ → ℕ → ℚ) (st : (ℕ → ℕ) × (ℕ → ℕ → ℚ)) (m : ℕ × ℕ) :
    (ℕ → ℕ) × (ℕ → ℕ → ℚ) :=
  (upd st.1 m.1 m.2, One_Move_Update_Delta_Matrix1 D m.1 (st.1 m.1) m.2 st.2)

/-- A sequence of elementary moves applied in order. -/
def applyMoves (D : ℕ → ℕ → ℚ) (moves : List (ℕ × ℕ))
    (st : (ℕ → ℕ) × (ℕ → ℕ → ℚ)) : (ℕ → ℕ) × (ℕ → ℕ → ℚ) :=
  moves.foldl (applyMove D) st

/-! ## Local search (`RandLS`, lines 1111-1171)

`RandLS` copies the partition into `p`, calls `Build_Delta_Matrix`, and
then repeats a sweep over the single-move neighborhood followed by the
swap neighborhood until a whole sweep commits no move (`Flag == 0`).
The epsilon tolerance is `0.0001`, the swap gain uses `DT[x][y] = 2*D[x][y]`
(set up by `inputing`, lines 718-719). -/
def epsLS : ℚ := 1 / 10000

/-- `DT` as filled by `inputing`: twice the distance matrix. -/
def DT (D : ℕ → ℕ → ℚ) (x y : ℕ) : ℚ := 2 * D x y

/-- The mutable state of `RandLS`: partition `p`, group sizes, delta
matrix, cached cost `f` and the sweep flag. -/
structure LSState where
  p : ℕ → ℕ
  sz : ℕ → ℤ
  DM : ℕ → ℕ → ℚ
  f : ℚ
  flag : Bool

/-- A candidate inspected during one sweep: a single-element relocation
`mv v g` or a pairwise swap `sw x y` (`x < y` in the enumeration). -/
inductive LSCand where
  | mv (v g : ℕ)
  | sw (x y : ℕ)

/-- The candidates of one sweep, in the order scanned by `RandLS`:
all `(v,g)` with `v < N, g < K`, then all pairs `x < y < N`. -/
def lsCands (N K : ℕ) : List LSCand :=
  ((List.range N).flatMap fun v => (List.range K).map fun g => LSCand.mv v g)
    ++ ((List.range N).flatMap fun x =>
        ((List.range N).filter fun y => x < y).map fun y => LSCand.sw x y)

/-- Processing one candidate: commit it (first-improvement) exactly when
the feasibility guard holds and the gain exceeds the epsilon. -/
def lsStep (D : ℕ → ℕ → ℚ) (LB UB : ℕ → ℤ) (s : LSState) (c : LSCand) : LSState :=
  match c with
  | LSCand.mv v g =>
    if s.p v ≠ g ∧ LB (s.p v) < s.sz (s.p v) ∧ s.sz g < UB g then
      let delt := s.DM v g - s.DM v (s.p v)
      if epsLS < delt then
        let old_g := s.p v
        let sz1 := upd s.sz old_g (s.sz old_g - 1)
        { p := upd s.p v g
          sz := upd sz1 g (sz1 g + 1)
          DM := One_Move_Update_Delta_Matrix1 D v old_g g s.DM
          f := s.f + delt
          flag := true }
      else s
    else s
  | LSCand.sw x y =>
    if s.p x ≠ s.p y then
      let delt := (s.DM x (s.p y) - s.DM x (s.p x))
        + (s.DM y (s.p x) - s.DM y (s.p y)) - DT D x y
      if epsLS < delt then
        let old_g := s.p x
        let old_g1 := s.p y
        { p := upd (upd s.p x old_g1) y old_g
          sz := s.sz
          DM := One_Move_Update_Delta_Matrix1 D y old_g1 old_g
            (One_Move_Update_Delta_Matrix1 D x old_g old_g1 s.DM)
          f := s.f + delt
          flag := true }
      else s
    else s

/-- One do-while iteration of `RandLS`: reset `Flag`, then scan both
neighborhoods in order. -/
def lsSweep (N K : ℕ) (D : ℕ → ℕ → ℚ) (LB UB : ℕ → ℤ) (s : LSState) : LSState :=
  (lsCands N K).foldl (lsStep D LB UB) { s with flag := false }

/-- The do-while loop of `RandLS`, with explicit fuel; `none` means the
fuel ran out before a sweep made no change. -/
def lsLoop (N K : ℕ) (D : ℕ → ℕ → ℚ) (LB UB : ℕ → ℤ) :
    ℕ → LSState → Option LSState
  | 0, _ => none
  | fuel + 1, s =>
    let s' := lsSweep N K D LB UB s
    if s'.flag then lsLoop N K D LB UB fuel s' else some s'

/-- `RandLS`: build the delta matrix and the initial cost, then loop. -/
def RandLS (N K : ℕ) (D : ℕ → ℕ → ℚ) (LB UB : ℕ → ℤ) (fuel : ℕ)
    (partition : ℕ → ℕ) (SizeGroup : ℕ → ℤ) : Option LSState :=
  lsLoop N K D LB UB fuel
    { p := partition
      sz := SizeGroup
      DM := Build_Delta_Matrix N D partition
      f := buildCost N D partition
      flag := false }

/-- The commit condition of `lsStep`. -/
def improves (D : ℕ → ℕ → ℚ) (LB UB : ℕ → ℤ) (s : LSState) : LSCand → Prop
  | LSCand.mv v g =>
    (s.p v ≠ g ∧ LB (s.p v) < s.sz (s.p v) ∧ s.sz g < UB g)
      ∧ epsLS < s.DM v g - s.DM v (s.p v)
  | LSCand.sw x y =>
    s.p x ≠ s.p y
      ∧ epsLS < (s.DM x (s.p y) - s.DM x (s.p x))
          + (s.DM y (s.p x) - s.DM y (s.p y)) - DT D x y

/-- Index bounds satisfied by every sweep candidate. -/
def candOk (N : ℕ) : LSCand → Prop
  | LSCand.mv v _ => v < N
  | LSCand.sw x y => x < N ∧ y < N

/-- The invariant maintained by the local search: the delta matrix agrees
row-wise (on `[0,N)`) with a from-scratch rebuild, and the cached cost is
the built cost of the current assignment. -/
def LSInv (N : ℕ) (D : ℕ → ℕ → ℚ) (s : LSState) : Prop :=
  (∀ i < N, ∀ g, s.DM i g = Build_Delta_Matrix N D s.p i g)
    ∧ s.f = buildCost N D s.p

/-- Sum of all dissimilarities over unordered pairs: the upper bound on
the objective when `D` is nonnegative. -/
def totalD (N : ℕ) (D : ℕ → ℕ → ℚ) : ℚ :=
  ∑ i ∈ Finset.range N, ∑ j ∈ Finset.range N, if i < j then D i j else 0

/-- A fuel budget sufficient for `RandLS` to reach a local optimum. -/
def lsFuel (N : ℕ) (D : ℕ → ℕ → ℚ) : ℕ := ⌈totalD N D * 10000⌉₊ + 1

/-! ## Concrete witness instance (used by the witness theorems) -/

/-- Witness distances: `D i j = 1` off the diagonal, `0` on it. -/
def Dw : ℕ → ℕ → ℚ := fun i j => if i = j then 0 else 1

def LBw : ℕ → ℤ := fun _ => 0

def UBw : ℕ → ℤ := fun _ => 2

def pw : ℕ → ℕ := fun i => i % 2

def szw : ℕ → ℤ := fun _ => 1

/-! ## Offspring acceptance (`FitRadioAndDis`, lines 1633-1647, and the
replacement rule of `SearchAlgorithm`, lines 1734-1750)

In the C source `count`, `N` and `K` are `int`s, so `count / (N * N)`
is an integer division (truncation); the result is multiplied by `K`
(still an `int`) before being promoted to `double` for `0.05 * ...`. -/

/-- The pairwise disagreement count of `FitRadioAndDis`: the number of
pairs `i < j` whose co-grouping status differs between the two
partitions. -/
def disCount (N : ℕ) (partition1 partition2 : ℕ → ℕ) : ℤ :=
  ∑ i ∈ Finset.range N, ∑ j ∈ Finset.range N,
    if i < j ∧ ((partition1 i = partition1 j ∧ partition2 i ≠ partition2 j)
        ∨ (partition1 i ≠ partition1 j ∧ partition2 i = partition2 j))
    then 1 else 0

/-- `FitRadioAndDis` exactly as computed by the C code:
`radio = cost1 / cost2 + 0.05 * (count / (N * N) * K)` with
`count / (N * N)` an integer division. -/
def FitRadioAndDis (N K : ℕ) (partition1 partition2 : ℕ → ℕ)
    (cost1 cost2 : ℚ) : ℚ :=
  cost1 / cost2
    + (5 / 100) * ((Int.tdiv (disCount N partition1 partition2) ((N : ℤ) * N)
        * (K : ℤ) : ℤ) : ℚ)

/-- The same score as the specification words it, with real division:
`(child.cost / parent.cost) + 0.05·(disagreements / N²)·K`. -/
def fitScoreSpec (N K : ℕ) (partition1 partition2 : ℕ → ℕ)
    (cost1 cost2 : ℚ) : ℚ :=
  cost1 / cost2
    + (5 / 100) * (((disCount N partition1 partition2 : ℚ) / ((N : ℚ) * N)) * K)

/-- The replacement rule applied after crossover + local search
(`SearchAlgorithm`, lines 1734-1744): the offspring replaces the parent
iff its cost is at least the parent's, or `FitRadioAndDis` exceeds 1. -/
def offspringReplaces (N K : ℕ) (child parent : ℕ → ℕ)
    (childCost parentCost : ℚ) : Prop :=
  parentCost ≤ childCost
    ∨ 1 < FitRadioAndDis N K child parent childCost parentCost

/-! ## `DirectPerturbation` removal selection (lines 1255-1272)

For each group `k` the code scans all elements of group `k` keeping a
running minimum in `Minsd`; but `Minsd` is declared `int`, so the
assignment `Minsd = Delta_Matrix[i][k]` truncates the `double` toward
zero and later comparisons are made against the truncated value. -/

/-- The element marked for removal from group `k` (`Rd[k] = MinE`),
with the C `int` truncation of `Minsd` modelled by `cTrunc`. -/
def DirectPerturbation_Rd (N : ℕ) (DM : ℕ → ℕ → ℚ) (p : ℕ → ℕ) (k : ℕ) : ℕ :=
  ((List.range N).foldl
    (fun acc i =>
      if p i = k ∧ DM i k < (acc.2 : ℚ) then (i, cTrunc (DM i k)) else acc)
    (0, (99999999 : ℤ))).1

/-- The distances of the C9 failing instance (`N = 3`, one group):
`D(0,1) = 0.7`, `D(0,2) = 5`, `D(1,2) = 4.5`, symmetric, zero diagonal. -/
def D9 : ℕ → ℕ → ℚ := fun i j =>
  if (i = 0 ∧ j = 1) ∨ (i = 1 ∧ j = 0) then 7/10
  else if (i = 0 ∧ j = 2) ∨ (i = 2 ∧ j = 0) then 5
  else if (i = 1 ∧ j = 2) ∨ (i = 2 ∧ j = 1) then 9/2
  else 0

/-! ## Instance loading (`inputing`, lines 655-725) and `Proof` (lines 859-881)

`inputing` terminates the process (`exit(0)`) only when the file fails
to open, when the header read hits end-of-file, or when an edge endpoint
is outside `[0, N)`.  It never compares `sum(LB)` or `sum(UB)` with `N`.
`Proof` recomputes the objective and the group sizes of a finished
solution and returns `0` when some group violates its bounds. -/

/-- The only data-dependent rejection performed by `inputing`: some edge
`(x1, x2, d)` has `x1 < 0 || x2 < 0 || x1 >= N || x2 >= N`. -/
def inputing_rejects (N : ℕ) (edges : List (ℤ × ℤ × ℚ)) : Bool :=
  edges.any fun e =>
    decide (e.1 < 0) || decide (e.2.1 < 0)
      || decide ((N : ℤ) ≤ e.1) || decide ((N : ℤ) ≤ e.2.1)

/-- The group sizes recomputed by `Proof`. -/
def Proof_SizeG (N : ℕ) (p : ℕ → ℕ) (g : ℕ) : ℤ :=
  (((Finset.range N).filter fun i => p i = g).card : ℤ)

/-- The feasibility flag returned by `Proof`: `1` iff every group size
lies within `[LB, UB]`. -/
def Proof_flag (N K : ℕ) (LB UB : ℕ → ℤ) (p : ℕ → ℕ) : Bool :=
  (List.range K).all fun g =>
    ! (decide (Proof_SizeG N p g < LB g) || decide (UB g < Proof_SizeG N p g))

/-! ## Neighbor catalog and `StrongPerturbation` (lines 979-1003, 1173-1233) -/

/-- One entry of the neighbor catalog (`struct Neighborhood`). -/
structure Neighborhood where
  type : ℕ
  v : ℕ
  g : ℕ
  x : ℕ
  y : ℕ

/-- `BuildNeighbors`: first the `N*K` relocation candidates `(i, g)` in
row-major order, then the `N*(N-1)/2` swap candidates `(i, j)` with
`i < j`; fields not set by the C code are modelled as `0`. -/
def BuildNeighbors (N K : ℕ) : List Neighborhood :=
  ((List.range N).flatMap fun i => (List.range K).map fun g =>
      { type := 1, v := i, g := g, x := 0, y := 0 })
    ++ ((List.range N).flatMap fun i =>
        ((List.range N).filter fun j => i < j).map fun j =>
          { type := 2, v := 0, g := 0, x := i, y := j })

/-- The state mutated by `StrongPerturbation`: partition, group sizes,
the accepted-move counter `count`, and the `rand()` cursor. -/
structure SPState where
  p : ℕ → ℕ
  sz : ℕ → ℤ
  count : ℕ
  t : ℕ

/-- One iteration of the `StrongPerturbation` do-while body: draw a
uniformly random catalog entry; apply a relocation candidate iff it
changes group and is feasible, a swap candidate iff the groups differ.
The gain `delt` read from `Delta_Matrix` is computed exactly as in the
source but used in no decision. -/
def SPStep (N K : ℕ) (D : ℕ → ℕ → ℚ) (LB UB : ℕ → ℤ) (DM : ℕ → ℕ → ℚ)
    (rnd : ℕ → ℕ) (s : SPState) : SPState :=
  let cur_index := rnd s.t % (N * (N - 1) / 2 + N * K)
  let nb := (BuildNeighbors N K).getD cur_index ⟨0, 0, 0, 0, 0⟩
  if nb.type = 1 then
    if s.p nb.v ≠ nb.g ∧ LB (s.p nb.v) < s.sz (s.p nb.v) ∧ s.sz nb.g < UB nb.g then
      let delt := DM nb.v nb.g - DM nb.v (s.p nb.v)
      let old_g := s.p nb.v
      let sz1 := upd s.sz old_g (s.sz old_g - 1)
      { p := upd s.p nb.v nb.g, sz := upd sz1 nb.g (sz1 nb.g + 1)
        , count := s.count + 1, t := s.t + 1 }
    else { s with t := s.t + 1 }
  else if nb.type = 2 then
    if s.p nb.x ≠ s.p nb.y then
      let delt := (DM nb.x (s.p nb.y) - DM nb.x (s.p nb.x))
        + (DM nb.y (s.p nb.x) - DM nb.y (s.p nb.y)) - 2 * D nb.x nb.y
      { p := upd (upd s.p nb.x (s.p nb.y)) nb.y (s.p nb.x), sz := s.sz
        , count := s.count + 1, t := s.t + 1 }
    else { s with t := s.t + 1 }
  else { s with t := s.t + 1 }

/-- The do-while loop `do { ... } while (count < theta)`, with fuel. -/
def SPLoop (N K : ℕ) (D : ℕ → ℕ → ℚ) (LB UB : ℕ → ℤ) (DM : ℕ → ℕ → ℚ)
    (rnd : ℕ → ℕ) (theta : ℤ) : ℕ → SPState → Option SPState
  | 0, _ => none
  | fuel + 1, s =>
    let s' := SPStep N K D LB UB DM rnd s
    if (s'.count : ℤ) < theta then SPLoop N K D LB UB DM rnd theta fuel s'
    else some s'

/-- `StrongPerturbation(L, partition, SizeGroup)`: run the body until
`count` reaches `theta = L` (the body executes at least once). -/
def StrongPerturbation (N K : ℕ) (D : ℕ → ℕ → ℚ) (LB UB : ℕ → ℤ)
    (DM : ℕ → ℕ → ℚ) (rnd : ℕ → ℕ) (L : ℤ) (fuel : ℕ)
    (partition : ℕ → ℕ) (SizeGroup : ℕ → ℤ) (t0 : ℕ) : Option SPState :=
  SPLoop N K D LB UB DM rnd L fuel
    { p := partition, sz := SizeGroup, count := 0, t := t0 }

/-- The invariant of claim C8: group ids in range, sizes summing to `N`,
all sizes within `[LB, UB]`. -/
def SPInv (N K : ℕ) (LB UB : ℕ → ℤ) (s : SPState) : Prop :=
  (∀ i < N, s.p i < K)
    ∧ (∑ g ∈ Finset.range K, s.sz g = (N : ℤ))
    ∧ ∀ g < K, LB g ≤ s.sz g ∧ s.sz g ≤ UB g

/-! ## `Crossover` (lines 1353-1632)

State conventions mirror the C globals: `sc` is the child assignment
(`-1` = unassigned), `scSizeGroup` the child group sizes, `p1`/`p2` the
working parent copies whose entries are overwritten with `-1` once an
element is consumed, `vEle[i] = -1` once element `i` is assigned
(`= i` while free), `ub[g] = -1` once child group `g` is closed
(`= UB[g]` while open).  The coin flip `rand()/(RAND_MAX+1.0) < 0.5` is
modelled by the Boolean stream `coins` (one flip per main-loop round),
all `rand() % m` draws by `rnd` at a running cursor `t`. -/

/-- `Build_GroupDiv_For_Crossover` (lines 1038-1051): per-group cohesion
`gDiv[g] = Σ_{i,j : p i = p j = g} D[i][j]` (both orders, zero diagonal). -/
def Build_GroupDiv_For_Crossover (N : ℕ) (D : ℕ → ℕ → ℚ) (p : ℕ → ℕ) :
    ℕ → ℚ :=
  fun g => ∑ i ∈ Finset.range N, ∑ j ∈ Finset.range N,
    if p i = p j ∧ p i = g then D i j else 0

/-- Number of child elements currently assigned to group `g`. -/
def cnt (N : ℕ) (sc : ℕ → ℤ) (g : ℤ) : ℤ :=
  (((Finset.range N).filter fun i => sc i = g).card : ℤ)

/-- The cyclic scan `do { x = (x+1) % len } while (!f x)`, with fuel. -/
def cycFind (f : ℕ → Bool) (len : ℕ) : ℕ → ℕ → ℕ
  | start, 0 => (start + 1) % len
  | start, fuel + 1 =>
    let c := (start + 1) % len
    if f c then c else cycFind f len c fuel

/-- The `gDivMax` scan (lines 1410-1416): running maximum kept in an
`int` (`gDivMax = gDiv_p1[j]` truncates), initial value `-9999`; the
C variable `g` is uninitialized when no entry beats `-9999`, modelled
as `0`. -/
def gDivArgmax (K : ℕ) (gg : ℕ → ℚ) : ℕ :=
  ((List.range K).foldl
    (fun acc j => if gg j > (acc.2 : ℚ) then (j, cTrunc (gg j)) else acc)
    (0, (-9999 : ℤ))).1

/-- The no-fit target-group scan (lines 1430-1437): minimize the
capacity shortfall `lengthSE - ub[j]` over open groups, sentinel
`num = 999999`; `pickG` is uninitialized when nothing qualifies,
modelled as `0`. -/
def noFitPick (K : ℕ) (ubF : ℕ → ℤ) (len : ℤ) : ℕ × ℤ :=
  (List.range K).foldl
    (fun acc j => if ubF j ≠ -1 ∧ len - ubF j < acc.2 then (j, len - ubF j) else acc)
    (0, (999999 : ℤ))

/-- The crossover state during the main `K`-round loop. -/
structure CxSt where
  sc : ℕ → ℤ
  scSizeGroup : ℕ → ℤ
  p1 : ℕ → ℤ
  p2 : ℕ → ℤ
  gDiv_p1 : ℕ → ℚ
  gDiv_p2 : ℕ → ℚ
  vEle : ℕ → ℤ
  ub : ℕ → ℤ
  t : ℕ

/-- Assigning all retained elements of the fit branch
(lines 1455-1463): `sc[e] = pickG; vEle[e] = -1` for each member. -/
def assignLoop (pickG : ℕ) : List ℕ → CxSt → CxSt
  | [], st => st
  | e :: rest, st =>
    assignLoop pickG rest
      { st with sc := upd st.sc e (pickG : ℤ), vEle := upd st.vEle e (-1) }

/-- The no-fit retain loop (lines 1439-1453): `m` times, draw a start
position, scan cyclically for an unconsumed `SelectEle` slot, assign
that element to `pickG` and mark the slot `-1`.  The slot array is the
function `SEF` (entries `-1` once consumed), `len` its length; the
retained elements are collected in order (`SelectEleTemp`). -/
def retainLoop (rnd : ℕ → ℕ) (pickG len : ℕ) :
    ℕ → (ℕ → ℤ) → List ℕ → CxSt → List ℕ × CxSt
  | 0, _, temp, st => (temp, st)
  | m + 1, SEF, temp, st =>
    let pv0 := rnd st.t % len
    let pv := cycFind (fun pos => decide (SEF pos ≠ -1)) len pv0 len
    let e := (SEF pv).toNat
    retainLoop rnd pickG len m (upd SEF pv (-1)) (temp ++ [e])
      { st with sc := upd st.sc e (pickG : ℤ), vEle := upd st.vEle e (-1)
                , t := st.t + 1 }

/-- The per-element bookkeeping after a pick (lines 1521-1526): subtract
each consumed element's delta-matrix row entry from its parent group's
running `gDiv`, then erase it from both parent copies. -/
def consumeLoop (dm1 dm2 : ℕ → ℕ → ℚ) : List ℕ → CxSt → CxSt
  | [], st => st
  | e :: rest, st =>
    let i1 := (st.p1 e).toNat
    let i2 := (st.p2 e).toNat
    consumeLoop dm1 dm2 rest
      { st with
        gDiv_p1 := upd st.gDiv_p1 i1 (st.gDiv_p1 i1 - dm1 e i1)
        gDiv_p2 := upd st.gDiv_p2 i2 (st.gDiv_p2 i2 - dm2 e i2)
        p1 := upd st.p1 e (-1)
        p2 := upd st.p2 e (-1) }

/-- One round of the main crossover loop (lines 1408-1529): flip a coin
to pick the donor parent, take its most cohesive remaining group's
unconsumed members, and either place them all into a random open child
group with enough capacity, or (no-fit) retain a random subset of the
size of the least-short open group; finally update the `gDiv` trackers
and close the chosen child group. -/
def cxIter (N K : ℕ) (dm1 dm2 : ℕ → ℕ → ℚ) (coins : ℕ → Bool)
    (rnd : ℕ → ℕ) (st : CxSt) (k : ℕ) : CxSt :=
  let pp := if coins k then st.p1 else st.p2
  let gg := if coins k then st.gDiv_p1 else st.gDiv_p2
  let g := gDivArgmax K gg
  let SE := (List.range N).filter fun j => decide (pp j = (g : ℤ))
  let SG := (List.range K).filter fun j =>
    decide (st.ub j ≠ -1 ∧ (SE.length : ℤ) ≤ st.ub j)
  if SG.length = 0 then
    let pk := noFitPick K st.ub (SE.length : ℤ)
    let m := ((SE.length : ℤ) - pk.2).toNat
    let res := retainLoop rnd pk.1 SE.length m
      (fun pos => (SE.map fun (e : ℕ) => (e : ℤ)).getD pos (-1)) [] st
    let st2 := consumeLoop dm1 dm2 res.1 res.2
    { st2 with ub := upd st2.ub pk.1 (-1)
               , scSizeGroup := upd st2.scSizeGroup pk.1 (res.1.length : ℤ) }
  else
    let pickG := SG.getD (rnd st.t % SG.length) 0
    let st1 := assignLoop pickG SE { st with t := st.t + 1 }
    let st2 := consumeLoop dm1 dm2 SE st1
    { st2 with ub := upd st2.ub pickG (-1)
               , scSizeGroup := upd st2.scSizeGroup pickG (SE.length : ℤ) }

/-- The crossover state during the three repair loops, with the flag
arrays and running counters of lines 1530-1631. -/
structure CxSt2 where
  sc : ℕ → ℤ
  scSizeGroup : ℕ → ℤ
  vEle : ℕ → ℤ
  LBGroup : ℕ → Bool
  BigThanLB : ℕ → Bool
  UBGroup : ℕ → Bool
  count : ℤ
  sumLowerThanLB : ℤ
  sum : ℤ
  t : ℕ

/-- Repair loop 1 (lines 1554-1573), `while (count < sumLB)`: free a
random member of a random group still above its `LB`. -/
def lbFreeLoop (N K : ℕ) (LB : ℕ → ℤ) (rnd : ℕ → ℕ) :
    ℕ → CxSt2 → CxSt2
  | 0, st => st
  | m + 1, st =>
    let pickG := cycFind st.BigThanLB K (rnd st.t % K) K
    let SE := (List.range N).filter fun j => decide (st.sc j = (pickG : ℤ))
    let e := SE.getD (rnd (st.t + 1) % SE.length) 0
    let newSize := st.scSizeGroup pickG - 1
    lbFreeLoop N K LB rnd m
      { st with
        sc := upd st.sc e (-1)
        vEle := upd st.vEle e (e : ℤ)
        scSizeGroup := upd st.scSizeGroup pickG newSize
        BigThanLB := if newSize = LB pickG then upd st.BigThanLB pickG false
          else st.BigThanLB
        count := st.count + 1
        t := st.t + 2 }

/-- Repair loop 2 (lines 1582-1601), `while (sumLowerThanLB < sum)`:
assign a random free element to a random group still below its `LB`. -/
def lbFillLoop (N K : ℕ) (LB : ℕ → ℤ) (rnd : ℕ → ℕ) :
    ℕ → CxSt2 → CxSt2
  | 0, st => st
  | m + 1, st =>
    let pickG := cycFind st.LBGroup K (rnd st.t % K) K
    let SE := (List.range N).filter fun i => decide (st.vEle i ≠ -1)
    let e := SE.getD (rnd (st.t + 1) % SE.length) 0
    let newSize := st.scSizeGroup pickG + 1
    lbFillLoop N K LB rnd m
      { st with
        sc := upd st.sc e (pickG : ℤ)
        vEle := upd st.vEle e (-1)
        scSizeGroup := upd st.scSizeGroup pickG newSize
        LBGroup := if newSize = LB pickG then upd st.LBGroup pickG false
          else st.LBGroup
        sumLowerThanLB := st.sumLowerThanLB + 1
        t := st.t + 2 }

/-- Repair loop 3 (lines 1602-1629), `while (sum < N)`: assign a random
free element to a random group still below its `UB`. -/
def ubFillLoop (N K : ℕ) (UB : ℕ → ℤ) (rnd : ℕ → ℕ) :
    ℕ → CxSt2 → CxSt2
  | 0, st => st
  | m + 1, st =>
    let pickG := cycFind st.UBGroup K (rnd st.t % K) K
    let SE := (List.range N).filter fun i => decide (st.vEle i ≠ -1)
    let e := SE.getD (rnd (st.t + 1) % SE.length) 0
    let newSize := st.scSizeGroup pickG + 1
    ubFillLoop N K UB rnd m
      { st with
        sc := upd st.sc e (pickG : ℤ)
        vEle := upd st.vEle e (-1)
        scSizeGroup := upd st.scSizeGroup pickG newSize
        UBGroup := if newSize = UB pickG then upd st.UBGroup pickG false
          else st.UBGroup
        sum := st.sum + 1
        t := st.t + 2 }

/-- `Crossover(partition1, partition2, sc, scSizeGroup)`: returns the
child assignment and child group sizes. -/
def Crossover (N K : ℕ) (D : ℕ → ℕ → ℚ) (LB UB : ℕ → ℤ)
    (coins : ℕ → Bool) (rnd : ℕ → ℕ) (partition1 partition2 : ℕ → ℕ) :
    (ℕ → ℤ) × (ℕ → ℤ) :=
  let dm1 := Build_Delta_Matrix N D partition1
  let dm2 := Build_Delta_Matrix N D partition2
  let st0 : CxSt :=
    { sc := fun _ => -1
      scSizeGroup := fun _ => 0
      p1 := fun i => (partition1 i : ℤ)
      p2 := fun i => (partition2 i : ℤ)
      gDiv_p1 := Build_GroupDiv_For_Crossover N D partition1
      gDiv_p2 := Build_GroupDiv_For_Crossover N D partition2
      vEle := fun i => (i : ℤ)
      ub := UB
      t := 0 }
  let stK := (List.range K).foldl (cxIter N K dm1 dm2 coins rnd) st0
  let sumLB := ∑ g ∈ Finset.range K, LB g
  let count0 := (∑ g ∈ Finset.range K,
      if stK.scSizeGroup g < LB g then stK.scSizeGroup g else LB g)
    + (((List.range N).filter fun i => decide (stK.vEle i ≠ -1)).length : ℤ)
  let st2 : CxSt2 :=
    { sc := stK.sc
      scSizeGroup := stK.scSizeGroup
      vEle := stK.vEle
      LBGroup := fun g => decide (stK.scSizeGroup g < LB g)
      BigThanLB := fun g => decide (LB g < stK.scSizeGroup g)
      UBGroup := fun _ => false
      count := count0
      sumLowerThanLB := ∑ g ∈ Finset.range K,
        if stK.scSizeGroup g < LB g then stK.scSizeGroup g else 0
      sum := 0
      t := stK.t }
  let st3 := lbFreeLoop N K LB rnd (sumLB - count0).toNat st2
  let sum5 := ∑ g ∈ Finset.range K, if st3.LBGroup g then LB g else 0
  let st4 := lbFillLoop N K LB rnd (sum5 - st3.sumLowerThanLB).toNat st3
  let sum6 := ∑ g ∈ Finset.range K, st4.scSizeGroup g
  let st5 := ubFillLoop N K UB rnd ((N : ℤ) - sum6).toNat
    { st4 with UBGroup := fun g => decide (st4.scSizeGroup g < UB g), sum := sum6 }
  (st5.sc, st5.scSizeGroup)

/-- Characterization of the accumulator values reachable by the no-fit
scan. -/
def nfQ (K : ℕ) (ubF : ℕ → ℤ) (len : ℤ) (acc : ℕ × ℤ) : Prop :=
  acc = (0, 999999)
    ∨ (acc.1 < K ∧ ubF acc.1 ≠ -1 ∧ acc.2 = len - ubF acc.1 ∧ acc.2 < 999999)

/-- Number of still-open child groups. -/
def openCnt (K : ℕ) (st : CxSt) : ℕ :=
  ((Finset.range K).filter fun g => st.ub g ≠ -1).card

/-- The invariant of the main crossover loop. -/
def KInv (N K : ℕ) (UB : ℕ → ℤ) (st : CxSt) : Prop :=
  (∀ g : ℕ, st.ub g = -1 ∨ st.ub g = UB g)
    ∧ (∀ g < K, st.scSizeGroup g = cnt N st.sc (g : ℤ))
    ∧ (∀ g < K, 0 ≤ st.scSizeGroup g ∧ st.scSizeGroup g ≤ UB g)
    ∧ (∀ g < K, st.ub g ≠ -1 → cnt N st.sc (g : ℤ) = 0)
    ∧ (∀ i < N, (st.sc i = -1 ∧ st.vEle i = (i : ℤ))
        ∨ (0 ≤ st.sc i ∧ st.sc i < (K : ℤ) ∧ st.vEle i = -1))
    ∧ (∀ i < N, st.p1 i ≠ -1 → st.sc i = -1)
    ∧ (∀ i < N, st.p2 i ≠ -1 → st.sc i = -1)

def freeCnt (N : ℕ) (sc : ℕ → ℤ) : ℤ :=
  (((Finset.range N).filter fun i => sc i = -1).card : ℤ)

def parentCnt (N : ℕ) (q : ℕ → ℕ) (g : ℕ) : ℤ :=
  (((Finset.range N).filter fun i => q i = g).card : ℤ)

/-- The invariant carried through repair loop 1 (`while (count < sumLB)`,
lines 1554-1573). -/
def R1Inv (N K : ℕ) (LB UB : ℕ → ℤ) (s : CxSt2) : Prop :=
  (∀ g < K, s.scSizeGroup g = cnt N s.sc (g : ℤ))
    ∧ (∀ g < K, 0 ≤ s.scSizeGroup g ∧ s.scSizeGroup g ≤ UB g)
    ∧ (∀ i < N, (s.sc i = -1 ∧ s.vEle i = (i : ℤ))
        ∨ (0 ≤ s.sc i ∧ s.sc i < (K : ℤ) ∧ s.vEle i = -1))
    ∧ (∀ g, s.BigThanLB g = decide (LB g < s.scSizeGroup g))
    ∧ (∀ g, s.LBGroup g = decide (s.scSizeGroup g < LB g))
    ∧ s.count = (∑ g ∈ Finset.range K,
        if s.scSizeGroup g < LB g then s.scSizeGroup g else LB g) + freeCnt N s.sc
    ∧ s.sumLowerThanLB = ∑ g ∈ Finset.range K,
        if s.scSizeGroup g < LB g then s.scSizeGroup g else 0

/-- The invariant carried through repair loop 2 (`while (sumLowerThanLB
< sum)`, lines 1582-1601); `F0` is the set of groups flagged below-`LB`
when the loop starts. -/
def R2Inv (N K : ℕ) (LB UB : ℕ → ℤ) (F0 : ℕ → Bool) (s : CxSt2) : Prop :=
  (∀ g < K, s.scSizeGroup g = cnt N s.sc (g : ℤ))
    ∧ (∀ g < K, 0 ≤ s.scSizeGroup g ∧ s.scSizeGroup g ≤ UB g)
    ∧ (∀ i < N, (s.sc i = -1 ∧ s.vEle i = (i : ℤ))
        ∨ (0 ≤ s.sc i ∧ s.sc i < (K : ℤ) ∧ s.vEle i = -1))
    ∧ (∀ g, s.LBGroup g = (F0 g && decide (s.scSizeGroup g < LB g)))
    ∧ (∀ g, F0 g = true → s.scSizeGroup g ≤ LB g)
    ∧ (∀ g < K, F0 g = false → LB g ≤ s.scSizeGroup g)
    ∧ s.sumLowerThanLB
        = ∑ g ∈ Finset.range K, (if F0 g then s.scSizeGroup g else 0)
    ∧ (∑ g ∈ Finset.range K, (if F0 g then LB g - s.scSizeGroup g else 0))
        ≤ freeCnt N s.sc

/-- The invariant carried through repair loop 3 (`while (sum < N)`,
lines 1602-1629). -/
def R3Inv (N K : ℕ) (LB UB : ℕ → ℤ) (s : CxSt2) : Prop :=
  (∀ g < K, s.scSizeGroup g = cnt N s.sc (g : ℤ))
    ∧ (∀ g < K, 0 ≤ s.scSizeGroup g ∧ s.scSizeGroup g ≤ UB g)
    ∧ (∀ i < N, (s.sc i = -1 ∧ s.vEle i = (i : ℤ))
        ∨ (0 ≤ s.sc i ∧ s.sc i < (K : ℤ) ∧ s.vEle i = -1))
    ∧ (∀ g, s.UBGroup g = decide (s.scSizeGroup g < UB g))
    ∧ (∀ g < K, LB g ≤ s.scSizeGroup g)
    ∧ s.sum = ∑ g ∈ Finset.range K, s.scSizeGroup g

@[simp] theorem upd_same {α : Type} (f : ℕ → α) (i : ℕ) (v : α) : upd f i v i = v := by
  simp [upd]

theorem upd_ne {α : Type} (f : ℕ → α) {i j : ℕ} (v : α) (h : j ≠ i) : upd f i v j = f j := by
  simp [upd, h]

theorem buildCost_eq_bruteCost {N : ℕ} {D : ℕ → ℕ → ℚ} (hD : DOk N D)
    (p : ℕ → ℕ) : buildCost N D p = bruteCost N D p := by
  obtain ⟨hsym, hdiag⟩ := hD
  have hsplit : ∀ i ∈ Finset.range N, ∀ j ∈ Finset.range N,
      (if p j = p i then D i j else 0)
        = (if i < j ∧ p i = p j then D i j else 0)
          + (if j < i ∧ p i = p j then D i j else 0)
          + (if i = j ∧ p i = p j then D i j else 0) := by
    intro i _ j _
    by_cases hpj : p j = p i
    · rcases lt_trichotomy i j with h | h | h
      · rw [if_pos hpj, if_pos ⟨h, hpj.symm⟩, if_neg (by omega : ¬(j < i ∧ p i = p j)),
          if_neg (by omega : ¬(i = j ∧ p i = p j))]
        ring
      · rw [if_pos hpj, if_neg (by omega : ¬(i < j ∧ p i = p j)),
          if_neg (by omega : ¬(j < i ∧ p i = p j)), if_pos ⟨h, hpj.symm⟩]
        ring
      · rw [if_pos hpj, if_neg (by omega : ¬(i < j ∧ p i = p j)),
          if_pos ⟨h, hpj.symm⟩, if_neg (by omega : ¬(i = j ∧ p i = p j))]
        ring
    · have hne : p i ≠ p j := fun h => hpj h.symm
      rw [if_neg hpj, if_neg (by tauto : ¬(i < j ∧ p i = p j)),
        if_neg (by tauto : ¬(j < i ∧ p i = p j)), if_neg (by tauto : ¬(i = j ∧ p i = p j))]
      ring
  have hgt : (∑ i ∈ Finset.range N, ∑ j ∈ Finset.range N,
      if j < i ∧ p i = p j then D i j else 0)
      = ∑ i ∈ Finset.range N, ∑ j ∈ Finset.range N,
        if i < j ∧ p i = p j then D i j else 0 := by
    rw [Finset.sum_comm]
    refine Finset.sum_congr rfl fun j hj => Finset.sum_congr rfl fun i hi => ?_
    rw [Finset.mem_range] at hi hj
    by_cases h : j < i ∧ p i = p j
    · rw [if_pos h, if_pos ⟨h.1, h.2.symm⟩, hsym i hi j hj]
    · rw [if_neg h, if_neg (by tauto : ¬(j < i ∧ p j = p i))]
  have hdz : (∑ i ∈ Finset.range N, ∑ j ∈ Finset.range N,
      if i = j ∧ p i = p j then D i j else 0) = 0 := by
    refine Finset.sum_eq_zero fun i hi => Finset.sum_eq_zero fun j _ => ?_
    rw [Finset.mem_range] at hi
    by_cases h : i = j ∧ p i = p j
    · rw [if_pos h, ← h.1, hdiag i hi]
    · rw [if_neg h]
  have key : ∑ i ∈ Finset.range N, Build_Delta_Matrix N D p i (p i)
      = 2 * bruteCost N D p := by
    unfold Build_Delta_Matrix bruteCost
    calc ∑ i ∈ Finset.range N, ∑ j ∈ Finset.range N, (if p j = p i then D i j else 0)
        = ∑ i ∈ Finset.range N, ∑ j ∈ Finset.range N,
            ((if i < j ∧ p i = p j then D i j else 0)
              + (if j < i ∧ p i = p j then D i j else 0)
              + (if i = j ∧ p i = p j then D i j else 0)) := by
          exact Finset.sum_congr rfl fun i hi => Finset.sum_congr rfl fun j hj =>
            hsplit i hi j hj
      _ = (∑ i ∈ Finset.range N, ∑ j ∈ Finset.range N, if i < j ∧ p i = p j then D i j else 0)
            + (∑ i ∈ Finset.range N, ∑ j ∈ Finset.range N, if j < i ∧ p i = p j then D i j else 0)
            + (∑ i ∈ Finset.range N, ∑ j ∈ Finset.range N, if i = j ∧ p i = p j then D i j else 0) := by
          simp [Finset.sum_add_distrib]
      _ = 2 * ∑ i ∈ Finset.range N, ∑ j ∈ Finset.range N,
            (if i < j ∧ p i = p j then D i j else 0) := by
          rw [hgt, hdz]
          ring
  unfold buildCost
  rw [key]
  unfold bruteCost
  ring

/-- Splitting off the term at `v` from a `Finset.range` sum. -/
theorem sum_range_split {M : Type} [AddCommMonoid M] {N v : ℕ} (hv : v < N)
    (f : ℕ → M) :
    ∑ j ∈ Finset.range N, f j = f v + ∑ j ∈ (Finset.range N).erase v, f j :=
  (Finset.add_sum_erase _ f (Finset.mem_range.mpr hv)).symm

/-- Effect of a single reassignment on one `Build_Delta_Matrix` entry. -/
theorem Build_Delta_Matrix_upd {N : ℕ} {D : ℕ → ℕ → ℚ} (p : ℕ → ℕ)
    {i : ℕ} (hi : i < N) (g1 : ℕ) (j g : ℕ) :
    Build_Delta_Matrix N D (upd p i g1) j g
      = Build_Delta_Matrix N D p j g
        - (if p i = g then D j i else 0) + (if g1 = g then D j i else 0) := by
  unfold Build_Delta_Matrix
  rw [sum_range_split hi, sum_range_split hi
    (f := fun t => if p t = g then D j t else 0)]
  have herase : ∀ t ∈ (Finset.range N).erase i,
      (if upd p i g1 t = g then D j t else 0) = (if p t = g then D j t else 0) := by
    intro t ht
    rw [upd_ne _ _ (Finset.ne_of_mem_erase ht)]
  rw [Finset.sum_congr rfl herase, upd_same]
  ring

/-- Correctness of the incremental update: starting from the delta matrix
built for `p`, the O(N) update for moving element `i` from its current
group to `g1` yields exactly the delta matrix built from scratch for the
updated assignment (C6 single-step). -/
theorem One_Move_Update_correct {N : ℕ} {D : ℕ → ℕ → ℚ} (hD : DOk N D)
    (p : ℕ → ℕ) {i : ℕ} (hi : i < N) (g1 : ℕ) :
    ∀ j < N, ∀ g, One_Move_Update_Delta_Matrix1 D i (p i) g1
        (Build_Delta_Matrix N D p) j g
      = Build_Delta_Matrix N D (upd p i g1) j g := by
  obtain ⟨hsym, hdiag⟩ := hD
  intro j hj g
  unfold One_Move_Update_Delta_Matrix1
  by_cases hji : j = i
  · subst hji
    rw [if_pos rfl, Build_Delta_Matrix_upd p hi, hdiag j hj]
    simp
  · rw [if_neg hji, Build_Delta_Matrix_upd p hi, hsym i hi j hj]
    have h1 : (if p i = g then D j i else 0) = (if g = p i then D j i else 0) := by
      by_cases h : p i = g
      · rw [if_pos h, if_pos h.symm]
      · rw [if_neg h, if_neg fun hh => h hh.symm]
    have h2 : (if g1 = g then D j i else 0) = (if g = g1 then D j i else 0) := by
      by_cases h : g1 = g
      · rw [if_pos h, if_pos h.symm]
      · rw [if_neg h, if_neg fun hh => h hh.symm]
    rw [h1, h2]

/-- Effect of a single reassignment on the cached cost: moving `v` to `g1`
changes `buildCost` by exactly the move gain
`Delta_Matrix[v][g1] - Delta_Matrix[v][p v]` read from the built matrix. -/
theorem buildCost_upd {N : ℕ} {D : ℕ → ℕ → ℚ} (hD : DOk N D) (p : ℕ → ℕ)
    {v : ℕ} (hv : v < N) (g1 : ℕ) :
    buildCost N D (upd p v g1)
      = buildCost N D p
        + (Build_Delta_Matrix N D p v g1 - Build_Delta_Matrix N D p v (p v)) := by
  obtain ⟨hsym, hdiag⟩ := hD
  unfold buildCost
  rw [sum_range_split hv, sum_range_split hv
    (f := fun i => Build_Delta_Matrix N D p i (p i))]
  have hrow : Build_Delta_Matrix N D (upd p v g1) v (upd p v g1 v)
      = Build_Delta_Matrix N D p v g1 := by
    rw [upd_same, Build_Delta_Matrix_upd p hv, hsym v hv v hv, hdiag v hv]
    simp
  have herase : ∀ i ∈ (Finset.range N).erase v,
      Build_Delta_Matrix N D (upd p v g1) i (upd p v g1 i)
        = Build_Delta_Matrix N D p i (p i)
          - (if p i = p v then D i v else 0) + (if p i = g1 then D i v else 0) := by
    intro i hiv
    have hne := Finset.ne_of_mem_erase hiv
    rw [upd_ne _ _ hne, Build_Delta_Matrix_upd p hv]
    have h1 : (if p v = p i then D i v else 0) = (if p i = p v then D i v else 0) := by
      by_cases h : p v = p i
      · rw [if_pos h, if_pos h.symm]
      · rw [if_neg h, if_neg fun hh => h hh.symm]
    have h2 : (if g1 = p i then D i v else 0) = (if p i = g1 then D i v else 0) := by
      by_cases h : g1 = p i
      · rw [if_pos h, if_pos h.symm]
      · rw [if_neg h, if_neg fun hh => h hh.symm]
    rw [h1, h2]
  rw [hrow, Finset.sum_congr rfl herase]
  have hsub : ∀ c : ℕ, (∑ i ∈ (Finset.range N).erase v,
        if p i = c then D i v else 0)
      = Build_Delta_Matrix N D p v c - (if p v = c then D v v else 0) := by
    intro c
    have : Build_Delta_Matrix N D p v c
        = (if p v = c then D v v else 0)
          + ∑ i ∈ (Finset.range N).erase v, (if p i = c then D v i else 0) := by
      unfold Build_Delta_Matrix
      rw [sum_range_split hv]
    rw [this]
    have : ∀ i ∈ (Finset.range N).erase v,
        (if p i = c then D i v else 0) = (if p i = c then D v i else 0) := by
      intro i hiv
      have hiN : i < N := Finset.mem_range.mp (Finset.mem_of_mem_erase hiv)
      rw [hsym i hiN v hv]
    rw [Finset.sum_congr rfl this]
    ring
  rw [Finset.sum_add_distrib, Finset.sum_sub_distrib, hsub (p v), hsub g1,
    hdiag v hv]
  have hvg : (if p v = p v then (0:ℚ) else 0) = 0 := by simp
  have hvg1 : (if p v = g1 then (0:ℚ) else 0) = 0 := by simp
  rw [hvg, hvg1]
  ring

/-- C6: starting from a partition whose delta matrix was built from
scratch, any sequence of in-range moves (each updating `p[i]` and calling
`One_Move_Update_Delta_Matrix1(i, fromGroup, toGroup)`) leaves the delta
matrix entrywise equal to what `Build_Delta_Matrix` would produce on the
final partition.  In the exact rational model the equality is exact. -/
theorem applyMoves_eq_rebuild {N : ℕ} {D : ℕ → ℕ → ℚ} (hD : DOk N D)
    (moves : List (ℕ × ℕ)) (hm : ∀ m ∈ moves, m.1 < N) (p0 : ℕ → ℕ) :
    ∀ i < N, ∀ g,
      (applyMoves D moves (p0, Build_Delta_Matrix N D p0)).2 i g
        = Build_Delta_Matrix N D
            (applyMoves D moves (p0, Build_Delta_Matrix N D p0)).1 i g := by
  suffices h : ∀ (moves : List (ℕ × ℕ)), (∀ m ∈ moves, m.1 < N) →
      ∀ (p : ℕ → ℕ) (DM : ℕ → ℕ → ℚ),
      (∀ i < N, ∀ g, DM i g = Build_Delta_Matrix N D p i g) →
      ∀ i < N, ∀ g, (applyMoves D moves (p, DM)).2 i g
        = Build_Delta_Matrix N D (applyMoves D moves (p, DM)).1 i g by
    exact h moves hm p0 (Build_Delta_Matrix N D p0) (fun _ _ _ => rfl)
  intro moves
  induction moves with
  | nil => intro _ p DM hDM i hiN g; exact hDM i hiN g
  | cons m rest ih =>
    intro hm p DM hDM
    have hmN : m.1 < N := hm m (List.mem_cons_self m rest)
    have hstep : ∀ i < N, ∀ g,
        (One_Move_Update_Delta_Matrix1 D m.1 (p m.1) m.2 DM) i g
          = Build_Delta_Matrix N D (upd p m.1 m.2) i g := by
      intro i hiN g
      have hDMe : One_Move_Update_Delta_Matrix1 D m.1 (p m.1) m.2 DM i g
          = One_Move_Update_Delta_Matrix1 D m.1 (p m.1) m.2
              (Build_Delta_Matrix N D p) i g := by
        unfold One_Move_Update_Delta_Matrix1
        by_cases hji : i = m.1
        · rw [if_pos hji, if_pos hji, hDM i hiN]
        · rw [if_neg hji, if_neg hji, hDM i hiN]
      rw [hDMe, One_Move_Update_correct hD p hmN m.2 i hiN g]
    have : applyMoves D (m :: rest) (p, DM)
        = applyMoves D rest (applyMove D (p, DM) m) := rfl
    rw [this]
    exact ih (fun m' hm' => hm m' (List.mem_cons_of_mem m hm')) _ _ hstep

theorem lsStep_of_not_improves {D : ℕ → ℕ → ℚ} {LB UB : ℕ → ℤ} {s : LSState}
    {c : LSCand} (h : ¬ improves D LB UB s c) : lsStep D LB UB s c = s := by
  cases c with
  | mv v g =>
    simp only [lsStep]
    by_cases h1 : s.p v ≠ g ∧ LB (s.p v) < s.sz (s.p v) ∧ s.sz g < UB g
    · rw [if_pos h1, if_neg]
      intro h2
      exact h ⟨h1, h2⟩
    · rw [if_neg h1]
  | sw x y =>
    simp only [lsStep]
    by_cases h1 : s.p x ≠ s.p y
    · rw [if_pos h1, if_neg]
      intro h2
      exact h ⟨h1, h2⟩
    · rw [if_neg h1]

theorem lsStep_flag_mono {D : ℕ → ℕ → ℚ} {LB UB : ℕ → ℤ} {s : LSState}
    {c : LSCand} (h : s.flag = true) : (lsStep D LB UB s c).flag = true := by
  cases c with
  | mv v g =>
    simp only [lsStep]
    split
    · split
      · rfl
      · exact h
    · exact h
  | sw x y =>
    simp only [lsStep]
    split
    · split
      · rfl
      · exact h
    · exact h

theorem lsStep_f_mono {D : ℕ → ℕ → ℚ} {LB UB : ℕ → ℤ} (s : LSState)
    (c : LSCand) : s.f ≤ (lsStep D LB UB s c).f := by
  by_cases h : improves D LB UB s c
  · cases c with
    | mv v g =>
      simp only [lsStep]
      rw [if_pos h.1, if_pos h.2]
      have : epsLS < s.DM v g - s.DM v (s.p v) := h.2
      unfold epsLS at this
      simp only []
      linarith
    | sw x y =>
      simp only [lsStep]
      rw [if_pos h.1, if_pos h.2]
      have := h.2
      unfold epsLS at this
      simp only []
      linarith
  · rw [lsStep_of_not_improves h]

theorem lsStep_flag_f {D : ℕ → ℕ → ℚ} {LB UB : ℕ → ℤ} {s : LSState}
    {c : LSCand} (hflag : s.flag = false)
    (h : (lsStep D LB UB s c).flag = true) :
    s.f + epsLS < (lsStep D LB UB s c).f := by
  by_cases himp : improves D LB UB s c
  · cases c with
    | mv v g =>
      simp only [lsStep]
      rw [if_pos himp.1, if_pos himp.2]
      have := himp.2
      simp only []
      linarith
    | sw x y =>
      simp only [lsStep]
      rw [if_pos himp.1, if_pos himp.2]
      have := himp.2
      simp only []
      linarith
  · rw [lsStep_of_not_improves himp] at h
    rw [hflag] at h
    exact absurd h (by simp)

theorem lsStep_flag_of_improves {D : ℕ → ℕ → ℚ} {LB UB : ℕ → ℤ} {s : LSState}
    {c : LSCand} (h : improves D LB UB s c) : (lsStep D LB UB s c).flag = true := by
  cases c with
  | mv v g =>
    simp only [lsStep]
    rw [if_pos h.1, if_pos h.2]
  | sw x y =>
    simp only [lsStep]
    rw [if_pos h.1, if_pos h.2]

theorem lsCands_ok {N K : ℕ} : ∀ c ∈ lsCands N K, candOk N c := by
  intro c hc
  unfold lsCands at hc
  rcases List.mem_append.mp hc with h | h
  · obtain ⟨v, hv, hcv⟩ := List.mem_flatMap.mp h
    obtain ⟨g, _, hcg⟩ := List.mem_map.mp hcv
    subst hcg
    exact List.mem_range.mp hv
  · obtain ⟨x, hx, hcx⟩ := List.mem_flatMap.mp h
    obtain ⟨y, hy, hcy⟩ := List.mem_map.mp hcx
    subst hcy
    exact ⟨List.mem_range.mp hx,
      List.mem_range.mp (List.mem_filter.mp hy).1⟩

theorem lsCands_mem_mv {N K v g : ℕ} (hv : v < N) (hg : g < K) :
    LSCand.mv v g ∈ lsCands N K := by
  unfold lsCands
  refine List.mem_append.mpr (Or.inl ?_)
  exact List.mem_flatMap.mpr ⟨v, List.mem_range.mpr hv,
    List.mem_map.mpr ⟨g, List.mem_range.mpr hg, rfl⟩⟩

theorem lsCands_mem_sw {N K x y : ℕ} (hy : y < N) (hxy : x < y) :
    LSCand.sw x y ∈ lsCands N K := by
  unfold lsCands
  refine List.mem_append.mpr (Or.inr ?_)
  refine List.mem_flatMap.mpr ⟨x, List.mem_range.mpr (lt_trans hxy hy), ?_⟩
  refine List.mem_map.mpr ⟨y, ?_, rfl⟩
  exact List.mem_filter.mpr ⟨List.mem_range.mpr hy, by simpa using hxy⟩

/-- `One_Move_Update_Delta_Matrix1` only reads the row it writes. -/
theorem OMU1_congr_row {D : ℕ → ℕ → ℚ} {v a b : ℕ} {DM DM' : ℕ → ℕ → ℚ}
    {i : ℕ} (h : ∀ g, DM i g = DM' i g) (g : ℕ) :
    One_Move_Update_Delta_Matrix1 D v a b DM i g
      = One_Move_Update_Delta_Matrix1 D v a b DM' i g := by
  unfold One_Move_Update_Delta_Matrix1
  by_cases hvi : i = v
  · rw [if_pos hvi, if_pos hvi, h g]
  · rw [if_neg hvi, if_neg hvi, h g]

/-- Rows below `N` of the incremental update of an invariant-satisfying
matrix equal the rebuild for the updated assignment. -/
theorem OMU1_rows_correct {N : ℕ} {D : ℕ → ℕ → ℚ} (hD : DOk N D)
    {p : ℕ → ℕ} {DM : ℕ → ℕ → ℚ}
    (hDM : ∀ i < N, ∀ g, DM i g = Build_Delta_Matrix N D p i g)
    {v : ℕ} (hv : v < N) (g1 : ℕ) :
    ∀ i < N, ∀ g, One_Move_Update_Delta_Matrix1 D v (p v) g1 DM i g
      = Build_Delta_Matrix N D (upd p v g1) i g := by
  intro i hi g
  rw [OMU1_congr_row (fun g => hDM i hi g), One_Move_Update_correct hD p hv g1 i hi]

theorem lsStep_inv {N K : ℕ} {D : ℕ → ℕ → ℚ} {LB UB : ℕ → ℤ}
    (hD : DOk N D) {s : LSState} {c : LSCand} (hc : candOk N c)
    (hInv : LSInv N D s) : LSInv N D (lsStep D LB UB s c) := by
  by_cases himp : improves D LB UB s c
  · cases c with
    | mv v g =>
      have hv : v < N := hc
      simp only [lsStep]
      rw [if_pos himp.1, if_pos himp.2]
      constructor
      · intro i hi gg
        exact OMU1_rows_correct hD hInv.1 hv g i hi gg
      · show s.f + (s.DM v g - s.DM v (s.p v)) = buildCost N D (upd s.p v g)
        rw [buildCost_upd hD s.p hv g, hInv.2, hInv.1 v hv g, hInv.1 v hv (s.p v)]
    | sw x y =>
      have hx : x < N := hc.1
      have hy : y < N := hc.2
      have hxy : x ≠ y := fun h => himp.1 (by rw [h])
      simp only [lsStep]
      rw [if_pos himp.1, if_pos himp.2]
      have hp1y : upd s.p x (s.p y) y = s.p y := upd_ne _ _ (Ne.symm hxy)
      have hDM1 : ∀ i < N, ∀ g,
          One_Move_Update_Delta_Matrix1 D x (s.p x) (s.p y) s.DM i g
            = Build_Delta_Matrix N D (upd s.p x (s.p y)) i g :=
        OMU1_rows_correct hD hInv.1 hx (s.p y)
      constructor
      · intro i hi gg
        show One_Move_Update_Delta_Matrix1 D y (s.p y) (s.p x)
            (One_Move_Update_Delta_Matrix1 D x (s.p x) (s.p y) s.DM) i gg
          = Build_Delta_Matrix N D (upd (upd s.p x (s.p y)) y (s.p x)) i gg
        have := OMU1_rows_correct hD (p := upd s.p x (s.p y)) hDM1 hy (s.p x) i hi gg
        rw [hp1y] at this
        exact this
      · show s.f + ((s.DM x (s.p y) - s.DM x (s.p x))
            + (s.DM y (s.p x) - s.DM y (s.p y)) - DT D x y)
          = buildCost N D (upd (upd s.p x (s.p y)) y (s.p x))
        have hbc1 : buildCost N D (upd s.p x (s.p y))
            = buildCost N D s.p
              + (Build_Delta_Matrix N D s.p x (s.p y)
                - Build_Delta_Matrix N D s.p x (s.p x)) :=
          buildCost_upd hD s.p hx (s.p y)
        have hbc2 : buildCost N D (upd (upd s.p x (s.p y)) y (s.p x))
            = buildCost N D (upd s.p x (s.p y))
              + (Build_Delta_Matrix N D (upd s.p x (s.p y)) y (s.p x)
                - Build_Delta_Matrix N D (upd s.p x (s.p y)) y
                    (upd s.p x (s.p y) y)) :=
          buildCost_upd hD (upd s.p x (s.p y)) hy (s.p x)
      -- rewrite the two built entries of the intermediate assignment
        have he1 : Build_Delta_Matrix N D (upd s.p x (s.p y)) y (s.p x)
            = Build_Delta_Matrix N D s.p y (s.p x) - D y x := by
          rw [Build_Delta_Matrix_upd s.p hx (s.p y) y (s.p x),
            if_pos rfl, if_neg himp.1.symm]
          ring
        have he2 : Build_Delta_Matrix N D (upd s.p x (s.p y)) y (upd s.p x (s.p y) y)
            = Build_Delta_Matrix N D s.p y (s.p y) + D y x := by
          rw [hp1y, Build_Delta_Matrix_upd s.p hx (s.p y) y (s.p y),
            if_neg himp.1, if_pos rfl]
          ring
        rw [hbc2, he1, he2, hbc1, hInv.2, hInv.1 x hx (s.p y),
          hInv.1 x hx (s.p x), hInv.1 y hy (s.p x), hInv.1 y hy (s.p y)]
        unfold DT
        rw [(hD.1 x hx y hy : D x y = D y x)]
        ring
  · rw [lsStep_of_not_improves himp]
    exact hInv

/-! Fold-level facts about a sweep. -/
theorem foldl_lsStep_inv {N K : ℕ} {D : ℕ → ℕ → ℚ} {LB UB : ℕ → ℤ}
    (hD : DOk N D) :
    ∀ (l : List LSCand), (∀ c ∈ l, candOk N c) → ∀ s : LSState,
      LSInv N D s → LSInv N D (l.foldl (lsStep D LB UB) s) := by
  intro l
  induction l with
  | nil => intro _ s h; exact h
  | cons c l ih =>
    intro hl s h
    exact ih (fun c' hc' => hl c' (List.mem_cons_of_mem c hc')) _
      (lsStep_inv (K := K) hD (hl c (List.mem_cons_self c l)) h)

theorem foldl_lsStep_flag_mono {D : ℕ → ℕ → ℚ} {LB UB : ℕ → ℤ} :
    ∀ (l : List LSCand) (s : LSState), s.flag = true →
      (l.foldl (lsStep D LB UB) s).flag = true := by
  intro l
  induction l with
  | nil => intro s h; exact h
  | cons c l ih => intro s h; exact ih _ (lsStep_flag_mono h)

theorem foldl_lsStep_f_mono {D : ℕ → ℕ → ℚ} {LB UB : ℕ → ℤ} :
    ∀ (l : List LSCand) (s : LSState), s.f ≤ (l.foldl (lsStep D LB UB) s).f := by
  intro l
  induction l with
  | nil => intro s; exact le_refl _
  | cons c l ih =>
    intro s
    exact le_trans (lsStep_f_mono s c) (ih _)

theorem foldl_lsStep_id_of_flag_false {D : ℕ → ℕ → ℚ} {LB UB : ℕ → ℤ} :
    ∀ (l : List LSCand) (s : LSState), s.flag = false →
      (l.foldl (lsStep D LB UB) s).flag = false →
      l.foldl (lsStep D LB UB) s = s ∧ ∀ c ∈ l, ¬ improves D LB UB s c := by
  intro l
  induction l with
  | nil => intro s _ _; exact ⟨rfl, by simp⟩
  | cons c l ih =>
    intro s hsf hf
    have hnotimp : ¬ improves D LB UB s c := by
      intro himp
      have h1 : (lsStep D LB UB s c).flag = true := lsStep_flag_of_improves himp
      have := @foldl_lsStep_flag_mono D LB UB l _ h1
      rw [List.foldl_cons] at hf
      rw [hf] at this
      exact absurd this (by simp)
    have hstep : lsStep D LB UB s c = s := lsStep_of_not_improves hnotimp
    rw [List.foldl_cons, hstep] at hf ⊢
    obtain ⟨heq, hall⟩ := ih s hsf hf
    refine ⟨heq, fun c' hc' => ?_⟩
    rcases List.mem_cons.mp hc' with h | h
    · subst h; exact hnotimp
    · exact hall c' h

theorem foldl_lsStep_increase {D : ℕ → ℕ → ℚ} {LB UB : ℕ → ℤ} :
    ∀ (l : List LSCand) (s : LSState), s.flag = false →
      (l.foldl (lsStep D LB UB) s).flag = true →
      s.f + epsLS < (l.foldl (lsStep D LB UB) s).f := by
  intro l
  induction l with
  | nil =>
    intro s hsf hf
    simp only [List.foldl_nil] at hf
    rw [hsf] at hf
    exact absurd hf (by simp)
  | cons c l ih =>
    intro s hsf hf
    rw [List.foldl_cons] at hf ⊢
    by_cases h1 : (lsStep D LB UB s c).flag = true
    · have hup : s.f + epsLS < (lsStep D LB UB s c).f := lsStep_flag_f hsf h1
      exact lt_of_lt_of_le hup (foldl_lsStep_f_mono l _)
    · have h1' : (lsStep D LB UB s c).flag = false := by
        cases hfl : (lsStep D LB UB s c).flag
        · rfl
        · exact absurd hfl h1
      have hnotimp : ¬ improves D LB UB s c := by
        intro himp
        exact h1 (lsStep_flag_of_improves himp)
      rw [lsStep_of_not_improves hnotimp] at hf ⊢
      exact ih s hsf hf

theorem foldl_lsStep_id_of_not_improves {D : ℕ → ℕ → ℚ} {LB UB : ℕ → ℤ} :
    ∀ (l : List LSCand) (s : LSState), (∀ c ∈ l, ¬ improves D LB UB s c) →
      l.foldl (lsStep D LB UB) s = s := by
  intro l
  induction l with
  | nil => intro s _; rfl
  | cons c l ih =>
    intro s h
    rw [List.foldl_cons, lsStep_of_not_improves (h c (List.mem_cons_self c l))]
    exact ih s fun c' hc' => h c' (List.mem_cons_of_mem c hc')

/-- Candidates read only `p`, `sz` and rows `< N` of the delta matrix. -/
theorem improves_congr {N : ℕ} {D : ℕ → ℕ → ℚ} {LB UB : ℕ → ℤ}
    {s1 s2 : LSState} (hp : s1.p = s2.p) (hsz : s1.sz = s2.sz)
    (hDM : ∀ i < N, ∀ g, s1.DM i g = s2.DM i g) {c : LSCand}
    (hc : candOk N c) : improves D LB UB s1 c ↔ improves D LB UB s2 c := by
  cases c with
  | mv v g =>
    have hv : v < N := hc
    simp only [improves]
    rw [hp, hsz, hDM v hv g, hDM v hv (s2.p v)]
  | sw x y =>
    obtain ⟨hx, hy⟩ := hc
    simp only [improves]
    rw [hp, hDM x hx (s2.p y), hDM x hx (s2.p x), hDM y hy (s2.p x),
      hDM y hy (s2.p y)]

theorem lsSweep_inv {N K : ℕ} {D : ℕ → ℕ → ℚ} {LB UB : ℕ → ℤ}
    (hD : DOk N D) {s : LSState} (h : LSInv N D s) :
    LSInv N D (lsSweep N K D LB UB s) := by
  unfold lsSweep
  exact foldl_lsStep_inv (K := K) hD _ lsCands_ok _ h

theorem lsSweep_exit {N K : ℕ} {D : ℕ → ℕ → ℚ} {LB UB : ℕ → ℤ}
    {s : LSState} (h : (lsSweep N K D LB UB s).flag = false) :
    lsSweep N K D LB UB s = { s with flag := false }
      ∧ ∀ c ∈ lsCands N K, ¬ improves D LB UB { s with flag := false } c := by
  unfold lsSweep at h ⊢
  exact foldl_lsStep_id_of_flag_false _ _ rfl h

theorem lsSweep_increase {N K : ℕ} {D : ℕ → ℕ → ℚ} {LB UB : ℕ → ℤ}
    {s : LSState} (h : (lsSweep N K D LB UB s).flag = true) :
    s.f + epsLS < (lsSweep N K D LB UB s).f := by
  unfold lsSweep at h ⊢
  exact foldl_lsStep_increase _ _ rfl h

/-- Facts about the state returned by the local-search loop: the
invariant holds, the flag is down, and no candidate improves. -/
theorem lsLoop_some {N K : ℕ} {D : ℕ → ℕ → ℚ} {LB UB : ℕ → ℤ}
    (hD : DOk N D) :
    ∀ (fuel : ℕ) (s out : LSState), LSInv N D s →
      lsLoop N K D LB UB fuel s = some out →
      LSInv N D out ∧ out.flag = false
        ∧ ∀ c ∈ lsCands N K, ¬ improves D LB UB out c := by
  intro fuel
  induction fuel with
  | zero => intro s out _ h; exact absurd h (by simp [lsLoop])
  | succ fuel ih =>
    intro s out hInv h
    unfold lsLoop at h
    by_cases hfl : (lsSweep N K D LB UB s).flag = true
    · rw [if_pos hfl] at h
      exact ih _ out (lsSweep_inv hD hInv) h
    · have hfl' : (lsSweep N K D LB UB s).flag = false := by
        cases hq : (lsSweep N K D LB UB s).flag
        · rfl
        · exact absurd hq hfl
      rw [if_neg hfl] at h
      obtain ⟨heq, hni⟩ := lsSweep_exit hfl'
      have hout : out = { s with flag := false } := by
        rw [← heq]
        exact (Option.some_inj.mp h).symm
      subst hout
      exact ⟨⟨hInv.1, hInv.2⟩, rfl, hni⟩

theorem bruteCost_nonneg {N : ℕ} {D : ℕ → ℕ → ℚ}
    (hnn : ∀ i < N, ∀ j < N, 0 ≤ D i j) (p : ℕ → ℕ) :
    0 ≤ bruteCost N D p := by
  unfold bruteCost
  refine Finset.sum_nonneg fun i hi => Finset.sum_nonneg fun j hj => ?_
  rw [Finset.mem_range] at hi hj
  by_cases h : i < j ∧ p i = p j
  · rw [if_pos h]; exact hnn i hi j hj
  · rw [if_neg h]

theorem bruteCost_le_totalD {N : ℕ} {D : ℕ → ℕ → ℚ}
    (hnn : ∀ i < N, ∀ j < N, 0 ≤ D i j) (p : ℕ → ℕ) :
    bruteCost N D p ≤ totalD N D := by
  unfold bruteCost totalD
  refine Finset.sum_le_sum fun i hi => Finset.sum_le_sum fun j hj => ?_
  rw [Finset.mem_range] at hi hj
  by_cases h : i < j ∧ p i = p j
  · rw [if_pos h, if_pos h.1]
  · rw [if_neg h]
    by_cases h' : i < j
    · rw [if_pos h']; exact hnn i hi j hj
    · rw [if_neg h']

theorem lsLoop_none_bound {N K : ℕ} {D : ℕ → ℕ → ℚ} {LB UB : ℕ → ℤ}
    (hD : DOk N D) (hnn : ∀ i < N, ∀ j < N, 0 ≤ D i j) :
    ∀ (fuel : ℕ) (s : LSState), LSInv N D s →
      lsLoop N K D LB UB fuel s = none →
      s.f + fuel * epsLS ≤ totalD N D := by
  intro fuel
  induction fuel with
  | zero =>
    intro s hInv _
    have : s.f = bruteCost N D s.p := by
      rw [hInv.2, buildCost_eq_bruteCost hD]
    rw [this]
    simpa using bruteCost_le_totalD hnn s.p
  | succ fuel ih =>
    intro s hInv h
    unfold lsLoop at h
    by_cases hfl : (lsSweep N K D LB UB s).flag = true
    · rw [if_pos hfl] at h
      have hb := ih _ (lsSweep_inv hD hInv) h
      have hinc := lsSweep_increase hfl
      push_cast
      push_cast at hb
      linarith
    · rw [if_neg hfl] at h
      exact absurd h (by simp)

/-- Helper: with the explicit fuel budget `lsFuel`, the local-search loop
exits normally. -/
theorem RandLS_fuel_isSome {N K : ℕ} {D : ℕ → ℕ → ℚ} {LB UB : ℕ → ℤ}
    (hD : DOk N D) (hnn : ∀ i < N, ∀ j < N, 0 ≤ D i j)
    (partition : ℕ → ℕ) (SizeGroup : ℕ → ℤ) :
    (RandLS N K D LB UB (lsFuel N D) partition SizeGroup).isSome = true := by
  cases hq : RandLS N K D LB UB (lsFuel N D) partition SizeGroup with
  | some out => rfl
  | none =>
    exfalso
    unfold RandLS at hq
    have hInv : LSInv N D
        { p := partition, sz := SizeGroup,
          DM := Build_Delta_Matrix N D partition,
          f := buildCost N D partition, flag := false } :=
      ⟨fun _ _ _ => rfl, rfl⟩
    have hb := lsLoop_none_bound hD hnn (lsFuel N D) _ hInv hq
    have hf0 : (0:ℚ) ≤ buildCost N D partition := by
      rw [buildCost_eq_bruteCost hD]
      exact bruteCost_nonneg hnn partition
    have hceil : totalD N D * 10000 ≤ (⌈totalD N D * 10000⌉₊ : ℚ) :=
      Nat.le_ceil _
    have hfuel : (lsFuel N D : ℚ) = (⌈totalD N D * 10000⌉₊ : ℚ) + 1 := by
      unfold lsFuel
      push_cast
      ring
    unfold epsLS at hb
    simp only [] at hb
    rw [hfuel] at hb
    nlinarith [hb, hf0, hceil]

/-- Claim C7: the local search always terminates.  Every accepted move
strictly increases the cost by more than `0.0001` and, for nonnegative
dissimilarities, the cost is bounded above by the sum of all pairwise
dissimilarities (`totalD`), so the do-while loop of `RandLS` exits
normally within an explicitly computable number of sweeps. -/
theorem RandLS_terminates {N K : ℕ} {D : ℕ → ℕ → ℚ} {LB UB : ℕ → ℤ}
    (hD : DOk N D) (hnn : ∀ i < N, ∀ j < N, 0 ≤ D i j)
    (partition : ℕ → ℕ) (SizeGroup : ℕ → ℤ) :
    (RandLS N K D LB UB (lsFuel N D) partition SizeGroup).isSome = true :=
  RandLS_fuel_isSome hD hnn partition SizeGroup

/-- Claim C2: the cost computed by `Build_Delta_Matrix` as
`½·Σ_i DM[i][p[i]]` equals the brute-force objective of `Proof`
(sum of `D[i][j]` over unordered in-group pairs), for symmetric `D`
with zero diagonal, and the cost reported by every completed `RandLS`
call equals the brute-force objective of the partition it returns. -/
theorem Build_cost_and_RandLS_cost_correct {N K : ℕ} {D : ℕ → ℕ → ℚ}
    {LB UB : ℕ → ℤ} (hD : DOk N D) :
    (∀ p : ℕ → ℕ, buildCost N D p = bruteCost N D p)
      ∧ ∀ (fuel : ℕ) (partition : ℕ → ℕ) (SizeGroup : ℕ → ℤ) (out : LSState),
          RandLS N K D LB UB fuel partition SizeGroup = some out →
          out.f = bruteCost N D out.p := by
  refine ⟨fun p => buildCost_eq_bruteCost hD p, ?_⟩
  intro fuel partition SizeGroup out h
  unfold RandLS at h
  have hInv : LSInv N D
      { p := partition, sz := SizeGroup,
        DM := Build_Delta_Matrix N D partition,
        f := buildCost N D partition, flag := false } :=
    ⟨fun _ _ _ => rfl, rfl⟩
  have := (lsLoop_some hD fuel _ out hInv h).1
  rw [this.2, buildCost_eq_bruteCost hD]

/-- Claim C3: when `RandLS` returns, the resulting partition is a local
optimum: no feasible single-element relocation (source size `> LB`,
destination size `< UB`) and no cross-group pairwise swap has gain
exceeding the tolerance `0.0001`; consequently a second `RandLS` run on
its own output returns the very same assignment and cost at the first
sweep. -/
theorem RandLS_local_opt_idempotent {N K : ℕ} {D : ℕ → ℕ → ℚ}
    {LB UB : ℕ → ℤ} (hD : DOk N D) (fuel : ℕ) (partition : ℕ → ℕ)
    (SizeGroup : ℕ → ℤ) (out : LSState)
    (h : RandLS N K D LB UB fuel partition SizeGroup = some out) :
    (∀ v < N, ∀ g < K, out.p v ≠ g → LB (out.p v) < out.sz (out.p v) →
        out.sz g < UB g → out.DM v g - out.DM v (out.p v) ≤ epsLS)
      ∧ (∀ x y : ℕ, x < y → y < N → out.p x ≠ out.p y →
          (out.DM x (out.p y) - out.DM x (out.p x))
            + (out.DM y (out.p x) - out.DM y (out.p y)) - DT D x y ≤ epsLS)
      ∧ ∀ fuel' : ℕ, 1 ≤ fuel' →
          RandLS N K D LB UB fuel' out.p out.sz
            = some { p := out.p, sz := out.sz
                     , DM := Build_Delta_Matrix N D out.p
                     , f := buildCost N D out.p, flag := false }
            ∧ buildCost N D out.p = out.f := by
  unfold RandLS at h
  have hInv0 : LSInv N D
      { p := partition, sz := SizeGroup,
        DM := Build_Delta_Matrix N D partition,
        f := buildCost N D partition, flag := false } :=
    ⟨fun _ _ _ => rfl, rfl⟩
  obtain ⟨hInv, hflag, hni⟩ := lsLoop_some hD fuel _ out hInv0 h
  refine ⟨?_, ?_, ?_⟩
  · intro v hv g hg hne hlb hub
    have := hni (LSCand.mv v g) (lsCands_mem_mv hv hg)
    simp only [improves] at this
    by_contra hgt
    push_neg at hgt
    exact this ⟨⟨hne, hlb, hub⟩, hgt⟩
  · intro x y hxy hy hne
    have := hni (LSCand.sw x y) (lsCands_mem_sw hy hxy)
    simp only [improves] at this
    by_contra hgt
    push_neg at hgt
    exact this ⟨hne, hgt⟩
  · intro fuel' hf'
    have hcost : buildCost N D out.p = out.f := hInv.2.symm
    obtain ⟨m, rfl⟩ : ∃ m, fuel' = m + 1 := ⟨fuel' - 1, by omega⟩
    set init2 : LSState :=
      { p := out.p, sz := out.sz, DM := Build_Delta_Matrix N D out.p,
        f := buildCost N D out.p, flag := false } with hinit2
    have hni2 : ∀ c ∈ lsCands N K, ¬ improves D LB UB init2 c := by
      intro c hc himp
      have hiff : improves D LB UB init2 c ↔ improves D LB UB out c := by
        refine @improves_congr N D LB UB init2 out rfl rfl ?_ c (lsCands_ok c hc)
        intro i hi g
        exact (hInv.1 i hi g).symm
      exact hni c hc (hiff.mp himp)
    have hsweep : lsSweep N K D LB UB init2 = init2 := by
      unfold lsSweep
      have : { init2 with flag := false } = init2 := rfl
      rw [this]
      exact foldl_lsStep_id_of_not_improves _ _ hni2
    refine ⟨?_, hcost⟩
    unfold RandLS
    show lsLoop N K D LB UB (m + 1) init2 = some init2
    unfold lsLoop
    rw [hsweep]
    rfl

theorem Build_cost_and_RandLS_cost_correct_witness :
    DOk 2 Dw
      ∧ ((∀ p : ℕ → ℕ, buildCost 2 Dw p = bruteCost 2 Dw p)
        ∧ ∀ (fuel : ℕ) (partition : ℕ → ℕ) (SizeGroup : ℕ → ℤ) (out : LSState),
            RandLS 2 2 Dw LBw UBw fuel partition SizeGroup = some out →
            out.f = bruteCost 2 Dw out.p) :=
  ⟨by decide, Build_cost_and_RandLS_cost_correct (by decide)⟩

theorem RandLS_terminates_witness :
    (DOk 2 Dw ∧ (∀ i < 2, ∀ j < 2, (0:ℚ) ≤ Dw i j))
      ∧ (RandLS 2 2 Dw LBw UBw (lsFuel 2 Dw) pw szw).isSome = true :=
  ⟨⟨by decide, by decide⟩, RandLS_terminates (by decide) (by decide) pw szw⟩

theorem RandLS_local_opt_idempotent_witness :
    DOk 2 Dw ∧ ∃ out : LSState,
      RandLS 2 2 Dw LBw UBw (lsFuel 2 Dw) pw szw = some out
        ∧ ((∀ v < 2, ∀ g < 2, out.p v ≠ g → LBw (out.p v) < out.sz (out.p v) →
              out.sz g < UBw g → out.DM v g - out.DM v (out.p v) ≤ epsLS)
          ∧ (∀ x y : ℕ, x < y → y < 2 → out.p x ≠ out.p y →
              (out.DM x (out.p y) - out.DM x (out.p x))
                + (out.DM y (out.p x) - out.DM y (out.p y)) - DT Dw x y ≤ epsLS)
          ∧ ∀ fuel' : ℕ, 1 ≤ fuel' →
              RandLS 2 2 Dw LBw UBw fuel' out.p out.sz
                = some { p := out.p, sz := out.sz
                         , DM := Build_Delta_Matrix 2 Dw out.p
                         , f := buildCost 2 Dw out.p, flag := false }
                ∧ buildCost 2 Dw out.p = out.f) := by
  refine ⟨by decide, ?_⟩
  have hsome : (RandLS 2 2 Dw LBw UBw (lsFuel 2 Dw) pw szw).isSome = true :=
    RandLS_fuel_isSome (by decide) (by decide) pw szw
  cases hq : RandLS 2 2 Dw LBw UBw (lsFuel 2 Dw) pw szw with
  | none => rw [hq] at hsome; exact absurd hsome (by simp)
  | some out =>
    exact ⟨out, rfl, RandLS_local_opt_idempotent (by decide) (lsFuel 2 Dw) pw szw out hq⟩

theorem applyMoves_eq_rebuild_witness :
    (DOk 2 Dw ∧ ∀ m ∈ [((0:ℕ), (1:ℕ))], m.1 < 2)
      ∧ ∀ i < 2, ∀ g,
          (applyMoves Dw [(0, 1)] (pw, Build_Delta_Matrix 2 Dw pw)).2 i g
            = Build_Delta_Matrix 2 Dw
                (applyMoves Dw [(0, 1)] (pw, Build_Delta_Matrix 2 Dw pw)).1 i g :=
  ⟨⟨by decide, by decide⟩,
    applyMoves_eq_rebuild (by decide) [(0, 1)] (by decide) pw⟩

/-- Helper: the disagreement count is nonnegative and below `N²`, so the
C integer division `count / (N * N)` is always zero. -/
theorem disCount_tdiv_zero {N : ℕ} (hN : 1 ≤ N)
    (partition1 partition2 : ℕ → ℕ) :
    Int.tdiv (disCount N partition1 partition2) ((N : ℤ) * N) = 0 := by
  have h0 : (0:ℤ) ≤ disCount N partition1 partition2 := by
    unfold disCount
    refine Finset.sum_nonneg fun i _ => Finset.sum_nonneg fun j _ => ?_
    split
    · exact zero_le_one
    · exact le_refl 0
  have hub : disCount N partition1 partition2 ≤ (N : ℤ) * (N - 1) := by
    unfold disCount
    have hinner : ∀ i ∈ Finset.range N,
        (∑ j ∈ Finset.range N,
          if i < j ∧ ((partition1 i = partition1 j ∧ partition2 i ≠ partition2 j)
              ∨ (partition1 i ≠ partition1 j ∧ partition2 i = partition2 j))
          then (1:ℤ) else 0) ≤ (N : ℤ) - 1 := by
      intro i _
      have hle : ∀ j ∈ Finset.range N,
          (if i < j ∧ ((partition1 i = partition1 j ∧ partition2 i ≠ partition2 j)
              ∨ (partition1 i ≠ partition1 j ∧ partition2 i = partition2 j))
          then (1:ℤ) else 0) ≤ (if 0 < j then (1:ℤ) else 0) := by
        intro j _
        split
        · rw [if_pos (by omega)]
        · split
          · exact zero_le_one
          · exact le_refl 0
      refine le_trans (Finset.sum_le_sum hle) ?_
      rw [sum_range_split hN (f := fun j => if 0 < j then (1:ℤ) else 0)]
      have : ∀ j ∈ (Finset.range N).erase 0, (if 0 < j then (1:ℤ) else 0) = 1 := by
        intro j hj
        rw [if_pos (Nat.pos_of_ne_zero (Finset.ne_of_mem_erase hj))]
      rw [Finset.sum_congr rfl this, Finset.sum_const,
        Finset.card_erase_of_mem (Finset.mem_range.mpr hN), Finset.card_range]
      simp
      omega
    refine le_trans (Finset.sum_le_sum hinner) ?_
    rw [Finset.sum_const, Finset.card_range]
    simp
  refine Int.tdiv_eq_zero_of_lt h0 ?_
  have : (1:ℤ) ≤ (N:ℤ) := by exact_mod_cast hN
  nlinarith

/-- Helper: consequently the C score is exactly the cost ratio; the
diversity term is dead code. -/
theorem FitRadioAndDis_eq_ratio {N K : ℕ} (hN : 1 ≤ N)
    (partition1 partition2 : ℕ → ℕ) (cost1 cost2 : ℚ) :
    FitRadioAndDis N K partition1 partition2 cost1 cost2 = cost1 / cost2 := by
  unfold FitRadioAndDis
  rw [disCount_tdiv_zero hN partition1 partition2]
  push_cast
  ring

/-- Claim C5 is wrong about the code: `count / (N * N)` is an integer
division and always 0, so the score computed by `FitRadioAndDis` is just
`child.cost / parent.cost` and a lower-cost child is never accepted;
the claimed real-arithmetic score (`fitScoreSpec`) would exceed 1 at the
concrete input below while the code rejects the child.  Failing input:
`N = 4`, `K = 4`, child = all elements in group 0, parent = element `i`
in group `i`, `child.cost = 19/20`, `parent.cost = 1` (all 6 pairs
disagree). -/
theorem FitRadioAndDis_int_div_bug :
    disCount 4 (fun _ => 0) (fun i => i) = 6
      ∧ FitRadioAndDis 4 4 (fun _ => 0) (fun i => i) (19/20) 1 = 19/20
      ∧ fitScoreSpec 4 4 (fun _ => 0) (fun i => i) (19/20) 1 = 41/40
      ∧ ¬ offspringReplaces 4 4 (fun _ => 0) (fun i => i) (19/20) 1
      ∧ ((19:ℚ)/20 < 1
        ∧ 1 < fitScoreSpec 4 4 (fun _ => 0) (fun i => i) (19/20) 1)
      ∧ ∀ (N K : ℕ), 1 ≤ N → ∀ (partition1 partition2 : ℕ → ℕ) (c1 c2 : ℚ),
          FitRadioAndDis N K partition1 partition2 c1 c2 = c1 / c2 := by
  have hdc : disCount 4 (fun _ => 0) (fun i => i) = 6 := by decide
  have hscore : fitScoreSpec 4 4 (fun _ => 0) (fun i => i) (19/20) 1 = 41/40 := by
    unfold fitScoreSpec
    rw [hdc]
    norm_num
  refine ⟨hdc, ?_, hscore, ?_, ⟨by norm_num, ?_⟩,
    fun N K hN q1 q2 c1 c2 => FitRadioAndDis_eq_ratio hN q1 q2 c1 c2⟩
  · rw [FitRadioAndDis_eq_ratio (by norm_num) _ _]
    norm_num
  · unfold offspringReplaces
    rw [FitRadioAndDis_eq_ratio (by norm_num) _ _]
    push_neg
    constructor
    · norm_num
    · norm_num
  · rw [hscore]
    norm_num

/-- Claim C9 is wrong about the code: with all three elements in group 0
the delta matrix column is `DM[0][0] = 5.7`, `DM[1][0] = 5.2`,
`DM[2][0] = 9.5`; after visiting element 0 the code holds
`Minsd = (int)5.7 = 5`, so `5.2 < 5` fails and element 0 is selected
although element 1 of the same group has the strictly smaller value. -/
theorem DirectPerturbation_Rd_not_min :
    DirectPerturbation_Rd 3 (Build_Delta_Matrix 3 D9 (fun _ => 0))
        (fun _ => 0) 0 = 0
      ∧ (Build_Delta_Matrix 3 D9 (fun _ => 0)) 0 0 = 57/10
      ∧ (Build_Delta_Matrix 3 D9 (fun _ => 0)) 1 0 = 26/5
      ∧ (Build_Delta_Matrix 3 D9 (fun _ => 0)) 1 0
          < (Build_Delta_Matrix 3 D9 (fun _ => 0)) 0 0 := by
  have h00 : Build_Delta_Matrix 3 D9 (fun _ => 0) 0 0 = 57/10 := by
    norm_num [Build_Delta_Matrix, Finset.sum_range_succ, D9]
  have h10 : Build_Delta_Matrix 3 D9 (fun _ => 0) 1 0 = 26/5 := by
    norm_num [Build_Delta_Matrix, Finset.sum_range_succ, D9]
  have h20 : Build_Delta_Matrix 3 D9 (fun _ => 0) 2 0 = 19/2 := by
    norm_num [Build_Delta_Matrix, Finset.sum_range_succ, D9]
  have htr : cTrunc (57/10) = 5 := by
    unfold cTrunc
    rw [(by norm_num : (57/10 : ℚ).num = 57), (by norm_num : (57/10 : ℚ).den = 10)]
    decide
  have hr : List.range 3 = [0, 1, 2] := rfl
  refine ⟨?_, h00, h10, ?_⟩
  · unfold DirectPerturbation_Rd
    rw [hr]
    norm_num [List.foldl_cons, List.foldl_nil, h00, h10, h20, htr]
  · rw [h00, h10]
    norm_num

/-- Claim C4 is wrong about the code: `inputing` performs no feasibility
check at load time.  Concrete counterexample: `N = 2`, `K = 3`,
`LB = [1,1,1]` (so `sum(LB) = 3 > 2 = N`) with the single well-formed
edge `(0, 1, 5)` is accepted by the load path, and the program proceeds
to `SearchAlgorithm` unconditionally. -/
theorem inputing_accepts_infeasible :
    ((2 : ℤ) < ∑ g ∈ Finset.range 3, (fun _ => (1 : ℤ)) g)
      ∧ inputing_rejects 2 [(0, 1, 5)] = false := by
  refine ⟨by decide, by decide⟩

/-- Amended claim: the load path rejects an instance only for a
malformed edge endpoint, regardless of the bounds; an infeasible
instance (`sum(LB) > N`) is accepted at load, and its infeasibility
surfaces only after optimization, through `Proof` returning `0` on every
candidate solution. -/
theorem inputing_rejects_only_bad_edges :
    (∀ (N : ℕ) (edges : List (ℤ × ℤ × ℚ)),
        (∀ e ∈ edges, 0 ≤ e.1 ∧ e.1 < (N : ℤ) ∧ 0 ≤ e.2.1 ∧ e.2.1 < (N : ℤ)) →
        inputing_rejects N edges = false)
      ∧ ∀ (N K : ℕ) (LB UB : ℕ → ℤ) (p : ℕ → ℕ),
          ((N : ℤ) < ∑ g ∈ Finset.range K, LB g) →
          (∀ i < N, p i < K) →
          Proof_flag N K LB UB p = false := by
  constructor
  · intro N edges he
    unfold inputing_rejects
    rw [List.any_eq_false]
    intro e hee
    obtain ⟨h1, h2, h3, h4⟩ := he e hee
    simp only [Bool.or_eq_true, decide_eq_true_eq]
    push_neg
    omega
  · intro N K LB UB p hsum hp
    by_contra hflag
    have hall : Proof_flag N K LB UB p = true := by
      cases hq : Proof_flag N K LB UB p
      · exact absurd hq hflag
      · rfl
    unfold Proof_flag at hall
    rw [List.all_eq_true] at hall
    have hbound : ∀ g ∈ Finset.range K, LB g ≤ Proof_SizeG N p g := by
      intro g hg
      have := hall g (by
        rw [List.mem_range]
        exact Finset.mem_range.mp hg)
      simp only [Bool.not_eq_true', Bool.or_eq_false_iff,
        decide_eq_false_iff_not] at this
      omega
    have hsz : ∑ g ∈ Finset.range K, Proof_SizeG N p g = (N : ℤ) := by
      unfold Proof_SizeG
      have := Finset.card_eq_sum_card_fiberwise
        (f := p) (s := Finset.range N) (t := Finset.range K)
        (fun i hi => Finset.mem_range.mpr (hp i (Finset.mem_range.mp hi)))
      rw [Finset.card_range] at this
      exact_mod_cast congrArg (fun n : ℕ => (n : ℤ)) this.symm
    have : ∑ g ∈ Finset.range K, LB g ≤ (N : ℤ) := by
      rw [← hsz]
      exact Finset.sum_le_sum hbound
    omega

theorem inputing_rejects_only_bad_edges_witness :
    ((∀ e ∈ [((0:ℤ), (1:ℤ), (5:ℚ))],
        0 ≤ e.1 ∧ e.1 < (2 : ℤ) ∧ 0 ≤ e.2.1 ∧ e.2.1 < (2 : ℤ))
      ∧ inputing_rejects 2 [(0, 1, 5)] = false)
      ∧ (((2 : ℤ) < ∑ g ∈ Finset.range 3, (fun _ => (1:ℤ)) g)
        ∧ (∀ i < 2, i % 3 < 3)
        ∧ Proof_flag 2 3 (fun _ => 1) (fun _ => 2) (fun i => i % 3) = false) :=
  ⟨⟨by decide, inputing_rejects_only_bad_edges.1 2 [(0, 1, 5)] (by decide)⟩,
    ⟨by decide, by decide,
      inputing_rejects_only_bad_edges.2 2 3 (fun _ => 1) (fun _ => 2)
        (fun i => i % 3) (by decide) (by decide)⟩⟩

/-- Claim C10: the partition produced by `StrongPerturbation` does not
depend on the contents of the delta matrix: for the same inputs and the
same random draw sequence, any two delta-matrix states produce
identical results (`delt` is computed but never used in any decision). -/
theorem StrongPerturbation_ignores_DM (N K : ℕ) (D : ℕ → ℕ → ℚ)
    (LB UB : ℕ → ℤ) (DM1 DM2 : ℕ → ℕ → ℚ) (rnd : ℕ → ℕ) (L : ℤ)
    (fuel : ℕ) (partition : ℕ → ℕ) (SizeGroup : ℕ → ℤ) (t0 : ℕ) :
    StrongPerturbation N K D LB UB DM1 rnd L fuel partition SizeGroup t0
      = StrongPerturbation N K D LB UB DM2 rnd L fuel partition SizeGroup t0 := by
  unfold StrongPerturbation
  generalize ({ p := partition, sz := SizeGroup, count := 0, t := t0 } : SPState) = s
  induction fuel generalizing s with
  | zero => rfl
  | succ fuel ih =>
    show SPLoop N K D LB UB DM1 rnd L (fuel + 1) s
      = SPLoop N K D LB UB DM2 rnd L (fuel + 1) s
    unfold SPLoop
    have hstep : SPStep N K D LB UB DM1 rnd s = SPStep N K D LB UB DM2 rnd s := rfl
    rw [hstep]
    by_cases h : ((SPStep N K D LB UB DM2 rnd s).count : ℤ) < L
    · rw [if_pos h, if_pos h]
      exact ih _
    · rw [if_neg h, if_neg h]

/-- Field bounds of any drawn catalog entry (the all-zero default entry
returned for an out-of-range index has `type = 0`). -/
theorem BuildNeighbors_mem_bounds {N K : ℕ} {nb : Neighborhood}
    (h : nb ∈ BuildNeighbors N K) :
    (nb.type = 1 → nb.v < N ∧ nb.g < K)
      ∧ (nb.type = 2 → nb.x < N ∧ nb.y < N) := by
  unfold BuildNeighbors at h
  rcases List.mem_append.mp h with h | h
  · obtain ⟨i, hi, hc⟩ := List.mem_flatMap.mp h
    obtain ⟨g, hg, hcg⟩ := List.mem_map.mp hc
    rw [← hcg]
    refine ⟨fun _ => ⟨List.mem_range.mp hi, List.mem_range.mp hg⟩, fun h2 => ?_⟩
    exact absurd h2 (by norm_num)
  · obtain ⟨i, hi, hc⟩ := List.mem_flatMap.mp h
    obtain ⟨j, hj, hcj⟩ := List.mem_map.mp hc
    rw [← hcj]
    refine ⟨fun h1 => absurd h1 (by norm_num), fun _ => ?_⟩
    exact ⟨List.mem_range.mp hi,
      List.mem_range.mp (List.mem_filter.mp hj).1⟩

theorem BuildNeighbors_getD_bounds (N K idx : ℕ) :
    (((BuildNeighbors N K).getD idx ⟨0, 0, 0, 0, 0⟩).type = 1 →
        ((BuildNeighbors N K).getD idx ⟨0, 0, 0, 0, 0⟩).v < N
          ∧ ((BuildNeighbors N K).getD idx ⟨0, 0, 0, 0, 0⟩).g < K)
      ∧ (((BuildNeighbors N K).getD idx ⟨0, 0, 0, 0, 0⟩).type = 2 →
          ((BuildNeighbors N K).getD idx ⟨0, 0, 0, 0, 0⟩).x < N
            ∧ ((BuildNeighbors N K).getD idx ⟨0, 0, 0, 0, 0⟩).y < N) := by
  by_cases hlen : idx < (BuildNeighbors N K).length
  · have hmem : (BuildNeighbors N K).getD idx ⟨0, 0, 0, 0, 0⟩ ∈ BuildNeighbors N K := by
      rw [List.getD_eq_getElem?_getD, List.getElem?_eq_getElem hlen]
      exact List.getElem_mem hlen
    exact BuildNeighbors_mem_bounds hmem
  · push_neg at hlen
    rw [List.getD_eq_default _ _ hlen]
    exact ⟨fun h => absurd h (by norm_num), fun h => absurd h (by norm_num)⟩

theorem SPStep_inv {N K : ℕ} {D : ℕ → ℕ → ℚ} {LB UB : ℕ → ℤ}
    {DM : ℕ → ℕ → ℚ} {rnd : ℕ → ℕ} {s : SPState}
    (h : SPInv N K LB UB s) : SPInv N K LB UB (SPStep N K D LB UB DM rnd s) := by
  obtain ⟨hp, hsum, hbd⟩ := h
  have hnb := BuildNeighbors_getD_bounds N K (rnd s.t % (N * (N - 1) / 2 + N * K))
  simp only [SPStep]
  set nb := (BuildNeighbors N K).getD (rnd s.t % (N * (N - 1) / 2 + N * K))
    ⟨0, 0, 0, 0, 0⟩ with hnbdef
  by_cases ht1 : nb.type = 1
  · rw [if_pos ht1]
    by_cases hg : s.p nb.v ≠ nb.g ∧ LB (s.p nb.v) < s.sz (s.p nb.v)
        ∧ s.sz nb.g < UB nb.g
    · rw [if_pos hg]
      obtain ⟨hvN, hgK⟩ := hnb.1 ht1
      have hpvK : s.p nb.v < K := hp nb.v hvN
      have hne : nb.g ≠ s.p nb.v := fun hh => hg.1 hh.symm
      have hsz : ∀ g : ℕ,
          (if g = nb.g
            then (if nb.g = s.p nb.v then s.sz (s.p nb.v) - 1 else s.sz nb.g) + 1
            else if g = s.p nb.v then s.sz (s.p nb.v) - 1 else s.sz g)
          = s.sz g + (if g = nb.g then 1 else 0)
            - (if g = s.p nb.v then 1 else 0) := by
        intro g
        rw [if_neg hne]
        by_cases h1 : g = nb.g
        · rw [if_pos h1, if_pos h1, if_neg (by rw [h1]; exact hne), ← h1]
          ring
        · rw [if_neg h1, if_neg h1]
          by_cases h2 : g = s.p nb.v
          · rw [if_pos h2, if_pos h2, h2]; ring
          · rw [if_neg h2, if_neg h2]; ring
      refine ⟨?_, ?_, ?_⟩
      · intro i hiN
        show (if i = nb.v then nb.g else s.p i) < K
        by_cases hiv : i = nb.v
        · rw [if_pos hiv]; exact hgK
        · rw [if_neg hiv]; exact hp i hiN
      · show (∑ g ∈ Finset.range K,
            if g = nb.g
              then (if nb.g = s.p nb.v then s.sz (s.p nb.v) - 1 else s.sz nb.g) + 1
              else if g = s.p nb.v then s.sz (s.p nb.v) - 1 else s.sz g)
          = (N : ℤ)
        rw [Finset.sum_congr rfl fun g _ => hsz g]
        rw [Finset.sum_sub_distrib, Finset.sum_add_distrib]
        rw [Finset.sum_ite_eq' (Finset.range K) nb.g (fun _ => (1:ℤ)),
          Finset.sum_ite_eq' (Finset.range K) (s.p nb.v) (fun _ => (1:ℤ))]
        rw [if_pos (Finset.mem_range.mpr hgK), if_pos (Finset.mem_range.mpr hpvK)]
        rw [hsum]
        ring
      · intro g hgK'
        show LB g ≤ (if g = nb.g
              then (if nb.g = s.p nb.v then s.sz (s.p nb.v) - 1 else s.sz nb.g) + 1
              else if g = s.p nb.v then s.sz (s.p nb.v) - 1 else s.sz g)
          ∧ (if g = nb.g
              then (if nb.g = s.p nb.v then s.sz (s.p nb.v) - 1 else s.sz nb.g) + 1
              else if g = s.p nb.v then s.sz (s.p nb.v) - 1 else s.sz g) ≤ UB g
        rw [hsz g]
        by_cases h1 : g = nb.g
        · rw [if_pos h1, if_neg (by rw [h1]; exact hne)]
          have h3 : s.sz g < UB g := by rw [h1]; exact hg.2.2
          constructor
          · linarith [(hbd g hgK').1]
          · linarith [h3]
        · rw [if_neg h1]
          by_cases h2 : g = s.p nb.v
          · rw [if_pos h2]
            have h3 : LB g < s.sz g := by rw [h2]; exact hg.2.1
            constructor
            · linarith [h3]
            · linarith [(hbd g hgK').2]
          · rw [if_neg h2]
            have := hbd g hgK'
            constructor
            · linarith [this.1]
            · linarith [this.2]
    · rw [if_neg hg]
      exact ⟨hp, hsum, hbd⟩
  · rw [if_neg ht1]
    by_cases ht2 : nb.type = 2
    · rw [if_pos ht2]
      by_cases hg : s.p nb.x ≠ s.p nb.y
      · rw [if_pos hg]
        obtain ⟨hxN, hyN⟩ := hnb.2 ht2
        refine ⟨?_, hsum, hbd⟩
        intro i hiN
        show (if i = nb.y then s.p nb.x
            else if i = nb.x then s.p nb.y else s.p i) < K
        by_cases h1 : i = nb.y
        · rw [if_pos h1]; exact hp nb.x hxN
        · rw [if_neg h1]
          by_cases h2 : i = nb.x
          · rw [if_pos h2]; exact hp nb.y hyN
          · rw [if_neg h2]; exact hp i hiN
      · rw [if_neg hg]
        exact ⟨hp, hsum, hbd⟩
    · rw [if_neg ht2]
      exact ⟨hp, hsum, hbd⟩

theorem SPStep_count {N K : ℕ} {D : ℕ → ℕ → ℚ} {LB UB : ℕ → ℤ}
    {DM : ℕ → ℕ → ℚ} {rnd : ℕ → ℕ} (s : SPState) :
    (SPStep N K D LB UB DM rnd s).count = s.count
      ∨ (SPStep N K D LB UB DM rnd s).count = s.count + 1 := by
  simp only [SPStep]
  split
  · split
    · right; rfl
    · left; rfl
  · split
    · split
      · right; rfl
      · left; rfl
    · left; rfl

theorem SPLoop_some_inv {N K : ℕ} {D : ℕ → ℕ → ℚ} {LB UB : ℕ → ℤ}
    {DM : ℕ → ℕ → ℚ} {rnd : ℕ → ℕ} {L : ℤ} :
    ∀ (fuel : ℕ) (s out : SPState), SPInv N K LB UB s →
      SPLoop N K D LB UB DM rnd L fuel s = some out →
      SPInv N K LB UB out ∧ ((s.count : ℤ) < L → (out.count : ℤ) = L) := by
  intro fuel
  induction fuel with
  | zero => intro s out _ h; exact absurd h (by simp [SPLoop])
  | succ fuel ih =>
    intro s out hInv h
    unfold SPLoop at h
    have hInv' : SPInv N K LB UB (SPStep N K D LB UB DM rnd s) := SPStep_inv hInv
    by_cases hc : ((SPStep N K D LB UB DM rnd s).count : ℤ) < L
    · rw [if_pos hc] at h
      obtain ⟨h1, h2⟩ := ih _ out hInv' h
      exact ⟨h1, fun _ => h2 hc⟩
    · rw [if_neg hc] at h
      have hout : out = SPStep N K D LB UB DM rnd s := (Option.some_inj.mp h).symm
      subst hout
      push_neg at hc
      refine ⟨hInv', fun hlt => ?_⟩
      rcases @SPStep_count N K D LB UB DM rnd s with hq | hq <;>
        rw [hq] <;> rw [hq] at hc <;>
        push_cast at hc ⊢ <;> omega

/-- The C8 claim as amended: every applied relocation is feasible and
group-changing, every applied swap crosses groups, so `sum(SizeG) = N`
and `LB ≤ SizeG ≤ UB` are preserved for any intensity; and when
`L ≥ 1` the loop applies exactly `L` accepted moves (`count = L` on
exit).  (For `L ≤ 0` the do-while body still runs once and may apply a
single accepted move — see the counterexample.) -/
theorem StrongPerturbation_exact_moves_and_invariant {N K : ℕ}
    {D : ℕ → ℕ → ℚ} {LB UB : ℕ → ℤ} {DM : ℕ → ℕ → ℚ} {rnd : ℕ → ℕ}
    {L : ℤ} {fuel : ℕ} {partition : ℕ → ℕ} {SizeGroup : ℕ → ℤ} {t0 : ℕ}
    {out : SPState}
    (h : StrongPerturbation N K D LB UB DM rnd L fuel partition SizeGroup t0
      = some out)
    (hp : ∀ i < N, partition i < K)
    (hsum : ∑ g ∈ Finset.range K, SizeGroup g = (N : ℤ))
    (hbd : ∀ g < K, LB g ≤ SizeGroup g ∧ SizeGroup g ≤ UB g) :
    ((∀ i < N, out.p i < K)
        ∧ (∑ g ∈ Finset.range K, out.sz g = (N : ℤ))
        ∧ ∀ g < K, LB g ≤ out.sz g ∧ out.sz g ≤ UB g)
      ∧ (1 ≤ L → (out.count : ℤ) = L) := by
  unfold StrongPerturbation at h
  have hInv0 : SPInv N K LB UB
      { p := partition, sz := SizeGroup, count := 0, t := t0 } :=
    ⟨hp, hsum, hbd⟩
  obtain ⟨hInv, hcnt⟩ := SPLoop_some_inv fuel _ out hInv0 h
  exact ⟨hInv, fun hL => hcnt (by push_cast; omega)⟩

/-- Claim C8, as stated, fails at intensity `L = 0`: the do-while body
executes once before the exit test, so `StrongPerturbation` with
`intensity = 0` can apply one accepted move.  Concrete input: `N = K = 2`,
`LB = 0`, `UB = 2`, partition `[0, 1]`, sizes `[1, 1]`, and a draw
sequence whose first draw is catalog index 1 (the feasible relocation of
element 0 to group 1): the output has `count = 1 ≠ 0` accepted moves and
element 0 has changed group. -/
theorem StrongPerturbation_zero_intensity_moves :
    (StrongPerturbation 2 2 Dw LBw UBw (fun _ _ => 0) (fun _ => 1) 0 1
        pw szw 0).map (fun s => (s.count, s.p 0, s.p 1))
      = some (1, 1, 1) := by
  decide

theorem StrongPerturbation_exact_moves_and_invariant_witness :
    ((StrongPerturbation 2 2 Dw LBw UBw (fun _ _ => 0)
        (fun t => if t % 2 = 0 then 1 else 2) 2 2 pw szw 0).isSome = true)
      ∧ ((∀ i < 2, pw i < 2)
        ∧ (∑ g ∈ Finset.range 2, szw g = (2 : ℤ))
        ∧ ∀ g < 2, LBw g ≤ szw g ∧ szw g ≤ UBw g)
      ∧ ∃ out : SPState,
          StrongPerturbation 2 2 Dw LBw UBw (fun _ _ => 0)
              (fun t => if t % 2 = 0 then 1 else 2) 2 2 pw szw 0 = some out
            ∧ ((∀ i < 2, out.p i < 2)
                ∧ (∑ g ∈ Finset.range 2, out.sz g = (2 : ℤ))
                ∧ ∀ g < 2, LBw g ≤ out.sz g ∧ out.sz g ≤ UBw g)
            ∧ ((1:ℤ) ≤ 2 → (out.count : ℤ) = 2) := by
  have hsome : (StrongPerturbation 2 2 Dw LBw UBw (fun _ _ => 0)
      (fun t => if t % 2 = 0 then 1 else 2) 2 2 pw szw 0).isSome = true := by
    decide
  refine ⟨hsome, ⟨by decide, by decide, by decide⟩, ?_⟩
  cases hq : StrongPerturbation 2 2 Dw LBw UBw (fun _ _ => 0)
      (fun t => if t % 2 = 0 then 1 else 2) 2 2 pw szw 0 with
  | none => rw [hq] at hsome; exact absurd hsome (by simp)
  | some out =>
    exact ⟨out, rfl,
      StrongPerturbation_exact_moves_and_invariant hq (by decide) (by decide)
        (by decide)⟩

theorem cycFind_lt {f : ℕ → Bool} {len : ℕ} (hlen : 0 < len) :
    ∀ (fuel start : ℕ), cycFind f len start fuel < len := by
  intro fuel
  induction fuel with
  | zero => intro start; exact Nat.mod_lt _ hlen
  | succ fuel ih =>
    intro start
    simp only [cycFind]
    by_cases h : f ((start + 1) % len) = true
    · rw [if_pos h]; exact Nat.mod_lt _ hlen
    · rw [if_neg h]; exact ih _

theorem cycFind_found_aux {f : ℕ → Bool} {len : ℕ} :
    ∀ (fuel start j : ℕ), j ≤ fuel → f ((start + 1 + j) % len) = true →
      f (cycFind f len start fuel) = true := by
  intro fuel
  induction fuel with
  | zero =>
    intro start j hj hf
    have hj0 : j = 0 := Nat.le_zero.mp hj
    subst hj0
    simpa using hf
  | succ fuel ih =>
    intro start j hj hf
    simp only [cycFind]
    by_cases h : f ((start + 1) % len) = true
    · rw [if_pos h]; exact h
    · rw [if_neg h]
      have hj0 : j ≠ 0 := by
        intro hq
        subst hq
        simp only [Nat.add_zero] at hf
        exact h hf
      refine ih ((start + 1) % len) (j - 1) (by omega) ?_
      have heq : ((start + 1) % len + 1 + (j - 1)) % len = (start + 1 + j) % len := by
        rw [Nat.add_assoc]
        have hj1 : 1 + (j - 1) = j := by omega
        rw [hj1, Nat.mod_add_mod]
      rw [heq]
      exact hf

theorem cycFind_found {f : ℕ → Bool} {len : ℕ} {c : ℕ} (hc : c < len)
    (hfc : f c = true) (start : ℕ) :
    f (cycFind f len start len) = true := by
  have hlen : 0 < len := Nat.lt_of_le_of_lt (Nat.zero_le c) hc
  have hal : (start + 1) % len < len := Nat.mod_lt _ hlen
  refine cycFind_found_aux len start ((c + len - (start + 1) % len) % len)
    (le_of_lt (Nat.mod_lt _ hlen)) ?_
  have h1 : (start + 1 + (c + len - (start + 1) % len) % len) % len
      = ((start + 1) % len + (c + len - (start + 1) % len) % len) % len := by
    rw [Nat.mod_add_mod]
  have h2 : ((start + 1) % len + (c + len - (start + 1) % len) % len) % len
      = ((start + 1) % len + (c + len - (start + 1) % len)) % len := by
    rw [Nat.add_mod_mod]
  have h3 : (start + 1) % len + (c + len - (start + 1) % len) = c + len := by
    omega
  rw [h1, h2, h3, Nat.add_mod_right, Nat.mod_eq_of_lt hc]
  exact hfc

theorem noFitPick_fold_mono {ubF : ℕ → ℤ} {len : ℤ} :
    ∀ (l : List ℕ) (acc : ℕ × ℤ),
      (l.foldl (fun acc j =>
          if ubF j ≠ -1 ∧ len - ubF j < acc.2 then (j, len - ubF j) else acc)
        acc).2 ≤ acc.2 := by
  intro l
  induction l with
  | nil => intro acc; exact le_refl _
  | cons j l ih =>
    intro acc
    rw [List.foldl_cons]
    by_cases h : ubF j ≠ -1 ∧ len - ubF j < acc.2
    · rw [if_pos h]
      exact le_trans (ih _) (le_of_lt h.2)
    · rw [if_neg h]
      exact ih _

theorem noFitPick_fold_Q {K : ℕ} {ubF : ℕ → ℤ} {len : ℤ} :
    ∀ (l : List ℕ), (∀ j ∈ l, j < K) → ∀ (acc : ℕ × ℤ),
      nfQ K ubF len acc →
      nfQ K ubF len (l.foldl (fun acc j =>
        if ubF j ≠ -1 ∧ len - ubF j < acc.2 then (j, len - ubF j) else acc) acc) := by
  intro l
  induction l with
  | nil => intro _ acc h; exact h
  | cons j l ih =>
    intro hl acc hQ
    rw [List.foldl_cons]
    refine ih (fun j' hj' => hl j' (List.mem_cons_of_mem j hj')) _ ?_
    by_cases h : ubF j ≠ -1 ∧ len - ubF j < acc.2
    · rw [if_pos h]
      right
      have hjK : j < K := hl j (List.mem_cons_self j l)
      have hlt : len - ubF j < 999999 := by
        rcases hQ with hq | hq
        · rw [hq] at h; exact h.2
        · exact lt_trans h.2 hq.2.2.2
      exact ⟨hjK, h.1, rfl, hlt⟩
    · rw [if_neg h]
      exact hQ

theorem noFitPick_fold_hit {K : ℕ} {ubF : ℕ → ℤ} {len : ℤ} :
    ∀ (l : List ℕ) (acc : ℕ × ℤ) (j₀ : ℕ), j₀ ∈ l → ubF j₀ ≠ -1 →
      len - ubF j₀ < 999999 → acc.2 ≤ 999999 →
      (l.foldl (fun acc j =>
          if ubF j ≠ -1 ∧ len - ubF j < acc.2 then (j, len - ubF j) else acc)
        acc).2 < 999999 := by
  intro l
  induction l with
  | nil => intro acc j₀ h; exact absurd h (by simp)
  | cons j l ih =>
    intro acc j₀ hj₀ hopen hlt hacc
    rw [List.foldl_cons]
    rcases List.mem_cons.mp hj₀ with h | h
    · subst h
      by_cases hc : ubF j₀ ≠ -1 ∧ len - ubF j₀ < acc.2
      · rw [if_pos hc]
        exact lt_of_le_of_lt (noFitPick_fold_mono l _) hlt
      · rw [if_neg hc]
        push_neg at hc
        have := hc hopen
        exact lt_of_le_of_lt (noFitPick_fold_mono l _) (by omega)
    · by_cases hc : ubF j ≠ -1 ∧ len - ubF j < acc.2
      · rw [if_pos hc]
        exact ih _ j₀ h hopen hlt (le_of_lt (lt_of_lt_of_le hc.2 hacc))
      · rw [if_neg hc]
        exact ih _ j₀ h hopen hlt hacc

theorem noFitPick_spec {K : ℕ} {ubF : ℕ → ℤ} {len : ℤ}
    (hex : ∃ j, j < K ∧ ubF j ≠ -1)
    (hbound : ∀ j < K, ubF j ≠ -1 → len - ubF j < 999999) :
    (noFitPick K ubF len).1 < K
      ∧ ubF (noFitPick K ubF len).1 ≠ -1
      ∧ (noFitPick K ubF len).2 = len - ubF (noFitPick K ubF len).1 := by
  obtain ⟨j₀, hj₀K, hj₀⟩ := hex
  have hQ := @noFitPick_fold_Q K ubF len
    (List.range K) (fun j hj => List.mem_range.mp hj) (0, 999999) (Or.inl rfl)
  have hhit := @noFitPick_fold_hit K ubF len
    (List.range K) (0, 999999) j₀ (List.mem_range.mpr hj₀K) hj₀
    (hbound j₀ hj₀K hj₀) (le_refl _)
  unfold noFitPick
  rcases hQ with hq | hq
  · exfalso
    rw [hq] at hhit
    exact absurd hhit (by norm_num)
  · exact ⟨hq.1, hq.2.1, hq.2.2.1⟩

/-- Counting lemma for a block assignment described pointwise: assigning
the distinct, previously-unassigned elements of `l` to group `v` raises
`cnt v` by `l.length` and leaves every other group's count unchanged. -/
theorem cnt_assign {N : ℕ} {sc sc' : ℕ → ℤ} {l : List ℕ} {v : ℤ}
    (hnd : l.Nodup) (hl : ∀ e ∈ l, e < N ∧ sc e = -1)
    (hpt : ∀ i : ℕ, (i ∈ l → sc' i = v) ∧ (i ∉ l → sc' i = sc i))
    (hv : 0 ≤ v) :
    cnt N sc' v = cnt N sc v + l.length
      ∧ ∀ w : ℤ, w ≠ v → 0 ≤ w → cnt N sc' w = cnt N sc w := by
  constructor
  · unfold cnt
    have hset : (Finset.range N).filter (fun i => sc' i = v)
        = ((Finset.range N).filter fun i => sc i = v) ∪ l.toFinset := by
      ext i
      simp only [Finset.mem_filter, Finset.mem_union, Finset.mem_range,
        List.mem_toFinset]
      constructor
      · rintro ⟨hiN, hiv⟩
        by_cases hil : i ∈ l
        · exact Or.inr hil
        · exact Or.inl ⟨hiN, by rw [← (hpt i).2 hil]; exact hiv⟩
      · rintro (⟨hiN, hiv⟩ | hil)
        · by_cases hil : i ∈ l
          · have := (hl i hil).2
            rw [this] at hiv
            exact absurd hiv.symm (by intro hq; rw [hq] at hv; norm_num at hv)
          · exact ⟨hiN, by rw [(hpt i).2 hil]; exact hiv⟩
        · exact ⟨(hl i hil).1, (hpt i).1 hil⟩
    have hdisj : Disjoint ((Finset.range N).filter fun i => sc i = v)
        l.toFinset := by
      rw [Finset.disjoint_left]
      intro i hi hil
      rw [List.mem_toFinset] at hil
      have h1 := (Finset.mem_filter.mp hi).2
      have h2 := (hl i hil).2
      rw [h2] at h1
      rw [← h1] at hv
      norm_num at hv
    rw [hset, Finset.card_union_of_disjoint hdisj, List.toFinset_card_of_nodup hnd]
    push_cast
    ring
  · intro w hw hw0
    unfold cnt
    congr 2
    refine Finset.filter_congr fun i _ => ?_
    by_cases hil : i ∈ l
    · rw [(hpt i).1 hil, (hl i hil).2]
      constructor
      · intro hq; exact absurd hq hw.symm
      · intro hq
        exfalso
        rw [← hq] at hw0
        norm_num at hw0
    · rw [(hpt i).2 hil]

theorem assignLoop_spec (pickG : ℕ) :
    ∀ (l : List ℕ) (st : CxSt),
      (assignLoop pickG l st).scSizeGroup = st.scSizeGroup
        ∧ (assignLoop pickG l st).p1 = st.p1
        ∧ (assignLoop pickG l st).p2 = st.p2
        ∧ (assignLoop pickG l st).gDiv_p1 = st.gDiv_p1
        ∧ (assignLoop pickG l st).gDiv_p2 = st.gDiv_p2
        ∧ (assignLoop pickG l st).ub = st.ub
        ∧ (assignLoop pickG l st).t = st.t
        ∧ ∀ i : ℕ,
            (i ∈ l → (assignLoop pickG l st).sc i = (pickG : ℤ)
              ∧ (assignLoop pickG l st).vEle i = -1)
            ∧ (i ∉ l → (assignLoop pickG l st).sc i = st.sc i
              ∧ (assignLoop pickG l st).vEle i = st.vEle i) := by
  intro l
  induction l with
  | nil =>
    intro st
    exact ⟨rfl, rfl, rfl, rfl, rfl, rfl, rfl, fun i =>
      ⟨fun h => absurd h (by simp), fun _ => ⟨rfl, rfl⟩⟩⟩
  | cons e rest ih =>
    intro st
    have heq : assignLoop pickG (e :: rest) st
        = assignLoop pickG rest
          { st with sc := upd st.sc e (pickG : ℤ), vEle := upd st.vEle e (-1) } := rfl
    rw [heq]
    obtain ⟨h1, h2, h3, h4, h5, h6, h7, h8⟩ := ih
      { st with sc := upd st.sc e (pickG : ℤ), vEle := upd st.vEle e (-1) }
    refine ⟨h1, h2, h3, h4, h5, h6, h7, fun i => ⟨?_, ?_⟩⟩
    · intro hi
      rcases List.mem_cons.mp hi with hie | hir
      · subst hie
        by_cases hr : i ∈ rest
        · exact (h8 i).1 hr
        · obtain ⟨ha, hb⟩ := (h8 i).2 hr
          rw [ha, hb]
          exact ⟨upd_same _ _ _, upd_same _ _ _⟩
      · exact (h8 i).1 hir
    · intro hi
      have hie : i ≠ e := fun hq => hi (hq ▸ List.mem_cons_self e rest)
      have hir : i ∉ rest := fun hq => hi (List.mem_cons_of_mem e hq)
      obtain ⟨ha, hb⟩ := (h8 i).2 hir
      rw [ha, hb]
      exact ⟨upd_ne _ _ hie, upd_ne _ _ hie⟩

theorem consumeLoop_spec (dm1 dm2 : ℕ → ℕ → ℚ) :
    ∀ (l : List ℕ) (st : CxSt),
      (consumeLoop dm1 dm2 l st).sc = st.sc
        ∧ (consumeLoop dm1 dm2 l st).scSizeGroup = st.scSizeGroup
        ∧ (consumeLoop dm1 dm2 l st).vEle = st.vEle
        ∧ (consumeLoop dm1 dm2 l st).ub = st.ub
        ∧ (consumeLoop dm1 dm2 l st).t = st.t
        ∧ ∀ i : ℕ,
            (i ∈ l → (consumeLoop dm1 dm2 l st).p1 i = -1
              ∧ (consumeLoop dm1 dm2 l st).p2 i = -1)
            ∧ (i ∉ l → (consumeLoop dm1 dm2 l st).p1 i = st.p1 i
              ∧ (consumeLoop dm1 dm2 l st).p2 i = st.p2 i) := by
  intro l
  induction l with
  | nil =>
    intro st
    exact ⟨rfl, rfl, rfl, rfl, rfl, fun i =>
      ⟨fun h => absurd h (by simp), fun _ => ⟨rfl, rfl⟩⟩⟩
  | cons e rest ih =>
    intro st
    have heq : consumeLoop dm1 dm2 (e :: rest) st
        = consumeLoop dm1 dm2 rest
          { st with
            gDiv_p1 := upd st.gDiv_p1 ((st.p1 e).toNat)
              (st.gDiv_p1 ((st.p1 e).toNat) - dm1 e ((st.p1 e).toNat))
            gDiv_p2 := upd st.gDiv_p2 ((st.p2 e).toNat)
              (st.gDiv_p2 ((st.p2 e).toNat) - dm2 e ((st.p2 e).toNat))
            p1 := upd st.p1 e (-1)
            p2 := upd st.p2 e (-1) } := rfl
    rw [heq]
    obtain ⟨h1, h2, h3, h4, h5, h6⟩ := ih
      { st with
        gDiv_p1 := upd st.gDiv_p1 ((st.p1 e).toNat)
          (st.gDiv_p1 ((st.p1 e).toNat) - dm1 e ((st.p1 e).toNat))
        gDiv_p2 := upd st.gDiv_p2 ((st.p2 e).toNat)
          (st.gDiv_p2 ((st.p2 e).toNat) - dm2 e ((st.p2 e).toNat))
        p1 := upd st.p1 e (-1)
        p2 := upd st.p2 e (-1) }
    refine ⟨h1, h2, h3, h4, h5, fun i => ⟨?_, ?_⟩⟩
    · intro hi
      rcases List.mem_cons.mp hi with hie | hir
      · subst hie
        by_cases hr : i ∈ rest
        · exact (h6 i).1 hr
        · obtain ⟨ha, hb⟩ := (h6 i).2 hr
          rw [ha, hb]
          exact ⟨upd_same _ _ _, upd_same _ _ _⟩
      · exact (h6 i).1 hir
    · intro hi
      have hie : i ≠ e := fun hq => hi (hq ▸ List.mem_cons_self e rest)
      have hir : i ∉ rest := fun hq => hi (List.mem_cons_of_mem e hq)
      obtain ⟨ha, hb⟩ := (h6 i).2 hir
      rw [ha, hb]
      exact ⟨upd_ne _ _ hie, upd_ne _ _ hie⟩

theorem unmarked_upd {SEF : ℕ → ℤ} {len pv : ℕ} (hpv : pv < len)
    (hne : SEF pv ≠ -1) :
    ((Finset.range len).filter fun pos => upd SEF pv (-1) pos ≠ -1).card
      = ((Finset.range len).filter fun pos => SEF pos ≠ -1).card - 1 := by
  have hset : ((Finset.range len).filter fun pos => upd SEF pv (-1) pos ≠ -1)
      = ((Finset.range len).filter fun pos => SEF pos ≠ -1).erase pv := by
    ext pos
    simp only [Finset.mem_filter, Finset.mem_erase, Finset.mem_range]
    constructor
    · rintro ⟨hl, hu⟩
      by_cases hq : pos = pv
      · subst hq
        rw [upd_same] at hu
        exact absurd rfl hu
      · rw [upd_ne _ _ hq] at hu
        exact ⟨hq, hl, hu⟩
    · rintro ⟨hq, hl, hu⟩
      exact ⟨hl, by rw [upd_ne _ _ hq]; exact hu⟩
  rw [hset, Finset.card_erase_of_mem]
  exact Finset.mem_filter.mpr ⟨Finset.mem_range.mpr hpv, hne⟩

theorem retainLoop_spec {N : ℕ} (rnd : ℕ → ℕ) (pickG len : ℕ) :
    ∀ (m : ℕ) (SEF : ℕ → ℤ) (temp : List ℕ) (st : CxSt),
      m ≤ ((Finset.range len).filter fun pos => SEF pos ≠ -1).card →
      (∀ pos < len, SEF pos ≠ -1 →
        0 ≤ SEF pos ∧ SEF pos < (N : ℤ) ∧ st.sc ((SEF pos).toNat) = -1) →
      (∀ q r : ℕ, q < len → r < len → q ≠ r → SEF q ≠ -1 → SEF r ≠ -1 →
        SEF q ≠ SEF r) →
      ∃ newl : List ℕ,
        (retainLoop rnd pickG len m SEF temp st).1 = temp ++ newl
          ∧ newl.length = m
          ∧ newl.Nodup
          ∧ (∀ e ∈ newl, e < N ∧ st.sc e = -1)
          ∧ (retainLoop rnd pickG len m SEF temp st).2.scSizeGroup
              = st.scSizeGroup
          ∧ (retainLoop rnd pickG len m SEF temp st).2.p1 = st.p1
          ∧ (retainLoop rnd pickG len m SEF temp st).2.p2 = st.p2
          ∧ (retainLoop rnd pickG len m SEF temp st).2.ub = st.ub
          ∧ ∀ i : ℕ,
              (i ∈ newl →
                (retainLoop rnd pickG len m SEF temp st).2.sc i = (pickG : ℤ)
                  ∧ (retainLoop rnd pickG len m SEF temp st).2.vEle i = -1)
              ∧ (i ∉ newl →
                (retainLoop rnd pickG len m SEF temp st).2.sc i = st.sc i
                  ∧ (retainLoop rnd pickG len m SEF temp st).2.vEle i
                      = st.vEle i) := by
  intro m
  induction m with
  | zero =>
    intro SEF temp st _ _ _
    refine ⟨[], by simp [retainLoop], rfl, List.nodup_nil, by simp, rfl, rfl,
      rfl, rfl, fun i => ⟨fun h => absurd h (by simp), fun _ => ⟨rfl, rfl⟩⟩⟩
  | succ m ih =>
    intro SEF temp st hm hent hdis
    have hum : 0 < ((Finset.range len).filter fun pos => SEF pos ≠ -1).card := by
      omega
    obtain ⟨pos₀, hpos₀⟩ := Finset.card_pos.mp hum
    have hpos₀l : pos₀ < len := Finset.mem_range.mp (Finset.mem_filter.mp hpos₀).1
    have hpos₀m : SEF pos₀ ≠ -1 := (Finset.mem_filter.mp hpos₀).2
    have hlen : 0 < len := Nat.lt_of_le_of_lt (Nat.zero_le _) hpos₀l
    set pv := cycFind (fun pos => decide (SEF pos ≠ -1)) len (rnd st.t % len) len
      with hpvdef
    have hpvl : pv < len := cycFind_lt hlen _ _
    have hpvm : SEF pv ≠ -1 := by
      have := cycFind_found (f := fun pos => decide (SEF pos ≠ -1)) hpos₀l
        (by rw [decide_eq_true_eq]; exact hpos₀m) (rnd st.t % len)
      rw [← hpvdef] at this
      rw [decide_eq_true_eq] at this
      exact this
    obtain ⟨hpv0, hpvN, hpvsc⟩ := hent pv hpvl hpvm
    set e := (SEF pv).toNat with hedef
    have heZ : (e : ℤ) = SEF pv := Int.toNat_of_nonneg hpv0
    have heN : e < N := by omega
    set st1 : CxSt :=
      { st with sc := upd st.sc e (pickG : ℤ)
                , vEle := upd st.vEle e (-1), t := st.t + 1 } with hst1
    have hstep : retainLoop rnd pickG len (m + 1) SEF temp st
        = retainLoop rnd pickG len m (upd SEF pv (-1)) (temp ++ [e]) st1 := rfl
    have hm' : m ≤ ((Finset.range len).filter
        fun pos => upd SEF pv (-1) pos ≠ -1).card := by
      rw [unmarked_upd hpvl hpvm]
      omega
    have hent' : ∀ pos < len, upd SEF pv (-1) pos ≠ -1 →
        0 ≤ upd SEF pv (-1) pos ∧ upd SEF pv (-1) pos < (N : ℤ)
          ∧ st1.sc ((upd SEF pv (-1) pos).toNat) = -1 := by
      intro pos hposl hposm
      have hq : pos ≠ pv := by
        intro hq
        subst hq
        rw [upd_same] at hposm
        exact hposm rfl
      rw [upd_ne _ _ hq] at hposm ⊢
      obtain ⟨ha, hb, hc⟩ := hent pos hposl hposm
      refine ⟨ha, hb, ?_⟩
      have hneq : (SEF pos).toNat ≠ e := by
        have := hdis pos pv hposl hpvl hq hposm hpvm
        omega
      show upd st.sc e (pickG : ℤ) ((SEF pos).toNat) = -1
      rw [upd_ne _ _ hneq]
      exact hc
    have hdis' : ∀ q r : ℕ, q < len → r < len → q ≠ r →
        upd SEF pv (-1) q ≠ -1 → upd SEF pv (-1) r ≠ -1 →
        upd SEF pv (-1) q ≠ upd SEF pv (-1) r := by
      intro q r hql hrl hqr hq hr
      have hqv : q ≠ pv := by
        intro hx; subst hx; rw [upd_same] at hq; exact hq rfl
      have hrv : r ≠ pv := by
        intro hx; subst hx; rw [upd_same] at hr; exact hr rfl
      rw [upd_ne _ _ hqv] at hq ⊢
      rw [upd_ne _ _ hrv] at hr ⊢
      exact hdis q r hql hrl hqr hq hr
    obtain ⟨newl', hres, hlen', hnd', hprops', hsz', hp1', hp2', hub', hpt'⟩ :=
      ih (upd SEF pv (-1)) (temp ++ [e]) st1 hm' hent' hdis'
    have henotin : e ∉ newl' := by
      intro hin
      have := (hprops' e hin).2
      show False
      rw [hst1] at this
      have : upd st.sc e (pickG : ℤ) e = -1 := this
      rw [upd_same] at this
      omega
    refine ⟨e :: newl', ?_, by simp [hlen'], List.nodup_cons.mpr ⟨henotin, hnd'⟩,
      ?_, ?_, ?_, ?_, ?_, ?_⟩
    · rw [hstep, hres, List.append_assoc]
      rfl
    · intro e' he'
      rcases List.mem_cons.mp he' with hq | hq
      · subst hq
        exact ⟨heN, hpvsc⟩
      · obtain ⟨ha, hb⟩ := hprops' e' hq
        refine ⟨ha, ?_⟩
        have hne : e' ≠ e := fun hx => henotin (hx ▸ hq)
        rw [hst1] at hb
        have : upd st.sc e (pickG : ℤ) e' = -1 := hb
        rw [upd_ne _ _ hne] at this
        exact this
    · rw [hstep, hsz']
    · rw [hstep, hp1']
    · rw [hstep, hp2']
    · rw [hstep, hub']
    · intro i
      constructor
      · intro hi
        rcases List.mem_cons.mp hi with hq | hq
        · subst hq
          obtain ⟨ha, hb⟩ := (hpt' e).2 henotin
          rw [hstep, ha, hb, hst1]
          constructor
          · show upd st.sc e (pickG : ℤ) e = (pickG : ℤ)
            rw [upd_same]
          · show upd st.vEle e (-1) e = -1
            rw [upd_same]
        · rw [hstep]
          exact (hpt' i).1 hq
      · intro hi
        have hie : i ≠ e := fun hx => hi (hx ▸ List.mem_cons_self e newl')
        have hin' : i ∉ newl' := fun hx => hi (List.mem_cons_of_mem e hx)
        obtain ⟨ha, hb⟩ := (hpt' i).2 hin'
        rw [hstep, ha, hb, hst1]
        constructor
        · show upd st.sc e (pickG : ℤ) i = st.sc i
          rw [upd_ne _ _ hie]
        · show upd st.vEle e (-1) i = st.vEle i
          rw [upd_ne _ _ hie]

/-- Closing one child group `pickG` with the distinct, previously
unassigned elements `l` (the common tail of both branches of a crossover
round) preserves the loop invariant and closes exactly one open group. -/
theorem closeStep_inv {N K : ℕ} {UB : ℕ → ℤ} {st : CxSt}
    (hInv : KInv N K UB st) (l : List ℕ) (hnd : l.Nodup)
    (hl : ∀ e ∈ l, e < N ∧ st.sc e = -1)
    {pickG : ℕ} (hpickK : pickG < K) (hpopen : st.ub pickG ≠ -1)
    (hcap : (l.length : ℤ) ≤ UB pickG)
    {stMid : CxSt}
    (hsc : ∀ i : ℕ, (i ∈ l → stMid.sc i = (pickG : ℤ))
      ∧ (i ∉ l → stMid.sc i = st.sc i))
    (hve : ∀ i : ℕ, (i ∈ l → stMid.vEle i = -1)
      ∧ (i ∉ l → stMid.vEle i = st.vEle i))
    (hq1 : ∀ i : ℕ, (i ∈ l → stMid.p1 i = -1)
      ∧ (i ∉ l → stMid.p1 i = st.p1 i))
    (hq2 : ∀ i : ℕ, (i ∈ l → stMid.p2 i = -1)
      ∧ (i ∉ l → stMid.p2 i = st.p2 i))
    (hssz : stMid.scSizeGroup = st.scSizeGroup)
    (hub : stMid.ub = st.ub) :
    KInv N K UB
      { stMid with ub := upd stMid.ub pickG (-1)
                   , scSizeGroup := upd stMid.scSizeGroup pickG (l.length : ℤ) }
      ∧ openCnt K
          { stMid with ub := upd stMid.ub pickG (-1)
                       , scSizeGroup := upd stMid.scSizeGroup pickG (l.length : ℤ) }
        = openCnt K st - 1 := by
  obtain ⟨hA1, hA2, hA3, hA4, hA5, hA6, hA7⟩ := hInv
  have hcnt := cnt_assign (N := N) hnd hl
    (fun i => ⟨fun hi => (hsc i).1 hi, fun hi => (hsc i).2 hi⟩)
    (Int.ofNat_nonneg pickG)
  have hcnt0 : cnt N st.sc (pickG : ℤ) = 0 := hA4 pickG hpickK hpopen
  constructor
  · refine ⟨?_, ?_, ?_, ?_, ?_, ?_, ?_⟩
    · intro g
      show (upd stMid.ub pickG (-1) g = -1) ∨ (upd stMid.ub pickG (-1) g = UB g)
      by_cases hg : g = pickG
      · subst hg; rw [upd_same]; exact Or.inl rfl
      · rw [upd_ne _ _ hg, hub]; exact hA1 g
    · intro g hgK
      show upd stMid.scSizeGroup pickG (l.length : ℤ) g = cnt N stMid.sc (g : ℤ)
      by_cases hg : g = pickG
      · subst hg
        rw [upd_same, hcnt.1, hcnt0]
        ring
      · rw [upd_ne _ _ hg, hssz, hA2 g hgK]
        refine (hcnt.2 (g : ℤ) ?_ (Int.ofNat_nonneg g)).symm
        intro hq
        exact hg (by exact_mod_cast hq)
    · intro g hgK
      show 0 ≤ upd stMid.scSizeGroup pickG (l.length : ℤ) g
        ∧ upd stMid.scSizeGroup pickG (l.length : ℤ) g ≤ UB g
      by_cases hg : g = pickG
      · subst hg
        rw [upd_same]
        exact ⟨Int.ofNat_nonneg _, hcap⟩
      · rw [upd_ne _ _ hg, hssz]
        exact hA3 g hgK
    · intro g hgK hgopen
      have hgopen' : upd stMid.ub pickG (-1) g ≠ -1 := hgopen
      show cnt N stMid.sc (g : ℤ) = 0
      have hg : g ≠ pickG := by
        intro hq
        subst hq
        rw [upd_same] at hgopen'
        exact hgopen' rfl
      rw [upd_ne _ _ hg, hub] at hgopen'
      rw [hcnt.2 (g : ℤ) (by
        intro hq
        exact hg (by exact_mod_cast hq)) (Int.ofNat_nonneg g)]
      exact hA4 g hgK hgopen'
    · intro i hiN
      show (stMid.sc i = -1 ∧ stMid.vEle i = (i : ℤ))
        ∨ (0 ≤ stMid.sc i ∧ stMid.sc i < (K : ℤ) ∧ stMid.vEle i = -1)
      by_cases hil : i ∈ l
      · right
        rw [(hsc i).1 hil, (hve i).1 hil]
        exact ⟨Int.ofNat_nonneg _, by exact_mod_cast hpickK, rfl⟩
      · rw [(hsc i).2 hil, (hve i).2 hil]
        exact hA5 i hiN
    · intro i hiN hp
      show stMid.sc i = -1
      by_cases hil : i ∈ l
      · exact absurd ((hq1 i).1 hil) (by
          show ¬ stMid.p1 i = -1
          exact hp)
      · rw [(hsc i).2 hil]
        rw [(hq1 i).2 hil] at hp
        exact hA6 i hiN hp
    · intro i hiN hp
      show stMid.sc i = -1
      by_cases hil : i ∈ l
      · exact absurd ((hq2 i).1 hil) (by
          show ¬ stMid.p2 i = -1
          exact hp)
      · rw [(hsc i).2 hil]
        rw [(hq2 i).2 hil] at hp
        exact hA7 i hiN hp
  · show ((Finset.range K).filter fun g => upd stMid.ub pickG (-1) g ≠ -1).card
      = openCnt K st - 1
    rw [hub]
    exact unmarked_upd hpickK hpopen

theorem getD_map_cast (l : List ℕ) (pos : ℕ) (h : pos < l.length) :
    (l.map fun (e : ℕ) => (e : ℤ)).getD pos (-1) = ((l.get ⟨pos, h⟩ : ℕ) : ℤ) := by
  have hp : pos < (l.map fun (e : ℕ) => (e : ℤ)).length := by
    rw [List.length_map]
    exact h
  rw [List.getD_eq_getElem?_getD, List.getElem?_eq_getElem hp, Option.getD_some,
    List.getElem_map]
  rfl

theorem getD_mem_of_pos {α : Type} [Inhabited α] (l : List α) (pos : ℕ)
    (h : pos < l.length) (d : α) : l.getD pos d ∈ l := by
  rw [List.getD_eq_getElem?_getD, List.getElem?_eq_getElem h]
  exact List.getElem_mem h

theorem cxIter_inv {N K : ℕ} {UB : ℕ → ℤ} {dm1 dm2 : ℕ → ℕ → ℚ}
    {coins : ℕ → Bool} {rnd : ℕ → ℕ}
    (hUB : ∀ g < K, 0 ≤ UB g) (hNb : (N : ℤ) < 999999)
    (st : CxSt) (k : ℕ) (hInv : KInv N K UB st) (hopen : 0 < openCnt K st) :
    KInv N K UB (cxIter N K dm1 dm2 coins rnd st k)
      ∧ openCnt K (cxIter N K dm1 dm2 coins rnd st k) = openCnt K st - 1 := by
  simp only [cxIter]
  set pp := if coins k then st.p1 else st.p2 with hppdef
  set gg := if coins k then st.gDiv_p1 else st.gDiv_p2 with hggdef
  set gstar := gDivArgmax K gg with hgstar
  set SE := (List.range N).filter fun j => decide (pp j = (gstar : ℤ)) with hSEdef
  set SG := (List.range K).filter fun j =>
    decide (st.ub j ≠ -1 ∧ (SE.length : ℤ) ≤ st.ub j) with hSGdef
  have hppA : ∀ e < N, pp e ≠ -1 → st.sc e = -1 := by
    rw [hppdef]
    cases hck : coins k
    · rw [if_neg (by simp : ¬ (false = true))]
      exact hInv.2.2.2.2.2.2
    · rw [if_pos rfl]
      exact hInv.2.2.2.2.2.1
  have hSEel : ∀ e ∈ SE, e < N ∧ st.sc e = -1 := by
    intro e he
    rw [hSEdef] at he
    obtain ⟨heN, hef⟩ := List.mem_filter.mp he
    have heN' : e < N := List.mem_range.mp heN
    rw [decide_eq_true_eq] at hef
    have hppne : pp e ≠ -1 := by
      rw [hef]
      intro hq
      have : (0 : ℤ) ≤ (gstar : ℤ) := Int.ofNat_nonneg _
      omega
    exact ⟨heN', hppA e heN' hppne⟩
  have hSEnd : SE.Nodup := by
    rw [hSEdef]
    exact List.Nodup.filter _ (List.nodup_range N)
  have hSElenN : SE.length ≤ N := by
    rw [hSEdef]
    refine le_trans (List.length_filter_le _ _) ?_
    rw [List.length_range]
  by_cases hSG : SG.length = 0
  · -- the no-fit branch
    rw [if_pos hSG]
    have hSGnil : SG = [] := List.length_eq_zero.mp hSG
    have hnofit : ∀ j < K, st.ub j ≠ -1 → st.ub j < (SE.length : ℤ) := by
      intro j hjK hj
      have := List.filter_eq_nil_iff.mp (hSGdef ▸ hSGnil) j (List.mem_range.mpr hjK)
      rw [decide_eq_true_eq] at this
      push_neg at this
      exact this hj
    have hex : ∃ j, j < K ∧ st.ub j ≠ -1 := by
      have := Finset.card_pos.mp hopen
      obtain ⟨j, hj⟩ := this
      obtain ⟨hjK, hjo⟩ := Finset.mem_filter.mp hj
      exact ⟨j, Finset.mem_range.mp hjK, hjo⟩
    have hbound : ∀ j < K, st.ub j ≠ -1 →
        (SE.length : ℤ) - st.ub j < 999999 := by
      intro j hjK hj
      have h0 : 0 ≤ st.ub j := by
        rcases hInv.1 j with hq | hq
        · exact absurd hq hj
        · rw [hq]; exact hUB j hjK
      have hlen : (SE.length : ℤ) ≤ N := by exact_mod_cast hSElenN
      omega
    obtain ⟨hpickK, hpopen, hnum⟩ := noFitPick_spec hex hbound
    set pk := noFitPick K st.ub (SE.length : ℤ) with hpk
    have hubval : st.ub pk.1 = UB pk.1 := by
      rcases hInv.1 pk.1 with hq | hq
      · exact absurd hq hpopen
      · exact hq
    have hub0 : 0 ≤ st.ub pk.1 := by
      rw [hubval]; exact hUB pk.1 hpickK
    set m := ((SE.length : ℤ) - pk.2).toNat with hmdef
    have hmval : (m : ℤ) = st.ub pk.1 := by
      rw [hmdef, hnum]
      omega
    have hmlen : m ≤ SE.length := by
      have := hnofit pk.1 hpickK hpopen
      omega
    set SEF := fun pos => (SE.map fun (e : ℕ) => (e : ℤ)).getD pos (-1) with hSEFdef
    have hSEFval : ∀ pos, pos < SE.length →
        ∃ h : pos < SE.length, SEF pos = ((SE.get ⟨pos, h⟩ : ℕ) : ℤ) := by
      intro pos hp
      exact ⟨hp, getD_map_cast SE pos hp⟩
    have hSEFmem : ∀ pos, pos < SE.length → 0 ≤ SEF pos
        ∧ SEF pos < (N : ℤ) ∧ st.sc ((SEF pos).toNat) = -1 := by
      intro pos hp
      obtain ⟨h, hval⟩ := hSEFval pos hp
      rw [hval]
      have hm := hSEel (SE.get ⟨pos, h⟩) (List.get_mem SE pos h)
      refine ⟨Int.ofNat_nonneg _, by exact_mod_cast hm.1, ?_⟩
      rw [Int.toNat_natCast]
      exact hm.2
    have hcard : ((Finset.range SE.length).filter
        fun pos => SEF pos ≠ -1).card = SE.length := by
      have : (Finset.range SE.length).filter (fun pos => SEF pos ≠ -1)
          = Finset.range SE.length := by
        refine Finset.filter_true_of_mem ?_
        intro pos hp
        have := (hSEFmem pos (Finset.mem_range.mp hp)).1
        omega
      rw [this, Finset.card_range]
    have hm' : m ≤ ((Finset.range SE.length).filter
        fun pos => SEF pos ≠ -1).card := by
      rw [hcard]; exact hmlen
    have hent : ∀ pos < SE.length, SEF pos ≠ -1 →
        0 ≤ SEF pos ∧ SEF pos < (N : ℤ) ∧ st.sc ((SEF pos).toNat) = -1 :=
      fun pos hp _ => hSEFmem pos hp
    have hdis : ∀ q r : ℕ, q < SE.length → r < SE.length → q ≠ r →
        SEF q ≠ -1 → SEF r ≠ -1 → SEF q ≠ SEF r := by
      intro q r hq hr hqr _ _
      obtain ⟨h1, hv1⟩ := hSEFval q hq
      obtain ⟨h2, hv2⟩ := hSEFval r hr
      rw [hv1, hv2]
      intro hcast
      have : SE.get ⟨q, h1⟩ = SE.get ⟨r, h2⟩ := by exact_mod_cast hcast
      have := (List.Nodup.getElem_inj_iff hSEnd).mp this
      exact hqr this
    obtain ⟨newl, hres, hlen', hnd', hprops', hsz', hp1', hp2', hub', hpt'⟩ :=
      retainLoop_spec (N := N) rnd pk.1 SE.length m SEF [] st hm' hent hdis
    set res := retainLoop rnd pk.1 SE.length m SEF [] st with hresdef
    have hres1 : res.1 = newl := by
      rw [hres]
      rfl
    rw [hres1]
    obtain ⟨hCsc, hCsz, hCve, hCub, hCt, hCpt⟩ :=
      consumeLoop_spec dm1 dm2 newl res.2
    refine closeStep_inv hInv newl hnd' hprops' hpickK hpopen ?_ ?_ ?_ ?_ ?_ ?_ ?_
    · exact le_of_eq (by rw [hlen', hmval, hubval])
    · intro i
      constructor
      · intro hi
        rw [hCsc]
        exact ((hpt' i).1 hi).1
      · intro hi
        rw [hCsc]
        exact ((hpt' i).2 hi).1
    · intro i
      constructor
      · intro hi
        rw [hCve]
        exact ((hpt' i).1 hi).2
      · intro hi
        rw [hCve]
        exact ((hpt' i).2 hi).2
    · intro i
      constructor
      · intro hi
        exact ((hCpt i).1 hi).1
      · intro hi
        rw [((hCpt i).2 hi).1, hp1']
    · intro i
      constructor
      · intro hi
        exact ((hCpt i).1 hi).2
      · intro hi
        rw [((hCpt i).2 hi).2, hp2']
    · rw [hCsz, hsz']
    · rw [hCub, hub']
  · -- the fit branch
    rw [if_neg hSG]
    have hSGpos : 0 < SG.length := Nat.pos_of_ne_zero hSG
    set pickG := SG.getD (rnd st.t % SG.length) 0 with hpickdef
    have hmem : pickG ∈ SG :=
      getD_mem_of_pos SG _ (Nat.mod_lt _ hSGpos) 0
    have hmf := List.mem_filter.mp (hSGdef ▸ hmem)
    have hpickK : pickG < K := List.mem_range.mp hmf.1
    have hcond := hmf.2
    rw [decide_eq_true_eq] at hcond
    obtain ⟨hpopen, hcap'⟩ := hcond
    have hubval : st.ub pickG = UB pickG := by
      rcases hInv.1 pickG with hq | hq
      · exact absurd hq hpopen
      · exact hq
    have hcap : (SE.length : ℤ) ≤ UB pickG := by
      rw [← hubval]; exact hcap'
    set st1 := assignLoop pickG SE { st with t := st.t + 1 } with hst1
    obtain ⟨hAsz, hAp1, hAp2, hAg1, hAg2, hAub, hAt, hApt⟩ :=
      assignLoop_spec pickG SE { st with t := st.t + 1 }
    obtain ⟨hCsc, hCsz, hCve, hCub, hCt, hCpt⟩ :=
      consumeLoop_spec dm1 dm2 SE st1
    refine closeStep_inv hInv SE hSEnd hSEel hpickK hpopen hcap ?_ ?_ ?_ ?_ ?_ ?_
    · intro i
      constructor
      · intro hi
        rw [hCsc]
        exact ((hApt i).1 hi).1
      · intro hi
        rw [hCsc]
        exact ((hApt i).2 hi).1
    · intro i
      constructor
      · intro hi
        rw [hCve]
        exact ((hApt i).1 hi).2
      · intro hi
        rw [hCve]
        exact ((hApt i).2 hi).2
    · intro i
      constructor
      · intro hi
        exact ((hCpt i).1 hi).1
      · intro hi
        rw [((hCpt i).2 hi).1, hAp1]
    · intro i
      constructor
      · intro hi
        exact ((hCpt i).1 hi).2
      · intro hi
        rw [((hCpt i).2 hi).2, hAp2]
    · rw [hCsz, hAsz]
    · rw [hCub, hAub]

theorem cnt_upd_clear {N : ℕ} {sc : ℕ → ℤ} {e : ℕ} (he : e < N) {v : ℤ}
    (hv : sc e = v) (hv0 : 0 ≤ v) :
    cnt N (upd sc e (-1)) v = cnt N sc v - 1
      ∧ ∀ w : ℤ, w ≠ v → w ≠ -1 → cnt N (upd sc e (-1)) w = cnt N sc w := by
  constructor
  · have hmem : e ∈ (Finset.range N).filter fun i => sc i = v :=
      Finset.mem_filter.mpr ⟨Finset.mem_range.mpr he, hv⟩
    have hset : ((Finset.range N).filter fun i => upd sc e (-1) i = v)
        = ((Finset.range N).filter fun i => sc i = v).erase e := by
      ext i
      simp only [Finset.mem_filter, Finset.mem_erase, Finset.mem_range]
      constructor
      · rintro ⟨hiN, hiv⟩
        by_cases hie : i = e
        · subst hie
          rw [upd_same] at hiv
          omega
        · rw [upd_ne _ _ hie] at hiv
          exact ⟨hie, hiN, hiv⟩
      · rintro ⟨hie, hiN, hiv⟩
        rw [upd_ne _ _ hie]
        exact ⟨hiN, hiv⟩
    have hpos : 0 < ((Finset.range N).filter fun i => sc i = v).card :=
      Finset.card_pos.mpr ⟨e, hmem⟩
    unfold cnt
    rw [hset, Finset.card_erase_of_mem hmem]
    omega
  · intro w hwv hwm
    unfold cnt
    congr 1
    apply congrArg
    apply Finset.filter_congr
    intro i _
    by_cases hie : i = e
    · subst hie
      rw [upd_same, hv]
      constructor
      · intro h; omega
      · intro h; omega
    · rw [upd_ne _ _ hie]

theorem cnt_upd_set {N : ℕ} {sc : ℕ → ℤ} {e : ℕ} (he : e < N) {v : ℤ}
    (hfree : sc e = -1) (hv0 : 0 ≤ v) :
    cnt N (upd sc e v) v = cnt N sc v + 1
      ∧ ∀ w : ℤ, w ≠ v → w ≠ -1 → cnt N (upd sc e v) w = cnt N sc w := by
  constructor
  · have hnm : e ∉ (Finset.range N).filter fun i => sc i = v := by
      intro hq
      have := (Finset.mem_filter.mp hq).2
      omega
    have hset : ((Finset.range N).filter fun i => upd sc e v i = v)
        = insert e ((Finset.range N).filter fun i => sc i = v) := by
      ext i
      simp only [Finset.mem_filter, Finset.mem_insert, Finset.mem_range]
      constructor
      · rintro ⟨hiN, hiv⟩
        by_cases hie : i = e
        · exact Or.inl hie
        · rw [upd_ne _ _ hie] at hiv
          exact Or.inr ⟨hiN, hiv⟩
      · rintro (hie | ⟨hiN, hiv⟩)
        · subst hie
          rw [upd_same]
          exact ⟨he, rfl⟩
        · have hie : i ≠ e := by
            intro hq
            subst hq
            omega
          rw [upd_ne _ _ hie]
          exact ⟨hiN, hiv⟩
    unfold cnt
    rw [hset, Finset.card_insert_of_not_mem hnm]
    omega
  · intro w hwv hwm
    unfold cnt
    congr 1
    apply congrArg
    apply Finset.filter_congr
    intro i _
    by_cases hie : i = e
    · subst hie
      rw [upd_same, hfree]
      constructor
      · intro h; omega
      · intro h; omega
    · rw [upd_ne _ _ hie]

theorem freeCnt_upd_clear {N : ℕ} {sc : ℕ → ℤ} {e : ℕ} (he : e < N)
    (hne : sc e ≠ -1) :
    freeCnt N (upd sc e (-1)) = freeCnt N sc + 1 := by
  have hnm : e ∉ (Finset.range N).filter fun i => sc i = -1 := by
    intro hq
    exact hne (Finset.mem_filter.mp hq).2
  have hset : ((Finset.range N).filter fun i => upd sc e (-1) i = -1)
      = insert e ((Finset.range N).filter fun i => sc i = -1) := by
    ext i
    simp only [Finset.mem_filter, Finset.mem_insert, Finset.mem_range]
    constructor
    · rintro ⟨hiN, hiv⟩
      by_cases hie : i = e
      · exact Or.inl hie
      · rw [upd_ne _ _ hie] at hiv
        exact Or.inr ⟨hiN, hiv⟩
    · rintro (hie | ⟨hiN, hiv⟩)
      · subst hie
        rw [upd_same]
        exact ⟨he, rfl⟩
      · have hie : i ≠ e := by
          intro hq
          subst hq
          exact hne hiv
        rw [upd_ne _ _ hie]
        exact ⟨hiN, hiv⟩
  unfold freeCnt
  rw [hset, Finset.card_insert_of_not_mem hnm]
  omega

theorem freeCnt_upd_set {N : ℕ} {sc : ℕ → ℤ} {e : ℕ} (he : e < N)
    (hfree : sc e = -1) {v : ℤ} (hv0 : v ≠ -1) :
    freeCnt N (upd sc e v) = freeCnt N sc - 1 := by
  have hmem : e ∈ (Finset.range N).filter fun i => sc i = -1 :=
    Finset.mem_filter.mpr ⟨Finset.mem_range.mpr he, hfree⟩
  have hset : ((Finset.range N).filter fun i => upd sc e v i = -1)
      = ((Finset.range N).filter fun i => sc i = -1).erase e := by
    ext i
    simp only [Finset.mem_filter, Finset.mem_erase, Finset.mem_range]
    constructor
    · rintro ⟨hiN, hiv⟩
      by_cases hie : i = e
      · subst hie
        rw [upd_same] at hiv
        exact absurd hiv hv0
      · rw [upd_ne _ _ hie] at hiv
        exact ⟨hie, hiN, hiv⟩
    · rintro ⟨hie, hiN, hiv⟩
      rw [upd_ne _ _ hie]
      exact ⟨hiN, hiv⟩
  have hpos : 0 < ((Finset.range N).filter fun i => sc i = -1).card :=
    Finset.card_pos.mpr ⟨e, hmem⟩
  unfold freeCnt
  rw [hset, Finset.card_erase_of_mem hmem]
  omega

theorem sum_upd_point {K : ℕ} {f g : ℕ → ℤ} {g0 : ℕ} (hg0 : g0 < K)
    (hagree : ∀ j, j ≠ g0 → g j = f j) :
    ∑ j ∈ Finset.range K, g j
      = (∑ j ∈ Finset.range K, f j) + (g g0 - f g0) := by
  rw [← Finset.add_sum_erase _ g (Finset.mem_range.mpr hg0),
    ← Finset.add_sum_erase _ f (Finset.mem_range.mpr hg0)]
  have h : ∑ j ∈ (Finset.range K).erase g0, g j
      = ∑ j ∈ (Finset.range K).erase g0, f j :=
    Finset.sum_congr rfl fun j hj => hagree j (Finset.ne_of_mem_erase hj)
  rw [h]
  ring

theorem length_filter_range (N : ℕ) (p : ℕ → Prop) [DecidablePred p] :
    ((List.range N).filter fun i => decide (p i)).length
      = ((Finset.range N).filter p).card := by
  induction N with
  | zero => rfl
  | succ n ih =>
    rw [List.range_succ, List.filter_append, List.length_append,
      Finset.range_succ, Finset.filter_insert]
    by_cases h : p n
    · rw [if_pos h, Finset.card_insert_of_not_mem (by simp), ← ih]
      simp [h]
    · rw [if_neg h, ← ih]
      simp [h]

theorem assigned_count {N K : ℕ} {sc : ℕ → ℤ}
    (hscope : ∀ i < N, sc i = -1 ∨ (0 ≤ sc i ∧ sc i < (K : ℤ))) :
    (∑ g ∈ Finset.range K, cnt N sc (g : ℤ)) + freeCnt N sc = (N : ℤ) := by
  have hsplit : ((Finset.range N).filter fun i => ¬ sc i = -1).card
      + ((Finset.range N).filter fun i => sc i = -1).card = N := by
    rw [Nat.add_comm, Finset.filter_card_add_filter_neg_card_eq_card,
      Finset.card_range]
  have hfib : ((Finset.range N).filter fun i => ¬ sc i = -1).card
      = ∑ g ∈ Finset.range K,
          (((Finset.range N).filter fun i => ¬ sc i = -1).filter
            fun i => (sc i).toNat = g).card := by
    refine Finset.card_eq_sum_card_fiberwise ?_
    intro i hi
    obtain ⟨hiN, hine⟩ := Finset.mem_filter.mp hi
    rcases hscope i (Finset.mem_range.mp hiN) with hq | hq
    · exact absurd hq hine
    · refine Finset.mem_range.mpr ?_
      omega
  have hper : ∀ g ∈ Finset.range K,
      (((Finset.range N).filter fun i => ¬ sc i = -1).filter
        fun i => (sc i).toNat = g).card
      = ((Finset.range N).filter fun i => sc i = (g : ℤ)).card := by
    intro g hg
    congr 1
    rw [Finset.filter_filter]
    apply Finset.filter_congr
    intro i hi
    have hiN := Finset.mem_range.mp hi
    constructor
    · rintro ⟨hine, htn⟩
      rcases hscope i hiN with hq | hq
      · exact absurd hq hine
      · rw [← htn]
        exact (Int.toNat_of_nonneg hq.1).symm
    · intro hq
      rw [hq]
      constructor
      · intro hc
        have : (0 : ℤ) ≤ (g : ℤ) := Int.ofNat_nonneg _
        omega
      · exact Int.toNat_natCast g
  have hN : (∑ g ∈ Finset.range K,
        ((Finset.range N).filter fun i => sc i = (g : ℤ)).card)
      + ((Finset.range N).filter fun i => sc i = -1).card = N := by
    rw [← Finset.sum_congr rfl hper, ← hfib]
    exact hsplit
  unfold cnt freeCnt
  rw [← Nat.cast_sum]
  exact_mod_cast hN

theorem parent_sum {N K : ℕ} {q : ℕ → ℕ} (hq : ∀ i < N, q i < K) :
    ∑ g ∈ Finset.range K, parentCnt N q g = (N : ℤ) := by
  have h : (Finset.range N).card
      = ∑ g ∈ Finset.range K, ((Finset.range N).filter fun i => q i = g).card := by
    refine Finset.card_eq_sum_card_fiberwise ?_
    intro i hi
    exact Finset.mem_range.mpr (hq i (Finset.mem_range.mp hi))
  unfold parentCnt
  rw [← Nat.cast_sum, ← h, Finset.card_range]

theorem group_pick {N : ℕ} {sc : ℕ → ℤ} {v : ℤ} (hpos : 0 < cnt N sc v) :
    0 < ((List.range N).filter fun i => decide (sc i = v)).length
      ∧ ∀ e ∈ (List.range N).filter fun i => decide (sc i = v),
          e < N ∧ sc e = v := by
  constructor
  · have hc : 0 < ((Finset.range N).filter fun i => sc i = v).card := by
      unfold cnt at hpos
      omega
    obtain ⟨j, hj⟩ := Finset.card_pos.mp hc
    obtain ⟨hjN, hjv⟩ := Finset.mem_filter.mp hj
    have hjm : j ∈ (List.range N).filter fun i => decide (sc i = v) := by
      refine List.mem_filter.mpr ⟨?_, ?_⟩
      · exact List.mem_range.mpr (Finset.mem_range.mp hjN)
      · exact decide_eq_true_eq.mpr hjv
    exact List.length_pos.mpr (List.ne_nil_of_mem hjm)
  · intro e he
    obtain ⟨heN, hev⟩ := List.mem_filter.mp he
    exact ⟨List.mem_range.mp heN, decide_eq_true_eq.mp hev⟩

theorem free_pick {N K : ℕ} {sc vE : ℕ → ℤ}
    (hscope : ∀ i < N, (sc i = -1 ∧ vE i = (i : ℤ))
      ∨ (0 ≤ sc i ∧ sc i < (K : ℤ) ∧ vE i = -1))
    (hpos : 0 < freeCnt N sc) :
    0 < ((List.range N).filter fun i => decide (vE i ≠ -1)).length
      ∧ ∀ e ∈ (List.range N).filter fun i => decide (vE i ≠ -1),
          e < N ∧ sc e = -1 := by
  constructor
  · have hc : 0 < ((Finset.range N).filter fun i => sc i = -1).card := by
      unfold freeCnt at hpos
      omega
    obtain ⟨j, hj⟩ := Finset.card_pos.mp hc
    obtain ⟨hjN, hjv⟩ := Finset.mem_filter.mp hj
    have hjN' : j < N := Finset.mem_range.mp hjN
    have hve : vE j = (j : ℤ) := by
      rcases hscope j hjN' with hq | hq
      · exact hq.2
      · omega
    have hjm : j ∈ (List.range N).filter fun i => decide (vE i ≠ -1) := by
      refine List.mem_filter.mpr ⟨List.mem_range.mpr hjN', ?_⟩
      refine decide_eq_true_eq.mpr ?_
      rw [hve]
      have : (0 : ℤ) ≤ (j : ℤ) := Int.ofNat_nonneg _
      omega
    exact List.length_pos.mpr (List.ne_nil_of_mem hjm)
  · intro e he
    obtain ⟨heN, hev⟩ := List.mem_filter.mp he
    have heN' : e < N := List.mem_range.mp heN
    have hev' : vE e ≠ -1 := decide_eq_true_eq.mp hev
    refine ⟨heN', ?_⟩
    rcases hscope e heN' with hq | hq
    · exact hq.1
    · exact absurd hq.2.2 hev'

theorem lbFreeLoop_inv {N K : ℕ} {LB UB : ℕ → ℤ} {rnd : ℕ → ℕ}
    (hK : 0 < K) (hLB0 : ∀ g < K, 0 ≤ LB g)
    (hLBN : (∑ g ∈ Finset.range K, LB g) ≤ (N : ℤ)) :
    ∀ (M : ℕ) (s : CxSt2), R1Inv N K LB UB s →
      s.count + (M : ℤ) ≤ ∑ g ∈ Finset.range K, LB g →
      R1Inv N K LB UB (lbFreeLoop N K LB rnd M s)
        ∧ (lbFreeLoop N K LB rnd M s).count = s.count + M := by
  intro M
  induction M with
  | zero =>
    intro s hI _
    exact ⟨hI, by simp [lbFreeLoop]⟩
  | succ M ih =>
    intro s hI hM
    obtain ⟨hA, hB, hC, hD, hE, hF, hG⟩ := hI
    have hM' : s.count + ((M : ℤ) + 1) ≤ ∑ g ∈ Finset.range K, LB g := by
      push_cast at hM
      omega
    have hlt : s.count < ∑ g ∈ Finset.range K, LB g := by omega
    have hscope : ∀ i < N, s.sc i = -1 ∨ (0 ≤ s.sc i ∧ s.sc i < (K : ℤ)) := by
      intro i hi
      rcases hC i hi with hq | hq
      · exact Or.inl hq.1
      · exact Or.inr ⟨hq.1, hq.2.1⟩
    have hover : ∃ c, c < K ∧ LB c < s.scSizeGroup c := by
      by_contra hno
      push_neg at hno
      have hsum : ∑ g ∈ Finset.range K,
          (if s.scSizeGroup g < LB g then s.scSizeGroup g else LB g)
          = ∑ g ∈ Finset.range K, cnt N s.sc (g : ℤ) := by
        refine Finset.sum_congr rfl ?_
        intro g hg
        have hgK := Finset.mem_range.mp hg
        have h1 := hno g hgK
        have h2 := hA g hgK
        by_cases hc : s.scSizeGroup g < LB g
        · rw [if_pos hc, h2]
        · rw [if_neg hc, ← h2]
          omega
      have hac := assigned_count (K := K) hscope
      rw [hsum] at hF
      have hf0 : 0 ≤ freeCnt N s.sc := by
        unfold freeCnt
        omega
      omega
    obtain ⟨c, hcK, hcover⟩ := hover
    have hflagc : s.BigThanLB c = true := by
      rw [hD c, decide_eq_true_eq]
      exact hcover
    simp only [lbFreeLoop]
    set pickG := cycFind s.BigThanLB K (rnd s.t % K) K with hpickdef
    have hpickK : pickG < K := cycFind_lt hK K (rnd s.t % K)
    have hpickflag : s.BigThanLB pickG = true := cycFind_found hcK hflagc (rnd s.t % K)
    have hpickover : LB pickG < s.scSizeGroup pickG := by
      rw [hD pickG, decide_eq_true_eq] at hpickflag
      exact hpickflag
    have hpos : 0 < cnt N s.sc (pickG : ℤ) := by
      rw [← hA pickG hpickK]
      have := hLB0 pickG hpickK
      omega
    obtain ⟨hSElen, hSEel⟩ := group_pick hpos
    set SE := (List.range N).filter fun j => decide (s.sc j = (pickG : ℤ)) with hSEdef
    set e := SE.getD (rnd (s.t + 1) % SE.length) 0 with hedef
    have hemem : e ∈ SE := getD_mem_of_pos SE _ (Nat.mod_lt _ hSElen) 0
    obtain ⟨heN, hesc⟩ := hSEel e hemem
    have hp0 : (0 : ℤ) ≤ (pickG : ℤ) := Int.ofNat_nonneg _
    obtain ⟨hcnt1, hcnt2⟩ := cnt_upd_clear heN hesc hp0
    have hfree1 : freeCnt N (upd s.sc e (-1)) = freeCnt N s.sc + 1 :=
      freeCnt_upd_clear heN (by omega)
    set s' := ({ s with
        sc := upd s.sc e (-1)
        vEle := upd s.vEle e (e : ℤ)
        scSizeGroup := upd s.scSizeGroup pickG (s.scSizeGroup pickG - 1)
        BigThanLB := if s.scSizeGroup pickG - 1 = LB pickG
          then upd s.BigThanLB pickG false else s.BigThanLB
        count := s.count + 1
        t := s.t + 2 } : CxSt2) with hs'def
    have hI' : R1Inv N K LB UB s' := by
      refine ⟨?_, ?_, ?_, ?_, ?_, ?_, ?_⟩
      · intro g hgK
        show upd s.scSizeGroup pickG (s.scSizeGroup pickG - 1) g
          = cnt N (upd s.sc e (-1)) (g : ℤ)
        by_cases hg : g = pickG
        · subst hg
          rw [upd_same, hcnt1, hA pickG hgK]
        · rw [upd_ne _ _ hg, hA g hgK, hcnt2 (g : ℤ) (by exact_mod_cast hg)
            (by have : (0:ℤ) ≤ (g:ℤ) := Int.ofNat_nonneg _; omega)]
      · intro g hgK
        show 0 ≤ upd s.scSizeGroup pickG (s.scSizeGroup pickG - 1) g
          ∧ upd s.scSizeGroup pickG (s.scSizeGroup pickG - 1) g ≤ UB g
        by_cases hg : g = pickG
        · subst hg
          rw [upd_same]
          have h1 := hLB0 pickG hgK
          have h2 := hB pickG hgK
          omega
        · rw [upd_ne _ _ hg]
          exact hB g hgK
      · intro i hi
        show (upd s.sc e (-1) i = -1 ∧ upd s.vEle e (e : ℤ) i = (i : ℤ))
          ∨ (0 ≤ upd s.sc e (-1) i ∧ upd s.sc e (-1) i < (K : ℤ)
              ∧ upd s.vEle e (e : ℤ) i = -1)
        by_cases hie : i = e
        · subst hie
          rw [upd_same, upd_same]
          exact Or.inl ⟨rfl, rfl⟩
        · rw [upd_ne _ _ hie, upd_ne _ _ hie]
          exact hC i hi
      · intro g
        show (if s.scSizeGroup pickG - 1 = LB pickG
            then upd s.BigThanLB pickG false else s.BigThanLB) g
          = decide (LB g < upd s.scSizeGroup pickG (s.scSizeGroup pickG - 1) g)
        by_cases hg : g = pickG
        · subst hg
          rw [upd_same]
          by_cases hns : s.scSizeGroup pickG - 1 = LB pickG
          · rw [if_pos hns, upd_same]
            symm
            rw [decide_eq_false_iff_not]
            omega
          · rw [if_neg hns, hD pickG]
            refine decide_eq_decide.mpr ?_
            constructor
            · intro _; omega
            · intro _; omega
        · rw [upd_ne _ _ hg]
          by_cases hns : s.scSizeGroup pickG - 1 = LB pickG
          · rw [if_pos hns, upd_ne _ _ hg]
            exact hD g
          · rw [if_neg hns]
            exact hD g
      · intro g
        show s.LBGroup g
          = decide (upd s.scSizeGroup pickG (s.scSizeGroup pickG - 1) g < LB g)
        by_cases hg : g = pickG
        · subst hg
          rw [upd_same, hE pickG]
          refine decide_eq_decide.mpr ?_
          have := hLB0 pickG hpickK
          constructor
          · intro _; omega
          · intro _; omega
        · rw [upd_ne _ _ hg]
          exact hE g
      · show s.count + 1 = (∑ g ∈ Finset.range K,
            if upd s.scSizeGroup pickG (s.scSizeGroup pickG - 1) g < LB g
            then upd s.scSizeGroup pickG (s.scSizeGroup pickG - 1) g else LB g)
          + freeCnt N (upd s.sc e (-1))
        have hsum : ∑ g ∈ Finset.range K,
            (if upd s.scSizeGroup pickG (s.scSizeGroup pickG - 1) g < LB g
              then upd s.scSizeGroup pickG (s.scSizeGroup pickG - 1) g else LB g)
            = ∑ g ∈ Finset.range K,
              (if s.scSizeGroup g < LB g then s.scSizeGroup g else LB g) := by
          refine Finset.sum_congr rfl ?_
          intro g hg
          by_cases hgp : g = pickG
          · subst hgp
            rw [upd_same, if_neg (by omega), if_neg (by omega)]
          · rw [upd_ne _ _ hgp]
        rw [hsum, hfree1, hF]
        ring
      · show s.sumLowerThanLB = ∑ g ∈ Finset.range K,
            if upd s.scSizeGroup pickG (s.scSizeGroup pickG - 1) g < LB g
            then upd s.scSizeGroup pickG (s.scSizeGroup pickG - 1) g else 0
        rw [hG]
        refine Finset.sum_congr rfl ?_
        intro g hg
        by_cases hgp : g = pickG
        · subst hgp
          rw [upd_same, if_neg (by omega), if_neg (by omega)]
        · rw [upd_ne _ _ hgp]
    have hMnext : s'.count + (M : ℤ) ≤ ∑ g ∈ Finset.range K, LB g := by
      show s.count + 1 + (M : ℤ) ≤ _
      omega
    obtain ⟨hIend, hcend⟩ := ih s' hI' hMnext
    refine ⟨hIend, ?_⟩
    rw [hcend]
    show s.count + 1 + (M : ℤ) = s.count + ((M : ℕ) + 1 : ℕ)
    push_cast
    ring

theorem lbFillLoop_inv {N K : ℕ} {LB UB : ℕ → ℤ} {F0 : ℕ → Bool} {rnd : ℕ → ℕ}
    (hK : 0 < K) (hLBUB : ∀ g < K, LB g ≤ UB g) :
    ∀ (M : ℕ) (s : CxSt2), R2Inv N K LB UB F0 s →
      s.sumLowerThanLB + (M : ℤ)
        ≤ ∑ g ∈ Finset.range K, (if F0 g then LB g else 0) →
      R2Inv N K LB UB F0 (lbFillLoop N K LB rnd M s)
        ∧ (lbFillLoop N K LB rnd M s).sumLowerThanLB = s.sumLowerThanLB + M := by
  intro M
  induction M with
  | zero =>
    intro s hI _
    exact ⟨hI, by simp [lbFillLoop]⟩
  | succ M ih =>
    intro s hI hM
    obtain ⟨hA, hB, hC, hD, hE, hJ, hG, hH⟩ := hI
    have hM1 : s.sumLowerThanLB + ((M : ℤ) + 1)
        ≤ ∑ g ∈ Finset.range K, (if F0 g then LB g else 0) := by
      push_cast at hM
      omega
    have hlt : s.sumLowerThanLB
        < ∑ g ∈ Finset.range K, (if F0 g then LB g else 0) := by omega
    have hover : ∃ c, c < K ∧ F0 c = true ∧ s.scSizeGroup c < LB c := by
      by_contra hno
      push_neg at hno
      have hle : ∑ g ∈ Finset.range K, (if F0 g then LB g else 0)
          ≤ ∑ g ∈ Finset.range K, (if F0 g then s.scSizeGroup g else 0) := by
        refine Finset.sum_le_sum ?_
        intro g hg
        have hgK := Finset.mem_range.mp hg
        by_cases hf : F0 g = true
        · rw [if_pos hf, if_pos hf]
          exact hno g hgK hf
        · have hf' : F0 g = false := by
            cases hq : F0 g
            · rfl
            · exact absurd hq hf
          rw [if_neg (by rw [hf']; exact Bool.false_ne_true),
            if_neg (by rw [hf']; exact Bool.false_ne_true)]
      rw [← hG] at hle
      omega
    obtain ⟨c, hcK, hcF0, hcover⟩ := hover
    have hflagc : s.LBGroup c = true := by
      rw [hD c, hcF0, Bool.true_and, decide_eq_true_eq]
      exact hcover
    simp only [lbFillLoop]
    set pickG := cycFind s.LBGroup K (rnd s.t % K) K with hpickdef
    have hpickK : pickG < K := cycFind_lt hK K (rnd s.t % K)
    have hpickflag : s.LBGroup pickG = true := cycFind_found hcK hflagc (rnd s.t % K)
    have hpick : F0 pickG = true ∧ s.scSizeGroup pickG < LB pickG := by
      rw [hD pickG, Bool.and_eq_true, decide_eq_true_eq] at hpickflag
      exact hpickflag
    have hfpos : 0 < freeCnt N s.sc := by
      have hnn : ∀ g ∈ Finset.range K,
          0 ≤ (if F0 g then LB g - s.scSizeGroup g else 0) := by
        intro g _
        by_cases hf : F0 g = true
        · rw [if_pos hf]
          have := hE g hf
          omega
        · rw [if_neg hf]
      have hone := Finset.single_le_sum hnn (Finset.mem_range.mpr hpickK)
      rw [if_pos hpick.1] at hone
      have := hpick.2
      omega
    obtain ⟨hSElen, hSEel⟩ := free_pick hC hfpos
    set SE := (List.range N).filter fun i => decide (s.vEle i ≠ -1) with hSEdef
    set e := SE.getD (rnd (s.t + 1) % SE.length) 0 with hedef
    have hemem : e ∈ SE := getD_mem_of_pos SE _ (Nat.mod_lt _ hSElen) 0
    obtain ⟨heN, hesc⟩ := hSEel e hemem
    have hp0 : (0 : ℤ) ≤ (pickG : ℤ) := Int.ofNat_nonneg _
    obtain ⟨hcnt1, hcnt2⟩ := cnt_upd_set heN hesc hp0
    have hfree1 : freeCnt N (upd s.sc e (pickG : ℤ)) = freeCnt N s.sc - 1 :=
      freeCnt_upd_set heN hesc (by omega)
    set s' := ({ s with
        sc := upd s.sc e (pickG : ℤ)
        vEle := upd s.vEle e (-1)
        scSizeGroup := upd s.scSizeGroup pickG (s.scSizeGroup pickG + 1)
        LBGroup := if s.scSizeGroup pickG + 1 = LB pickG
          then upd s.LBGroup pickG false else s.LBGroup
        sumLowerThanLB := s.sumLowerThanLB + 1
        t := s.t + 2 } : CxSt2) with hs'def
    have hI' : R2Inv N K LB UB F0 s' := by
      refine ⟨?_, ?_, ?_, ?_, ?_, ?_, ?_, ?_⟩
      · intro g hgK
        show upd s.scSizeGroup pickG (s.scSizeGroup pickG + 1) g
          = cnt N (upd s.sc e (pickG : ℤ)) (g : ℤ)
        by_cases hg : g = pickG
        · subst hg
          rw [upd_same, hcnt1, hA pickG hgK]
        · rw [upd_ne _ _ hg, hA g hgK, hcnt2 (g : ℤ) (by exact_mod_cast hg)
            (by have : (0:ℤ) ≤ (g:ℤ) := Int.ofNat_nonneg _; omega)]
      · intro g hgK
        show 0 ≤ upd s.scSizeGroup pickG (s.scSizeGroup pickG + 1) g
          ∧ upd s.scSizeGroup pickG (s.scSizeGroup pickG + 1) g ≤ UB g
        by_cases hg : g = pickG
        · subst hg
          rw [upd_same]
          have h1 := hB pickG hgK
          have h2 := hLBUB pickG hgK
          have h3 := hpick.2
          omega
        · rw [upd_ne _ _ hg]
          exact hB g hgK
      · intro i hi
        show (upd s.sc e (pickG : ℤ) i = -1 ∧ upd s.vEle e (-1) i = (i : ℤ))
          ∨ (0 ≤ upd s.sc e (pickG : ℤ) i ∧ upd s.sc e (pickG : ℤ) i < (K : ℤ)
              ∧ upd s.vEle e (-1) i = -1)
        by_cases hie : i = e
        · subst hie
          rw [upd_same, upd_same]
          exact Or.inr ⟨hp0, by exact_mod_cast hpickK, rfl⟩
        · rw [upd_ne _ _ hie, upd_ne _ _ hie]
          exact hC i hi
      · intro g
        show (if s.scSizeGroup pickG + 1 = LB pickG
            then upd s.LBGroup pickG false else s.LBGroup) g
          = (F0 g && decide (upd s.scSizeGroup pickG (s.scSizeGroup pickG + 1) g
              < LB g))
        by_cases hg : g = pickG
        · subst hg
          rw [upd_same]
          by_cases hns : s.scSizeGroup pickG + 1 = LB pickG
          · rw [if_pos hns, upd_same]
            have : decide (s.scSizeGroup pickG + 1 < LB pickG) = false := by
              rw [decide_eq_false_iff_not]
              omega
            rw [this, Bool.and_false]
          · rw [if_neg hns, hD pickG, hpick.1, Bool.true_and, Bool.true_and]
            refine decide_eq_decide.mpr ?_
            have := hpick.2
            constructor
            · intro _; omega
            · intro _; omega
        · rw [upd_ne _ _ hg]
          by_cases hns : s.scSizeGroup pickG + 1 = LB pickG
          · rw [if_pos hns, upd_ne _ _ hg]
            exact hD g
          · rw [if_neg hns]
            exact hD g
      · intro g hf
        show upd s.scSizeGroup pickG (s.scSizeGroup pickG + 1) g ≤ LB g
        by_cases hg : g = pickG
        · subst hg
          rw [upd_same]
          have := hpick.2
          omega
        · rw [upd_ne _ _ hg]
          exact hE g hf
      · intro g hgK hf
        show LB g ≤ upd s.scSizeGroup pickG (s.scSizeGroup pickG + 1) g
        by_cases hg : g = pickG
        · subst hg
          rw [hpick.1] at hf
          exact absurd hf (by simp)
        · rw [upd_ne _ _ hg]
          exact hJ g hgK hf
      · show s.sumLowerThanLB + 1 = ∑ g ∈ Finset.range K,
            (if F0 g
              then upd s.scSizeGroup pickG (s.scSizeGroup pickG + 1) g else 0)
        have hagree : ∀ j, j ≠ pickG →
            (if F0 j then upd s.scSizeGroup pickG (s.scSizeGroup pickG + 1) j
              else 0)
            = (if F0 j then s.scSizeGroup j else 0) := by
          intro j hj
          by_cases hf : F0 j = true
          · rw [if_pos hf, if_pos hf, upd_ne _ _ hj]
          · rw [if_neg hf, if_neg hf]
        have hSS : (∑ j ∈ Finset.range K,
              (if F0 j then upd s.scSizeGroup pickG (s.scSizeGroup pickG + 1) j
                else 0))
            = (∑ j ∈ Finset.range K, (if F0 j then s.scSizeGroup j else 0))
              + ((if F0 pickG
                    then upd s.scSizeGroup pickG (s.scSizeGroup pickG + 1) pickG
                    else 0)
                - (if F0 pickG then s.scSizeGroup pickG else 0)) :=
          sum_upd_point hpickK hagree
        rw [hSS, if_pos hpick.1, if_pos hpick.1, upd_same, hG]
        ring
      · show (∑ g ∈ Finset.range K,
            (if F0 g
              then LB g - upd s.scSizeGroup pickG (s.scSizeGroup pickG + 1) g
              else 0)) ≤ freeCnt N (upd s.sc e (pickG : ℤ))
        have hagree : ∀ j, j ≠ pickG →
            (if F0 j
              then LB j - upd s.scSizeGroup pickG (s.scSizeGroup pickG + 1) j
              else 0)
            = (if F0 j then LB j - s.scSizeGroup j else 0) := by
          intro j hj
          by_cases hf : F0 j = true
          · rw [if_pos hf, if_pos hf, upd_ne _ _ hj]
          · rw [if_neg hf, if_neg hf]
        have hSS : (∑ j ∈ Finset.range K,
              (if F0 j
                then LB j - upd s.scSizeGroup pickG (s.scSizeGroup pickG + 1) j
                else 0))
            = (∑ j ∈ Finset.range K, (if F0 j then LB j - s.scSizeGroup j else 0))
              + ((if F0 pickG
                    then LB pickG
                      - upd s.scSizeGroup pickG (s.scSizeGroup pickG + 1) pickG
                    else 0)
                - (if F0 pickG then LB pickG - s.scSizeGroup pickG else 0)) :=
          sum_upd_point hpickK hagree
        rw [hSS, if_pos hpick.1, if_pos hpick.1, upd_same, hfree1]
        omega
    have hMnext : s'.sumLowerThanLB + (M : ℤ)
        ≤ ∑ g ∈ Finset.range K, (if F0 g then LB g else 0) := by
      show s.sumLowerThanLB + 1 + (M : ℤ) ≤ _
      omega
    obtain ⟨hIend, hcend⟩ := ih s' hI' hMnext
    refine ⟨hIend, ?_⟩
    rw [hcend]
    show s.sumLowerThanLB + 1 + (M : ℤ) = s.sumLowerThanLB + ((M : ℕ) + 1 : ℕ)
    push_cast
    ring

theorem ubFillLoop_inv {N K : ℕ} {LB UB : ℕ → ℤ} {rnd : ℕ → ℕ}
    (hK : 0 < K) (hNUB : (N : ℤ) ≤ ∑ g ∈ Finset.range K, UB g) :
    ∀ (M : ℕ) (s : CxSt2), R3Inv N K LB UB s →
      s.sum + (M : ℤ) ≤ (N : ℤ) →
      R3Inv N K LB UB (ubFillLoop N K UB rnd M s)
        ∧ (ubFillLoop N K UB rnd M s).sum = s.sum + M := by
  intro M
  induction M with
  | zero =>
    intro s hI _
    exact ⟨hI, by simp [ubFillLoop]⟩
  | succ M ih =>
    intro s hI hM
    obtain ⟨hA, hB, hC, hD, hE, hF⟩ := hI
    have hM1 : s.sum + ((M : ℤ) + 1) ≤ (N : ℤ) := by
      push_cast at hM
      omega
    have hlt : s.sum < (N : ℤ) := by omega
    have hscope : ∀ i < N, s.sc i = -1 ∨ (0 ≤ s.sc i ∧ s.sc i < (K : ℤ)) := by
      intro i hi
      rcases hC i hi with hq | hq
      · exact Or.inl hq.1
      · exact Or.inr ⟨hq.1, hq.2.1⟩
    have hsz : ∑ g ∈ Finset.range K, s.scSizeGroup g
        = ∑ g ∈ Finset.range K, cnt N s.sc (g : ℤ) :=
      Finset.sum_congr rfl fun g hg => hA g (Finset.mem_range.mp hg)
    have hfpos : 0 < freeCnt N s.sc := by
      have hac := assigned_count (K := K) hscope
      rw [← hsz, ← hF] at hac
      omega
    have hover : ∃ c, c < K ∧ s.scSizeGroup c < UB c := by
      by_contra hno
      push_neg at hno
      have hle : ∑ g ∈ Finset.range K, UB g
          ≤ ∑ g ∈ Finset.range K, s.scSizeGroup g := by
        refine Finset.sum_le_sum ?_
        intro g hg
        exact hno g (Finset.mem_range.mp hg)
      rw [← hF] at hle
      omega
    obtain ⟨c, hcK, hcover⟩ := hover
    have hflagc : s.UBGroup c = true := by
      rw [hD c, decide_eq_true_eq]
      exact hcover
    simp only [ubFillLoop]
    set pickG := cycFind s.UBGroup K (rnd s.t % K) K with hpickdef
    have hpickK : pickG < K := cycFind_lt hK K (rnd s.t % K)
    have hpickflag : s.UBGroup pickG = true := cycFind_found hcK hflagc (rnd s.t % K)
    have hpickunder : s.scSizeGroup pickG < UB pickG := by
      rw [hD pickG, decide_eq_true_eq] at hpickflag
      exact hpickflag
    obtain ⟨hSElen, hSEel⟩ := free_pick hC hfpos
    set SE := (List.range N).filter fun i => decide (s.vEle i ≠ -1) with hSEdef
    set e := SE.getD (rnd (s.t + 1) % SE.length) 0 with hedef
    have hemem : e ∈ SE := getD_mem_of_pos SE _ (Nat.mod_lt _ hSElen) 0
    obtain ⟨heN, hesc⟩ := hSEel e hemem
    have hp0 : (0 : ℤ) ≤ (pickG : ℤ) := Int.ofNat_nonneg _
    obtain ⟨hcnt1, hcnt2⟩ := cnt_upd_set heN hesc hp0
    set s' := ({ s with
        sc := upd s.sc e (pickG : ℤ)
        vEle := upd s.vEle e (-1)
        scSizeGroup := upd s.scSizeGroup pickG (s.scSizeGroup pickG + 1)
        UBGroup := if s.scSizeGroup pickG + 1 = UB pickG
          then upd s.UBGroup pickG false else s.UBGroup
        sum := s.sum + 1
        t := s.t + 2 } : CxSt2) with hs'def
    have hI' : R3Inv N K LB UB s' := by
      refine ⟨?_, ?_, ?_, ?_, ?_, ?_⟩
      · intro g hgK
        show upd s.scSizeGroup pickG (s.scSizeGroup pickG + 1) g
          = cnt N (upd s.sc e (pickG : ℤ)) (g : ℤ)
        by_cases hg : g = pickG
        · subst hg
          rw [upd_same, hcnt1, hA pickG hgK]
        · rw [upd_ne _ _ hg, hA g hgK, hcnt2 (g : ℤ) (by exact_mod_cast hg)
            (by have : (0:ℤ) ≤ (g:ℤ) := Int.ofNat_nonneg _; omega)]
      · intro g hgK
        show 0 ≤ upd s.scSizeGroup pickG (s.scSizeGroup pickG + 1) g
          ∧ upd s.scSizeGroup pickG (s.scSizeGroup pickG + 1) g ≤ UB g
        by_cases hg : g = pickG
        · subst hg
          rw [upd_same]
          have h1 := hB pickG hgK
          omega
        · rw [upd_ne _ _ hg]
          exact hB g hgK
      · intro i hi
        show (upd s.sc e (pickG : ℤ) i = -1 ∧ upd s.vEle e (-1) i = (i : ℤ))
          ∨ (0 ≤ upd s.sc e (pickG : ℤ) i ∧ upd s.sc e (pickG : ℤ) i < (K : ℤ)
              ∧ upd s.vEle e (-1) i = -1)
        by_cases hie : i = e
        · subst hie
          rw [upd_same, upd_same]
          exact Or.inr ⟨hp0, by exact_mod_cast hpickK, rfl⟩
        · rw [upd_ne _ _ hie, upd_ne _ _ hie]
          exact hC i hi
      · intro g
        show (if s.scSizeGroup pickG + 1 = UB pickG
            then upd s.UBGroup pickG false else s.UBGroup) g
          = decide (upd s.scSizeGroup pickG (s.scSizeGroup pickG + 1) g < UB g)
        by_cases hg : g = pickG
        · subst hg
          rw [upd_same]
          by_cases hns : s.scSizeGroup pickG + 1 = UB pickG
          · rw [if_pos hns, upd_same]
            symm
            rw [decide_eq_false_iff_not]
            omega
          · rw [if_neg hns, hD pickG]
            refine decide_eq_decide.mpr ?_
            constructor
            · intro _; omega
            · intro _; omega
        · rw [upd_ne _ _ hg]
          by_cases hns : s.scSizeGroup pickG + 1 = UB pickG
          · rw [if_pos hns, upd_ne _ _ hg]
            exact hD g
          · rw [if_neg hns]
            exact hD g
      · intro g hgK
        show LB g ≤ upd s.scSizeGroup pickG (s.scSizeGroup pickG + 1) g
        by_cases hg : g = pickG
        · subst hg
          rw [upd_same]
          have := hE pickG hgK
          omega
        · rw [upd_ne _ _ hg]
          exact hE g hgK
      · show s.sum + 1 = ∑ g ∈ Finset.range K,
            upd s.scSizeGroup pickG (s.scSizeGroup pickG + 1) g
        have hagree : ∀ j, j ≠ pickG →
            upd s.scSizeGroup pickG (s.scSizeGroup pickG + 1) j
              = s.scSizeGroup j := by
          intro j hj
          rw [upd_ne _ _ hj]
        have hSS : (∑ j ∈ Finset.range K,
              upd s.scSizeGroup pickG (s.scSizeGroup pickG + 1) j)
            = (∑ j ∈ Finset.range K, s.scSizeGroup j)
              + (upd s.scSizeGroup pickG (s.scSizeGroup pickG + 1) pickG
                - s.scSizeGroup pickG) :=
          sum_upd_point hpickK hagree
        rw [hSS, upd_same, hF]
        ring
    have hMnext : s'.sum + (M : ℤ) ≤ (N : ℤ) := by
      show s.sum + 1 + (M : ℤ) ≤ _
      omega
    obtain ⟨hIend, hcend⟩ := ih s' hI' hMnext
    refine ⟨hIend, ?_⟩
    rw [hcend]
    show s.sum + 1 + (M : ℤ) = s.sum + ((M : ℕ) + 1 : ℕ)
    push_cast
    ring

theorem cxFold_inv {N K : ℕ} {UB : ℕ → ℤ} {dm1 dm2 : ℕ → ℕ → ℚ}
    {coins : ℕ → Bool} {rnd : ℕ → ℕ}
    (hUB : ∀ g < K, 0 ≤ UB g) (hNb : (N : ℤ) < 999999) :
    ∀ (l : List ℕ) (st : CxSt), KInv N K UB st → openCnt K st = l.length →
      KInv N K UB (l.foldl (cxIter N K dm1 dm2 coins rnd) st)
        ∧ openCnt K (l.foldl (cxIter N K dm1 dm2 coins rnd) st) = 0 := by
  intro l
  induction l with
  | nil =>
    intro st hI hc
    rw [List.foldl_nil]
    exact ⟨hI, hc⟩
  | cons k l ih =>
    intro st hI hc
    rw [List.foldl_cons]
    have hopen : 0 < openCnt K st := by
      rw [hc]
      simp
    obtain ⟨h1, h2⟩ := cxIter_inv hUB hNb st k hI hopen
    refine ih _ h1 ?_
    rw [h2, hc]
    simp

theorem cxInit_inv {N K : ℕ} {D : ℕ → ℕ → ℚ} {UB : ℕ → ℤ} {q1 q2 : ℕ → ℕ}
    (hUB0 : ∀ g < K, 0 ≤ UB g) :
    KInv N K UB
      { sc := fun _ => -1
        scSizeGroup := fun _ => 0
        p1 := fun i => (q1 i : ℤ)
        p2 := fun i => (q2 i : ℤ)
        gDiv_p1 := Build_GroupDiv_For_Crossover N D q1
        gDiv_p2 := Build_GroupDiv_For_Crossover N D q2
        vEle := fun i => (i : ℤ)
        ub := UB
        t := 0 }
      ∧ openCnt K
        { sc := fun _ => -1
          scSizeGroup := fun _ => 0
          p1 := fun i => (q1 i : ℤ)
          p2 := fun i => (q2 i : ℤ)
          gDiv_p1 := Build_GroupDiv_For_Crossover N D q1
          gDiv_p2 := Build_GroupDiv_For_Crossover N D q2
          vEle := fun i => (i : ℤ)
          ub := UB
          t := 0 } = K := by
  have hcnt0 : ∀ g : ℕ, cnt N (fun _ => (-1 : ℤ)) (g : ℤ) = 0 := by
    intro g
    unfold cnt
    have : ((Finset.range N).filter fun _ => (-1 : ℤ) = (g : ℤ)) = ∅ := by
      refine Finset.filter_false_of_mem ?_
      intro i _
      have : (0 : ℤ) ≤ (g : ℤ) := Int.ofNat_nonneg _
      omega
    rw [this, Finset.card_empty]
    rfl
  constructor
  · refine ⟨?_, ?_, ?_, ?_, ?_, ?_, ?_⟩
    · intro g
      exact Or.inr rfl
    · intro g hgK
      show (0 : ℤ) = cnt N (fun _ => -1) (g : ℤ)
      rw [hcnt0 g]
    · intro g hgK
      show (0 : ℤ) ≤ 0 ∧ (0 : ℤ) ≤ UB g
      exact ⟨le_refl _, hUB0 g hgK⟩
    · intro g hgK _
      exact hcnt0 g
    · intro i hi
      exact Or.inl ⟨rfl, rfl⟩
    · intro i hi _
      rfl
    · intro i hi _
      rfl
  · show ((Finset.range K).filter fun g => UB g ≠ -1).card = K
    have : ((Finset.range K).filter fun g => UB g ≠ -1) = Finset.range K := by
      refine Finset.filter_true_of_mem ?_
      intro g hg
      have := hUB0 g (Finset.mem_range.mp hg)
      omega
    rw [this, Finset.card_range]

/-- C1: for every two parent partitions that each satisfy the group
bounds (and nonnegative lower bounds, with `N` below the `999999`
sentinel used by the no-fit scan), the child produced by `Crossover`
assigns every element to exactly one group (`0 ≤ sc[i] < K`), every
group's final size lies within `[LB[g], UB[g]]`, and the recorded sizes
agree with the actual assignment counts. -/
theorem Crossover_feasible
    (N K : ℕ) (D : ℕ → ℕ → ℚ) (LB UB : ℕ → ℤ) (coins : ℕ → Bool) (rnd : ℕ → ℕ)
    (q1 q2 : ℕ → ℕ)
    (hK : 0 < K) (hNb : (N : ℤ) < 999999)
    (hLB0 : ∀ g < K, 0 ≤ LB g)
    (hq1 : ∀ i < N, q1 i < K) (hq2 : ∀ i < N, q2 i < K)
    (hf1 : ∀ g < K, LB g ≤ parentCnt N q1 g ∧ parentCnt N q1 g ≤ UB g)
    (hf2 : ∀ g < K, LB g ≤ parentCnt N q2 g ∧ parentCnt N q2 g ≤ UB g) :
    (∀ i < N, 0 ≤ (Crossover N K D LB UB coins rnd q1 q2).1 i
        ∧ (Crossover N K D LB UB coins rnd q1 q2).1 i < (K : ℤ))
      ∧ (∀ g < K, LB g ≤ (Crossover N K D LB UB coins rnd q1 q2).2 g
          ∧ (Crossover N K D LB UB coins rnd q1 q2).2 g ≤ UB g)
      ∧ (∀ g < K, (Crossover N K D LB UB coins rnd q1 q2).2 g
          = cnt N (Crossover N K D LB UB coins rnd q1 q2).1 (g : ℤ)) := by
  have hpc0 : ∀ g, 0 ≤ parentCnt N q1 g := by
    intro g
    unfold parentCnt
    omega
  have hUB0 : ∀ g < K, 0 ≤ UB g :=
    fun g hg => le_trans (hpc0 g) (hf1 g hg).2
  have hLBUB : ∀ g < K, LB g ≤ UB g :=
    fun g hg => le_trans (hf1 g hg).1 (hf1 g hg).2
  have hsum1 : ∑ g ∈ Finset.range K, parentCnt N q1 g = (N : ℤ) :=
    parent_sum hq1
  have hLBN : ∑ g ∈ Finset.range K, LB g ≤ (N : ℤ) := by
    rw [← hsum1]
    exact Finset.sum_le_sum fun g hg => (hf1 g (Finset.mem_range.mp hg)).1
  have hNUB : (N : ℤ) ≤ ∑ g ∈ Finset.range K, UB g := by
    rw [← hsum1]
    exact Finset.sum_le_sum fun g hg => (hf1 g (Finset.mem_range.mp hg)).2
  simp only [Crossover]
  set dm1 := Build_Delta_Matrix N D q1 with hdm1
  set dm2 := Build_Delta_Matrix N D q2 with hdm2
  set st0 := ({ sc := fun _ => -1
                , scSizeGroup := fun _ => 0
                , p1 := fun i => (q1 i : ℤ)
                , p2 := fun i => (q2 i : ℤ)
                , gDiv_p1 := Build_GroupDiv_For_Crossover N D q1
                , gDiv_p2 := Build_GroupDiv_For_Crossover N D q2
                , vEle := fun i => (i : ℤ)
                , ub := UB
                , t := 0 } : CxSt) with hst0
  set stK := (List.range K).foldl (cxIter N K dm1 dm2 coins rnd) st0 with hstK
  have hInit := @cxInit_inv N K D UB q1 q2 hUB0
  obtain ⟨hKI, hKo⟩ := cxFold_inv hUB0 hNb (List.range K) st0 hInit.1
    (by rw [hInit.2, List.length_range])
  rw [← hstK] at hKI hKo
  obtain ⟨k1, k2, k3, k4, k5, k6, k7⟩ := hKI
  set sumLB := ∑ g ∈ Finset.range K, LB g with hsumLB
  set count0 := (∑ g ∈ Finset.range K,
      if stK.scSizeGroup g < LB g then stK.scSizeGroup g else LB g)
    + (((List.range N).filter fun i => decide (stK.vEle i ≠ -1)).length : ℤ)
    with hcount0
  have hvESc : ∀ i ∈ Finset.range N, (stK.vEle i ≠ -1 ↔ stK.sc i = -1) := by
    intro i hi
    rcases k5 i (Finset.mem_range.mp hi) with hq | hq
    · refine ⟨fun _ => hq.1, fun _ => ?_⟩
      rw [hq.2]
      have : (0 : ℤ) ≤ (i : ℤ) := Int.ofNat_nonneg _
      omega
    · refine ⟨fun h => absurd hq.2.2 h, fun h => ?_⟩
      exact absurd h (by omega)
  have hlenF : (((List.range N).filter
        fun i => decide (stK.vEle i ≠ -1)).length : ℤ) = freeCnt N stK.sc := by
    rw [length_filter_range N fun i => stK.vEle i ≠ -1]
    unfold freeCnt
    congr 2
    exact Finset.filter_congr hvESc
  set st2 := ({ sc := stK.sc
                , scSizeGroup := stK.scSizeGroup
                , vEle := stK.vEle
                , LBGroup := fun g => decide (stK.scSizeGroup g < LB g)
                , BigThanLB := fun g => decide (LB g < stK.scSizeGroup g)
                , UBGroup := fun _ => false
                , count := count0
                , sumLowerThanLB := ∑ g ∈ Finset.range K,
                    if stK.scSizeGroup g < LB g then stK.scSizeGroup g else 0
                , sum := 0
                , t := stK.t } : CxSt2) with hst2
  have hR1 : R1Inv N K LB UB st2 := by
    refine ⟨?_, ?_, ?_, ?_, ?_, ?_, ?_⟩
    · intro g hgK
      exact k2 g hgK
    · intro g hgK
      exact k3 g hgK
    · intro i hi
      exact k5 i hi
    · intro g
      rfl
    · intro g
      rfl
    · show count0 = _
      rw [hcount0, hlenF]
    · rfl
  set st3 := lbFreeLoop N K LB rnd (sumLB - count0).toNat st2 with hst3
  have hstep1 : R1Inv N K LB UB st3 ∧ sumLB ≤ st3.count := by
    by_cases hcase : count0 ≤ sumLB
    · have hMle : st2.count + (((sumLB - count0).toNat : ℕ) : ℤ) ≤ sumLB := by
        show count0 + _ ≤ _
        omega
      obtain ⟨h1, h2⟩ := lbFreeLoop_inv hK hLB0 hLBN (sumLB - count0).toNat st2
        hR1 hMle
      rw [← hst3] at h1 h2
      refine ⟨h1, ?_⟩
      rw [h2]
      show sumLB ≤ count0 + _
      omega
    · have hz : (sumLB - count0).toNat = 0 := by omega
      have h3eq : st3 = st2 := by
        rw [hst3, hz]
        rfl
      rw [h3eq]
      exact ⟨hR1, by show sumLB ≤ count0; omega⟩
  obtain ⟨hI3, hc3⟩ := hstep1
  obtain ⟨h3A, h3B, h3C, h3D, h3E, h3F, h3G⟩ := hI3
  have hR2 : R2Inv N K LB UB st3.LBGroup st3 := by
    refine ⟨h3A, h3B, h3C, ?_, ?_, ?_, ?_, ?_⟩
    · intro g
      rw [h3E g, Bool.and_self]
    · intro g hf
      rw [h3E g, decide_eq_true_eq] at hf
      omega
    · intro g hgK hf
      rw [h3E g] at hf
      rw [decide_eq_false_iff_not] at hf
      omega
    · rw [h3G]
      refine Finset.sum_congr rfl ?_
      intro g _
      by_cases hc : st3.scSizeGroup g < LB g
      · rw [if_pos hc, if_pos (by rw [h3E g, decide_eq_true_eq]; exact hc)]
      · rw [if_neg hc, if_neg (by rw [h3E g]; simp [hc])]
    · have heq : ∑ g ∈ Finset.range K,
          (if st3.LBGroup g then LB g - st3.scSizeGroup g else 0)
          = sumLB - ∑ g ∈ Finset.range K,
            (if st3.scSizeGroup g < LB g then st3.scSizeGroup g else LB g) := by
        rw [hsumLB, ← Finset.sum_sub_distrib]
        refine Finset.sum_congr rfl ?_
        intro g _
        by_cases hc : st3.scSizeGroup g < LB g
        · rw [if_pos (by rw [h3E g, decide_eq_true_eq]; exact hc), if_pos hc]
        · rw [if_neg (by rw [h3E g]; simp [hc]), if_neg hc]
          ring
      rw [heq]
      rw [h3F] at hc3
      omega
  set sum5 := ∑ g ∈ Finset.range K,
    if st3.LBGroup g then LB g else 0 with hsum5
  have hlow5 : st3.sumLowerThanLB ≤ sum5 := by
    rw [hsum5, hR2.2.2.2.2.2.2.1]
    refine Finset.sum_le_sum ?_
    intro g _
    by_cases hf : st3.LBGroup g = true
    · rw [if_pos hf, if_pos hf]
      exact hR2.2.2.2.2.1 g hf
    · rw [if_neg hf, if_neg hf]
  set st4 := lbFillLoop N K LB rnd (sum5 - st3.sumLowerThanLB).toNat st3 with hst4
  have hM2 : st3.sumLowerThanLB
      + (((sum5 - st3.sumLowerThanLB).toNat : ℕ) : ℤ) ≤ sum5 := by
    omega
  obtain ⟨hI4, hc4⟩ := lbFillLoop_inv hK hLBUB (sum5 - st3.sumLowerThanLB).toNat
    st3 hR2 hM2
  rw [← hst4] at hI4 hc4
  obtain ⟨h4A, h4B, h4C, h4D, h4E, h4J, h4G, h4H⟩ := hI4
  have hlow4 : st4.sumLowerThanLB = sum5 := by
    rw [hc4]
    omega
  have hLBsz4 : ∀ g < K, LB g ≤ st4.scSizeGroup g := by
    have hzero : ∑ g ∈ Finset.range K,
        (if st3.LBGroup g then LB g - st4.scSizeGroup g else 0) = 0 := by
      have hsplit : ∀ g ∈ Finset.range K,
          (if st3.LBGroup g then LB g - st4.scSizeGroup g else 0)
          = (if st3.LBGroup g then LB g else 0)
            - (if st3.LBGroup g then st4.scSizeGroup g else 0) := by
        intro g _
        by_cases hf : st3.LBGroup g = true
        · rw [if_pos hf, if_pos hf, if_pos hf]
        · rw [if_neg hf, if_neg hf, if_neg hf]
          ring
      rw [Finset.sum_congr rfl hsplit, Finset.sum_sub_distrib, ← hsum5, ← h4G,
        hlow4]
      ring
    have hnn : ∀ g ∈ Finset.range K,
        0 ≤ (if st3.LBGroup g then LB g - st4.scSizeGroup g else 0) := by
      intro g _
      by_cases hf : st3.LBGroup g = true
      · rw [if_pos hf]
        have := h4E g hf
        omega
      · rw [if_neg hf]
    have hall := (Finset.sum_eq_zero_iff_of_nonneg hnn).mp hzero
    intro g hgK
    have hg := hall g (Finset.mem_range.mpr hgK)
    by_cases hf : st3.LBGroup g = true
    · rw [if_pos hf] at hg
      omega
    · have hf' : st3.LBGroup g = false := by
        cases hq : st3.LBGroup g
        · rfl
        · exact absurd hq hf
      exact h4J g hgK hf'
  set sum6 := ∑ g ∈ Finset.range K, st4.scSizeGroup g with hsum6
  have hscope4 : ∀ i < N, st4.sc i = -1 ∨ (0 ≤ st4.sc i ∧ st4.sc i < (K : ℤ)) := by
    intro i hi
    rcases h4C i hi with hq | hq
    · exact Or.inl hq.1
    · exact Or.inr ⟨hq.1, hq.2.1⟩
  have hsum6N : sum6 ≤ (N : ℤ) := by
    have hac := assigned_count (K := K) hscope4
    have hce : sum6 = ∑ g ∈ Finset.range K, cnt N st4.sc (g : ℤ) := by
      rw [hsum6]
      exact Finset.sum_congr rfl fun g hg => h4A g (Finset.mem_range.mp hg)
    have hfn : 0 ≤ freeCnt N st4.sc := by
      unfold freeCnt
      omega
    omega
  set st5e := ({ st4 with
                 UBGroup := fun g => decide (st4.scSizeGroup g < UB g)
                 sum := sum6 } : CxSt2) with hst5e
  have hR3 : R3Inv N K LB UB st5e := by
    refine ⟨?_, ?_, ?_, ?_, ?_, ?_⟩
    · intro g hgK
      exact h4A g hgK
    · intro g hgK
      exact h4B g hgK
    · intro i hi
      exact h4C i hi
    · intro g
      rfl
    · intro g hgK
      exact hLBsz4 g hgK
    · exact hsum6
  set st5 := ubFillLoop N K UB rnd ((N : ℤ) - sum6).toNat st5e with hst5
  have hM3 : st5e.sum + ((((N : ℤ) - sum6).toNat : ℕ) : ℤ) ≤ (N : ℤ) := by
    show sum6 + _ ≤ _
    omega
  obtain ⟨hI5, hc5⟩ := ubFillLoop_inv hK hNUB ((N : ℤ) - sum6).toNat st5e hR3 hM3
  rw [← hst5] at hI5 hc5
  obtain ⟨h5A, h5B, h5C, h5D, h5E, h5F⟩ := hI5
  have hsum5N : st5.sum = (N : ℤ) := by
    rw [hc5]
    show sum6 + _ = _
    omega
  have hscope5 : ∀ i < N, st5.sc i = -1 ∨ (0 ≤ st5.sc i ∧ st5.sc i < (K : ℤ)) := by
    intro i hi
    rcases h5C i hi with hq | hq
    · exact Or.inl hq.1
    · exact Or.inr ⟨hq.1, hq.2.1⟩
  have hfree5 : freeCnt N st5.sc = 0 := by
    have hac := assigned_count (K := K) hscope5
    have hce : ∑ g ∈ Finset.range K, cnt N st5.sc (g : ℤ)
        = ∑ g ∈ Finset.range K, st5.scSizeGroup g :=
      (Finset.sum_congr rfl fun g hg => h5A g (Finset.mem_range.mp hg)).symm
    rw [hce, ← h5F, hsum5N] at hac
    omega
  refine ⟨?_, ?_, ?_⟩
  · intro i hi
    show 0 ≤ st5.sc i ∧ st5.sc i < (K : ℤ)
    rcases h5C i hi with hq | hq
    · exfalso
      have hmem : i ∈ (Finset.range N).filter fun j => st5.sc j = -1 :=
        Finset.mem_filter.mpr ⟨Finset.mem_range.mpr hi, hq.1⟩
      have := Finset.card_pos.mpr ⟨i, hmem⟩
      unfold freeCnt at hfree5
      omega
    · exact ⟨hq.1, hq.2.1⟩
  · intro g hgK
    show LB g ≤ st5.scSizeGroup g ∧ st5.scSizeGroup g ≤ UB g
    exact ⟨h5E g hgK, (h5B g hgK).2⟩
  · intro g hgK
    show st5.scSizeGroup g = cnt N st5.sc (g : ℤ)
    exact h5A g hgK

theorem Crossover_feasible_witness :
    ((0 < 2) ∧ (∀ i < 2, i % 2 < 2)
      ∧ (∀ g < 2, (0 : ℤ) ≤ parentCnt 2 (fun i => i % 2) g
          ∧ parentCnt 2 (fun i => i % 2) g ≤ 2))
      ∧ (∀ g < 2,
          (0 : ℤ) ≤ (Crossover 2 2 (fun _ _ => 0) (fun _ => 0) (fun _ => 2)
              (fun _ => true) (fun _ => 0) (fun i => i % 2) (fun i => i % 2)).2 g
            ∧ (Crossover 2 2 (fun _ _ => 0) (fun _ => 0) (fun _ => 2)
              (fun _ => true) (fun _ => 0) (fun i => i % 2) (fun i => i % 2)).2 g
              ≤ 2) :=
  ⟨⟨by decide, by decide, by decide⟩,
    (Crossover_feasible 2 2 (fun _ _ => 0) (fun _ => 0) (fun _ => 2)
      (fun _ => true) (fun _ => 0) (fun i => i % 2) (fun i => i % 2)
      (by decide) (by decide) (by decide) (by decide) (by decide)
      (by decide) (by decide)).2.1⟩

end TPSDP
